import Mathlib

/-!
# Rolling-hash delta synchronisation (`rdiff.cpp`)

A shallow embedding of `rdiff.cpp`: the strong hash `MurmurHash3`, the weak
rolling hash `KarpRabinHash`, the signature builder `GenerateSignatures` and
the delta matcher `GenerateDelta`, followed by theorems about them.

Conventions of the embedding.

* A document (`std::string`) is a `List Byte`; iterators into it are offsets.
* `uint32_t` values are natural numbers kept below `2 ^ 32` by an explicit
  `% 2 ^ 32` wherever the program's arithmetic can wrap, including the
  conversions to `uint32_t` inside `std::min<uint32_t>`.
* Whether plain `char` is signed is implementation-defined in C++ (it is signed
  on x86-64); it is the parameter `charSigned` of every function that reads a
  `char` as a number.
* The static members of `KarpRabinHash` are a record passed explicitly.
* A loop is a function with fuel that returns `none` when the fuel runs out;
  the fuel given to each loop is enough for every run of the loop that exits.
* `ReadLE32` is a `memcpy` on a little-endian host.
-/

namespace RollingHash

/-- One byte of a document, the value `0..255` stored in a `char`. -/
abbrev Byte := Fin 256

/-- The bytes of a string literal of ASCII characters. -/
def bytesOf (s : String) : List Byte :=
  s.toList.map (fun c => Fin.ofNat c.toNat)

/-- The number of values of a `uint32_t`. -/
abbrev U32 : Nat := 4294967296

/-- Integral promotion of a plain `char` holding byte `c` to `int`: the byte
value when `char` is unsigned, its two's-complement reading when signed. -/
def charToInt (charSigned : Bool) (c : Byte) : Int :=
  if charSigned && decide (128 ≤ c.val) then (c.val : Int) - 256 else (c.val : Int)

/-- The conversion `uint32_t(c)` of a plain `char` holding byte `c`. -/
def charToUInt32 (charSigned : Bool) (c : Byte) : Nat :=
  (charToInt charSigned c % (U32 : Int)).toNat

/-- Rotation `ROTL32(x, r)` of a `uint32_t`, `(x << r) | (x >> (32 - r))`. -/
def ROTL32 (x r : Nat) : Nat :=
  ((x <<< r) % U32) ||| (x >>> (32 - r))

/-- Little-endian load `ReadLE32(ptr)` of the four bytes at the start of `ptr`
(a `memcpy` on a little-endian host). -/
def ReadLE32 (ptr : List Byte) : Nat :=
  (ptr.getD 0 0).val + (ptr.getD 1 0).val * 256 + (ptr.getD 2 0).val * 65536
    + (ptr.getD 3 0).val * 16777216

/-- The word `k1` assembled by the `switch (data.size() & 3)` of `MurmurHash3`
from the tail bytes, with the fall-through of cases 3, 2, 1, before it is
multiplied and rotated. -/
def MurmurHash3.tailK1 (charSigned : Bool) (tail : List Byte) (n : Nat) : Nat :=
  let k1 := 0
  let k1 := if n = 3 then k1 ^^^ ((charToUInt32 charSigned (tail.getD 2 0) <<< 16) % U32) else k1
  let k1 := if n = 3 ∨ n = 2 then k1 ^^^ ((charToUInt32 charSigned (tail.getD 1 0) <<< 8) % U32)
    else k1
  if n = 3 ∨ n = 2 ∨ n = 1 then k1 ^^^ (tail.getD 0 0).val else k1

/-- The strong hash `MurmurHash3(seed, data)`. -/
def MurmurHash3 (charSigned : Bool) (seed : Nat) (data : List Byte) : Nat :=
  let c1 := 0xcc9e2d51
  let c2 := 0x1b873593
  let nblocks := data.length / 4
  let h1 := (List.range nblocks).foldl (fun h1 i =>
    let k1 := ReadLE32 (data.drop (i * 4))
    let k1 := (k1 * c1) % U32
    let k1 := ROTL32 k1 15
    let k1 := (k1 * c2) % U32
    let h1 := h1 ^^^ k1
    let h1 := ROTL32 h1 13
    (h1 * 5 + 0xe6546b64) % U32) seed
  let tail := data.drop (nblocks * 4)
  let n := data.length &&& 3
  let h1 :=
    if n = 3 ∨ n = 2 ∨ n = 1 then
      let k1 := MurmurHash3.tailK1 charSigned tail n
      let k1 := (k1 * c1) % U32
      let k1 := ROTL32 k1 15
      let k1 := (k1 * c2) % U32
      h1 ^^^ k1
    else h1
  let h1 := (h1 ^^^ data.length) % U32
  let h1 := h1 ^^^ (h1 >>> 16)
  let h1 := (h1 * 0x85ebca6b) % U32
  let h1 := h1 ^^^ (h1 >>> 13)
  let h1 := (h1 * 0xc2b2ae35) % U32
  h1 ^^^ (h1 >>> 16)

/-- The static members of the class `KarpRabinHash`: `BtoN` and the table
`hashvalues`. `hashvalues i` is the value that the expression `hashvalues[i]`
reads: for `0 ≤ i < 256` an entry of the array, for any other `i` the
`uint32_t` that lies at that displacement outside the array. -/
structure KarpRabinHash where
  /-- The static member `BtoN`. -/
  BtoN : Nat
  /-- The value read by `hashvalues[i]`. -/
  hashvalues : Int → Nat

namespace KarpRabinHash

/-- The constant `B = 37`. -/
abbrev B : Nat := 37

/-- The constant `mask = (1 << 19) - 1`. -/
abbrev mask : Nat := (1 <<< 19) - 1

/-- The constant `nbrofchars = 1 << 8`. -/
abbrev nbrofchars : Nat := 1 <<< 8

/-- The static function `init(blockSize)`. `rand i` is the value returned by
the `i`-th call of `std::rand()` after the seeding with the clock, and
`outside` the storage around the array, which `init` does not write. -/
def init (rand : Nat → Nat) (outside : Int → Nat) (blockSize : Nat) : KarpRabinHash where
  BtoN := (List.range blockSize).foldl (fun BtoN _ => ((BtoN * B) % U32) &&& mask) 1
  hashvalues := fun i =>
    if 0 ≤ i ∧ i < (nbrofchars : Int) then rand i.toNat % mask else outside i % U32

/-- The static function `hash(s)`, the weak hash of a window computed from
scratch. The subscript `hashvalues[s[k]]` promotes the plain `char` `s[k]`.
The counter `j` of the inner loop is an `int`; it does not overflow for a
window shorter than `2 ^ 31` bytes. -/
def hash (charSigned : Bool) (st : KarpRabinHash) (s : List Byte) : Nat :=
  (List.range s.length).foldl (fun ret k =>
    let x := (List.range (s.length - 1 - k)).foldl (fun x _ => ((x * B) % U32) &&& mask) 1
    let x := ((x * st.hashvalues (charToInt charSigned (s.getD k 0))) % U32) &&& mask
    ((ret + x) % U32) &&& mask) 0

/-- The member function `update(out, in)` applied to the member `hashvalue`;
the result is the new `hashvalue`. Both arguments are `uint8_t`. -/
def update (st : KarpRabinHash) (hashvalue : Nat) (out in_ : Byte) : Nat :=
  ((((B * hashvalue) % U32 + st.hashvalues (in_.val : Int)) % U32
      + (U32 - (st.BtoN * st.hashvalues (out.val : Int)) % U32)) % U32) &&& mask

end KarpRabinHash

/-- A `std::string_view` borrowed from a document: the offset of its first byte
in the document and the bytes it spans. The default view (null pointer, size
zero) has offset `0` and no bytes. -/
structure string_view where
  /-- Offset in the document of the first byte of the view. -/
  offset : Nat
  /-- The bytes of the view, `size()` of them. -/
  bytes : List Byte
deriving DecidableEq, Inhabited

/-- The view `to_string_view(begin, end)` between two iterators of `s`. -/
def to_string_view (s : List Byte) (begin end_ : Nat) : string_view :=
  ⟨begin, (s.drop begin).take (end_ - begin)⟩

/-- The record `BlockSignature`. -/
structure BlockSignature where
  /-- Block index. -/
  idx : Nat
  /-- Strong checksum. -/
  strong : Nat
  /-- Roll hash. -/
  weak : Nat
  /-- The bytes of the block. -/
  data : string_view
deriving DecidableEq, Inhabited

/-- The constant `seed = 0x1234u`. -/
abbrev seed : Nat := 0x1234

/-- The `for` loop of `GenerateSignatures`, from the state `result`, `idx`,
`it`, `end`; `none` when the fuel runs out before the loop exits. -/
def GenerateSignatures.loop (charSigned : Bool) (st : KarpRabinHash) (s : List Byte)
    (blockSize : Nat) : Nat → List BlockSignature → Nat → Nat → Nat → Option (List BlockSignature)
  | 0, _, _, _, _ => none
  | fuel + 1, result, idx, it, end_ =>
    if it = end_ then some result
    else
      let buf := to_string_view s it end_
      let result := result ++ [BlockSignature.mk idx (MurmurHash3 charSigned seed buf.bytes)
        (KarpRabinHash.hash charSigned st buf.bytes) buf]
      let it := end_
      let end_ :=
        if end_ ≠ s.length then end_ + min ((s.length - end_) % U32) blockSize else end_
      GenerateSignatures.loop charSigned st s blockSize fuel result ((idx + 1) % U32) it end_

/-- The function `GenerateSignatures(s, blockSize)`. Every pass of its loop
moves `it` forward, so `s.length + 1` passes are enough. -/
def GenerateSignatures (charSigned : Bool) (st : KarpRabinHash) (s : List Byte)
    (blockSize : Nat) : Option (List BlockSignature) :=
  GenerateSignatures.loop charSigned st s blockSize (s.length + 1) [] 0 0
    (0 + min (s.length % U32) blockSize)

/-- The record `Delta`. -/
structure Delta where
  /-- Block index. -/
  idx : Nat
  /-- Start offset of the block. -/
  start : Nat
  /-- End offset of the block. -/
  end_ : Nat
  /-- Whether no window of the target matched the block. -/
  missing : Bool
  /-- The literal bytes of the target recorded with the match. -/
  data : string_view
deriving DecidableEq, Inhabited

/-- A `std::map<uint32_t, Delta>`: its entries in increasing key order. -/
abbrev DeltaMap := List (Nat × Delta)

/-- The call `deltas.emplace(k, v)`: inserts unless the key is present. -/
def emplace : DeltaMap → Nat → Delta → DeltaMap
  | [], k, v => [(k, v)]
  | (k', v') :: m, k, v =>
    if k < k' then (k, v) :: (k', v') :: m
    else if k = k' then (k', v') :: m
    else (k', v') :: emplace m k v

/-- The access `deltas[k]` followed by the assignments `f` through the
reference it returns; an absent key is first inserted with a value-initialised
`Delta`. -/
def modify : DeltaMap → Nat → (Delta → Delta) → DeltaMap
  | [], k, f => [(k, f ⟨0, 0, 0, false, ⟨0, []⟩⟩)]
  | (k', v') :: m, k, f =>
    if k < k' then (k, f ⟨0, 0, 0, false, ⟨0, []⟩⟩) :: (k', v') :: m
    else if k = k' then (k', f v') :: m
    else (k', v') :: modify m k f

/-- The first loop of `GenerateDelta`: the buckets `mapsigs`, as the function
from a weak hash to its bucket, and the pre-populated `deltas`. -/
def GenerateDelta.tables (blockSize : Nat) (sigs : List BlockSignature) :
    (Nat → List BlockSignature) × DeltaMap :=
  sigs.foldl (fun acc sig =>
    let idx := sig.idx
    let start := (idx * blockSize) % U32
    (fun w => if w = sig.weak then acc.1 w ++ [sig] else acc.1 w,
     emplace acc.2 idx ⟨idx, start, (start + blockSize) % U32, true, ⟨0, []⟩⟩)) (fun _ => [], [])

/-- A window accepted by the scan, kept for the statement of theorems only:
the iterators `it`, `end`, `last_it` and the member `hashvalue` when the match
was found, and the signature matched. -/
structure Accepted where
  /-- Start of the window. -/
  it : Nat
  /-- End of the window. -/
  end_ : Nat
  /-- End of the window accepted before, or 0. -/
  last_it : Nat
  /-- The running weak hash at that point. -/
  hashvalue : Nat
  /-- The signature matched. -/
  sig : BlockSignature
deriving DecidableEq

/-- The variables of the `while` loop of `GenerateDelta`, and the list of the
windows accepted so far, latest first (not a variable of the program). -/
structure ScanState where
  /-- The iterator `it`, start of the window. -/
  it : Nat
  /-- The iterator `last_it`. -/
  last_it : Nat
  /-- The iterator `end`, end of the window. -/
  end_ : Nat
  /-- The member `khash.hashvalue`. -/
  hashvalue : Nat
  /-- The map `deltas`. -/
  deltas : DeltaMap
  /-- Windows accepted so far, latest first. -/
  accepted : List Accepted

/-- The search for `sig` at the top of the loop body of `GenerateDelta`: the
bucket of the running weak hash, then the first entry of the bucket whose
strong hash is that of the window. -/
def GenerateDelta.findSig (charSigned : Bool) (s : List Byte)
    (mapsigs : Nat → List BlockSignature) (σ : ScanState) : Option BlockSignature :=
  let sgs := mapsigs σ.hashvalue
  if sgs.isEmpty then none
  else
    let hash := MurmurHash3 charSigned seed (to_string_view s σ.it σ.end_).bytes
    sgs.find? (fun s => s.strong == hash)

/-- One pass of the `while` loop of `GenerateDelta`; `none` when the loop
exits, by its condition or by `break`. -/
def GenerateDelta.step (charSigned : Bool) (st : KarpRabinHash) (s : List Byte)
    (blockSize : Nat) (mapsigs : Nat → List BlockSignature) (σ : ScanState) :
    Option ScanState :=
  if σ.it = s.length then none
  else
    match GenerateDelta.findSig charSigned s mapsigs σ with
    | some sig =>
      let deltas := modify σ.deltas sig.idx
        (fun delta => { delta with missing := false, data := to_string_view s σ.last_it σ.it })
      let accepted := ⟨σ.it, σ.end_, σ.last_it, σ.hashvalue, sig⟩ :: σ.accepted
      let it := σ.end_
      let last_it := it
      if it ≠ s.length then
        let end_ := σ.end_ + min ((s.length - σ.end_) % U32) blockSize
        some ⟨it, last_it, end_, KarpRabinHash.hash charSigned st (to_string_view s it end_).bytes,
          deltas, accepted⟩
      else some ⟨it, last_it, σ.end_, σ.hashvalue, deltas, accepted⟩
    | none =>
      if σ.end_ = s.length then none
      else
        some ⟨σ.it + 1, σ.last_it, σ.end_ + 1,
          KarpRabinHash.update st σ.hashvalue (s.getD σ.it 0) (s.getD σ.end_ 0),
          σ.deltas, σ.accepted⟩

/-- The `while` loop of `GenerateDelta` from state `σ`: the state at the exit,
or `none` when the fuel runs out first. -/
def GenerateDelta.loop (charSigned : Bool) (st : KarpRabinHash) (s : List Byte)
    (blockSize : Nat) (mapsigs : Nat → List BlockSignature) : Nat → ScanState → Option ScanState
  | 0, _ => none
  | fuel + 1, σ =>
    match GenerateDelta.step charSigned st s blockSize mapsigs σ with
    | none => some σ
    | some σ' => GenerateDelta.loop charSigned st s blockSize mapsigs fuel σ'

/-- The state of `GenerateDelta` on entry to its `while` loop. -/
def GenerateDelta.start (charSigned : Bool) (st : KarpRabinHash) (s : List Byte)
    (blockSize : Nat) (sigs : List BlockSignature) : ScanState :=
  let end_ := 0 + min (s.length % U32) blockSize
  ⟨0, 0, end_, KarpRabinHash.hash charSigned st (to_string_view s 0 end_).bytes,
    (GenerateDelta.tables blockSize sigs).2, []⟩

/-- The run of `GenerateDelta(s, blockSize, sigs)` up to the exit of its loop.
A pass that does not move `it` forward accepts an empty window; it is followed
by a pass that moves `it`, by the exit, or by the same pass for ever, so a loop
that exits does so within `2 * s.length + 2` passes. -/
def GenerateDelta.run (charSigned : Bool) (st : KarpRabinHash) (s : List Byte)
    (blockSize : Nat) (sigs : List BlockSignature) : Option ScanState :=
  GenerateDelta.loop charSigned st s blockSize (GenerateDelta.tables blockSize sigs).1
    (2 * s.length + 2) (GenerateDelta.start charSigned st s blockSize sigs)

/-- The function `GenerateDelta(s, blockSize, sigs)`: the map it returns, or
`none` when its loop does not exit. -/
def GenerateDelta (charSigned : Bool) (st : KarpRabinHash) (s : List Byte)
    (blockSize : Nat) (sigs : List BlockSignature) : Option DeltaMap :=
  (GenerateDelta.run charSigned st s blockSize sigs).map (fun σ => σ.deltas)

/-- The record `CSigDelta`. -/
structure CSigDelta where
  /-- The signatures of the first document. -/
  sig : List BlockSignature
  /-- The plan for the second document. -/
  delta : DeltaMap
deriving DecidableEq

/-- The function `calculateDiff(blockSize, s1, s2)`; its `int` argument is
converted to `uint32_t` at each of the three calls. -/
def calculateDiff (charSigned : Bool) (rand : Nat → Nat) (outside : Int → Nat)
    (blockSize : Int) (s1 s2 : List Byte) : Option CSigDelta :=
  let blockSize := (blockSize % (U32 : Int)).toNat
  let st := KarpRabinHash.init rand outside blockSize
  match GenerateSignatures charSigned st s1 blockSize with
  | none => none
  | some sig =>
    match GenerateDelta charSigned st s2 blockSize sig with
    | none => none
    | some delta => some ⟨sig, delta⟩

/-! ## Definitions used to state the theorems -/

namespace KarpRabinHash

/-- The weight that `hash` gives to byte `c`: the read `hashvalues[s[k]]`. -/
def weight (charSigned : Bool) (st : KarpRabinHash) (c : Byte) : Nat :=
  st.hashvalues (charToInt charSigned c)

/-- The value of a window as a polynomial in `B`, not reduced. -/
def poly (charSigned : Bool) (st : KarpRabinHash) : List Byte → Nat
  | [] => 0
  | c :: t => B ^ t.length * weight charSigned st c + poly charSigned st t

/-- The term that the pass `k` of the outer loop of `hash` adds. -/
def term (charSigned : Bool) (st : KarpRabinHash) (s : List Byte) (k : Nat) : Nat :=
  (B ^ (s.length - 1 - k) % 524288 * weight charSigned st (s.getD k 0)) % 524288

end KarpRabinHash

/-- The signature that block `i` of the document `s` must get: index `i`, the
bytes `s[i * B, min (i * B + B) (len s))`, and their two hashes. -/
def sigAt (charSigned : Bool) (st : KarpRabinHash) (s : List Byte) (blockSize i : Nat) :
    BlockSignature :=
  let buf := to_string_view s (i * blockSize) (min (i * blockSize + blockSize) s.length)
  ⟨i, MurmurHash3 charSigned seed buf.bytes, KarpRabinHash.hash charSigned st buf.bytes, buf⟩

/-- The number of blocks of a document of `len` bytes, `ceil (len / blockSize)`. -/
def blockCount (len blockSize : Nat) : Nat := (len + blockSize - 1) / blockSize


/-- The keys of a `std::map`, in order. -/
def keys (m : DeltaMap) : List Nat := m.map Prod.fst

/-- The entry that the first loop of `GenerateDelta` makes for a signature of
index `idx`. -/
def freshDelta (blockSize idx : Nat) : Delta :=
  ⟨idx, (idx * blockSize) % U32, ((idx * blockSize) % U32 + blockSize) % U32, true, ⟨0, []⟩⟩

/-- The window `[it, end)` of the target that a scan state looks at. -/
def ScanState.window (s : List Byte) (σ : ScanState) : List Byte :=
  (to_string_view s σ.it σ.end_).bytes

/-- The map `deltas` on entry to the scan: one fresh entry for each index of
the signature table. -/
def prepopulated (blockSize : Nat) (sigs : List BlockSignature) : DeltaMap :=
  sigs.foldl (fun d sg => emplace d sg.idx (freshDelta blockSize sg.idx)) []

/-- The test that the search for `sig` applies to the signatures in table
order: same weak hash as the running one, same strong hash as the window. -/
def accepts (charSigned : Bool) (s : List Byte) (σ : ScanState) (sg : BlockSignature) : Bool :=
  decide (σ.hashvalue = sg.weak) && (sg.strong == MurmurHash3 charSigned seed (σ.window s))

/-- The state after the pass that accepts the signature `sg` in state `σ`. -/
def afterMatch (charSigned : Bool) (st : KarpRabinHash) (s : List Byte) (blockSize : Nat)
    (σ : ScanState) (sg : BlockSignature) : ScanState :=
  let deltas := modify σ.deltas sg.idx
    (fun delta => { delta with missing := false, data := to_string_view s σ.last_it σ.it })
  let accepted := ⟨σ.it, σ.end_, σ.last_it, σ.hashvalue, sg⟩ :: σ.accepted
  if σ.end_ ≠ s.length then
    ⟨σ.end_, σ.end_, σ.end_ + min ((s.length - σ.end_) % U32) blockSize,
      KarpRabinHash.hash charSigned st
        (to_string_view s σ.end_ (σ.end_ + min ((s.length - σ.end_) % U32) blockSize)).bytes,
      deltas, accepted⟩
  else ⟨σ.end_, σ.end_, σ.end_, σ.hashvalue, deltas, accepted⟩

/-- The state after the pass that slides the window of state `σ` by one byte. -/
def afterSlide (st : KarpRabinHash) (s : List Byte) (σ : ScanState) : ScanState :=
  ⟨σ.it + 1, σ.last_it, σ.end_ + 1,
    KarpRabinHash.update st σ.hashvalue (s.getD σ.it 0) (s.getD σ.end_ 0),
    σ.deltas, σ.accepted⟩

/-- The accepted windows, latest first, form a chain that ends at `q`: each one
starts its literal where the one before ended, the first at offset 0. -/
def chained : List Accepted → Nat → Prop
  | [], q => q = 0
  | a :: l, q => q = a.end_ ∧ a.last_it ≤ a.it ∧ a.it ≤ a.end_ ∧ chained l a.last_it

/-- The part of a map that the scan never changes: key, `idx`, `start`, `end`. -/
def skeleton (m : DeltaMap) : List (Nat × Nat × Nat × Nat) :=
  m.map (fun p => (p.1, p.2.idx, p.2.start, p.2.end_))

/-- The entry `p` of the map agrees with the windows accepted: it is fresh
when no window was accepted for its key, and otherwise it is matched and
holds the literal recorded with the latest window accepted for its key. -/
def linked (s : List Byte) (accepted : List Accepted) (p : Nat × Delta) : Prop :=
  match accepted.find? (fun a => decide (a.sig.idx = p.1)) with
  | none => p.2.missing = true ∧ p.2.data = ⟨0, []⟩
  | some a => p.2.missing = false ∧ p.2.data = to_string_view s a.last_it a.it

/-- What holds of every state of the scan of `s`, whatever the inputs. -/
structure Sound (charSigned : Bool) (s : List Byte) (blockSize : Nat)
    (sigs : List BlockSignature) (σ : ScanState) : Prop where
  /-- The literal start is not after the window. -/
  last_le : σ.last_it ≤ σ.it
  /-- The window is a range. -/
  it_le : σ.it ≤ σ.end_
  /-- The window lies in the target. -/
  end_le : σ.end_ ≤ s.length
  /-- Keys, `idx`, `start` and `end` are those of the pre-populated map. -/
  skel : skeleton σ.deltas = skeleton (prepopulated blockSize sigs)
  /-- Every entry agrees with the windows accepted. -/
  link : ∀ p ∈ σ.deltas, linked s σ.accepted p
  /-- Every accepted window passed the test on its signature, which is one of
  the table. -/
  events : ∀ a ∈ σ.accepted, a.sig ∈ sigs ∧ a.hashvalue = a.sig.weak ∧
    a.sig.strong = MurmurHash3 charSigned seed (to_string_view s a.it a.end_).bytes ∧
    a.end_ ≤ s.length
  /-- The accepted windows form a chain up to `last_it`. -/
  chain : chained σ.accepted σ.last_it

/-- The window of a state is the window hashed: either the scan is at the end
of the target, or the member `hashvalue` is the hash of the window. -/
def Rolling (charSigned : Bool) (st : KarpRabinHash) (s : List Byte) (σ : ScanState) : Prop :=
  σ.it ≠ s.length → σ.hashvalue = KarpRabinHash.hash charSigned st (σ.window s)

/-- The test of the search for `sig`, for a window that has the two hashes of
the signature `x`. -/
def sameAs (x : BlockSignature) (sg : BlockSignature) : Bool :=
  decide (x.weak = sg.weak) && (sg.strong == x.strong)

/-- What holds of every state of the scan of a reference `R` against its own
signature table: the window starts at a block boundary, no literal is
pending, the running hash is that of the window, every accepted window was a
block, accepted for the first signature with the hashes of that block, and
every block before the window has been accepted. -/
structure Aligned (charSigned : Bool) (st : KarpRabinHash) (R : List Byte) (blockSize : Nat)
    (σ : ScanState) : Prop where
  /-- No literal is pending. -/
  last_eq : σ.last_it = σ.it
  /-- The window starts at a block boundary. -/
  boundary : σ.it = R.length ∨ ∃ j, j < blockCount R.length blockSize ∧ σ.it = j * blockSize
  /-- The running hash is the hash of the window. -/
  rolling : Rolling charSigned st R σ
  /-- Every accepted window was a block, accepted for the first signature with
  its hashes. -/
  events : ∀ a ∈ σ.accepted, a.last_it = a.it ∧
    ∃ i, i < blockCount R.length blockSize ∧ a.it = i * blockSize ∧
      ((List.range (blockCount R.length blockSize)).map
          (sigAt charSigned st R blockSize)).find?
        (sameAs (sigAt charSigned st R blockSize i)) = some a.sig
  /-- Every block before the window has been accepted. -/
  done : ∀ i, i < blockCount R.length blockSize → i * blockSize < σ.it →
    ∃ a ∈ σ.accepted, a.it = i * blockSize

/-- The bytes of block `i` of the reference `R`. -/
def blockBytes (R : List Byte) (blockSize i : Nat) : List Byte :=
  (to_string_view R (i * blockSize) (min (i * blockSize + blockSize) R.length)).bytes

/-- The window of the target `T` that starts at offset `p`. -/
def windowAt (T : List Byte) (blockSize p : Nat) : List Byte :=
  (to_string_view T p (min (p + blockSize) T.length)).bytes

/-- The strong hash tells the blocks of `R` from the windows of `T`: a block
and a window with the same strong hash have the same bytes. -/
def strongSeparates (charSigned : Bool) (R T : List Byte) (blockSize : Nat) : Bool :=
  (List.range (blockCount R.length blockSize)).all (fun i =>
    (List.range T.length).all (fun p =>
      !(MurmurHash3 charSigned seed (blockBytes R blockSize i)
          == MurmurHash3 charSigned seed (windowAt T blockSize p))
        || decide (blockBytes R blockSize i = windowAt T blockSize p)))

/-- Two states of scans of the same target, under two weight tables, that are
at the same place with the same plan. -/
def sameScan (σ₁ σ₂ : ScanState) : Prop :=
  σ₁.it = σ₂.it ∧ σ₁.last_it = σ₂.last_it ∧ σ₁.end_ = σ₂.end_ ∧ σ₁.deltas = σ₂.deltas

/-- The reference of the first scenario of `main`. -/
def docA1 : List Byte := bytesOf
  "When wintertime rolls in and the days get hot enough that you need to cool off from the blazing heat"

/-- The target of the first scenario of `main`. -/
def docB1 : List Byte := bytesOf
  "When summertime rolls in and the days hot enough that you need to cool off from the blazing heat"

/-- The reference of the second and third scenarios of `main`. -/
def docA2 : List Byte := bytesOf
  "When summertime rolls in and the days get hot enough that you need to cool off from the blazing heat"

/-- The target of the second scenario of `main`. -/
def docB2 : List Byte := bytesOf
  "When summertime rolls in and the days get hot en ..... new additionough that you need to cool off from the blazing heat"

/-- A weight table with all weights zero, initialised for block size 16. -/
def zeroTable16 : KarpRabinHash := KarpRabinHash.init (fun _ => 0) (fun _ => 0) 16

/-- The target made of the reference `R` with the string `X` inserted at
offset `at_`. -/
def insertAt (R : List Byte) (at_ : Nat) (X : List Byte) : List Byte :=
  R.take at_ ++ X ++ R.drop at_

/-- What holds of every state of the scan of the reference `R` with `X`
inserted at the start of block `k`, against the signatures of `R`, when no
window that starts inside the insertion is accepted: the scan is at a block
before the insertion, inside the insertion with the literal pending from its
start, or at a block after it, and the blocks passed have been accepted, each
for the first signature of the table with the hashes of the block. -/
structure Inserted (charSigned : Bool) (st : KarpRabinHash) (R : List Byte) (blockSize k : Nat)
    (X : List Byte) (σ : ScanState) : Prop where
  /-- The running hash is the hash of the window. -/
  rolling : Rolling charSigned st (insertAt R (k * blockSize) X) σ
  /-- Where the scan is. -/
  phase :
    (∃ j, j ≤ k ∧ σ.it = j * blockSize ∧ σ.last_it = σ.it) ∨
    (∃ m, 0 < m ∧ m ≤ X.length ∧ σ.it = k * blockSize + m ∧ σ.last_it = k * blockSize) ∨
    (∃ j, k < j ∧ j ≤ blockCount R.length blockSize ∧
      σ.it = min (j * blockSize) R.length + X.length ∧ σ.last_it = σ.it)
  /-- The windows accepted are blocks, each accepted for the first signature
  with its hashes. -/
  events : ∀ a ∈ σ.accepted, ∃ i, i < blockCount R.length blockSize ∧
    ((List.range (blockCount R.length blockSize)).map
        (sigAt charSigned st R blockSize)).find?
      (sameAs (sigAt charSigned st R blockSize i)) = some a.sig ∧
    ((i < k ∧ a.last_it = i * blockSize ∧ a.it = i * blockSize) ∨
     (i = k ∧ a.last_it = k * blockSize ∧ a.it = k * blockSize + X.length) ∨
     (k < i ∧ a.last_it = i * blockSize + X.length ∧ a.it = i * blockSize + X.length))
  /-- The blocks passed have been accepted. -/
  done : ∀ i, i < blockCount R.length blockSize →
    (if i < k then i * blockSize < σ.it else i * blockSize + X.length < σ.it) →
    ∃ a ∈ σ.accepted, a.it = (if i < k then i * blockSize else i * blockSize + X.length)

/-- The state of the scan of `GenerateDelta(s, blockSize, sigs)` at the top of
pass `k` of its `while` loop, counted from 0: the state on entry, then one
pass after the other; `none` when the loop has exited before pass `k`. -/
def GenerateDelta.stateAt (charSigned : Bool) (st : KarpRabinHash) (s : List Byte)
    (blockSize : Nat) (sigs : List BlockSignature) : Nat → Option ScanState
  | 0 => some (GenerateDelta.start charSigned st s blockSize sigs)
  | k + 1 => (GenerateDelta.stateAt charSigned st s blockSize sigs k).bind
      (GenerateDelta.step charSigned st s blockSize (GenerateDelta.tables blockSize sigs).1)

/-- The end of the window accepted last, for a list of accepted windows with
the latest first; 0 when no window was accepted. -/
def lastEnd : List Accepted → Nat
  | [] => 0
  | a :: _ => a.end_

/-- The target of the third scenario of `main`. -/
def docB3 : List Byte := bytesOf
  "When summertim   e rolls in and the days get hot enough        that you need to cool off from the blazing heat"

namespace KarpRabinHash

/-- The weak hash as the specification describes it, with the modulus
`M = 2 ^ 19 - 1` and a table `T` of one weight for each byte value: the sum
over `k` of `((37 ^ (len s - 1 - k) mod M) * T[s[k]]) mod M`, reduced modulo
`M`. -/
def specHash (T : Nat → Nat) (s : List Byte) : Nat :=
  ((List.range s.length).map (fun k =>
    (37 ^ (s.length - 1 - k) % (2 ^ 19 - 1) * T (s.getD k 0).val) % (2 ^ 19 - 1))).sum
    % (2 ^ 19 - 1)

end KarpRabinHash

/-! # Theorems -/

/-! ## The weak hash as a polynomial -/

namespace KarpRabinHash

theorem and_mask (x : Nat) : x &&& mask = x % 524288 :=
  Nat.and_pow_two_sub_one_eq_mod x 19

theorem mod_U32_mod (x : Nat) : x % U32 % 524288 = x % 524288 :=
  Nat.mod_mod_of_dvd x (by decide)

theorem foldl_const {α β : Type} (g : α → α) (l : List β) (x : α) :
    l.foldl (fun x _ => g x) x = g^[l.length] x := by
  induction l generalizing x with
  | nil => rfl
  | cons b l ih => simp [ih]

theorem iterate_mulB (m : Nat) :
    (fun x => ((x * B) % U32) &&& mask)^[m] 1 = B ^ m % 524288 := by
  induction m with
  | zero => rfl
  | succ m ih =>
    rw [Function.iterate_succ_apply', ih, and_mask, mod_U32_mod, pow_succ, Nat.mod_mul_mod]

/-- The inner loop of `hash`, and the loop of `init`, compute `B ^ m` modulo
`2 ^ 19`. -/
theorem powLoop_eq (m : Nat) :
    (List.range m).foldl (fun x _ => ((x * B) % U32) &&& mask) 1 = B ^ m % 524288 := by
  rw [foldl_const (fun x => ((x * B) % U32) &&& mask), List.length_range, iterate_mulB]

theorem init_BtoN (rand : Nat → Nat) (outside : Int → Nat) (n : Nat) :
    (init rand outside n).BtoN = B ^ n % 524288 :=
  powLoop_eq n

theorem foldl_addmod (F : Nat → Nat) (l : List Nat) (r : Nat) :
    l.foldl (fun ret k => ((ret + F k) % U32) &&& mask) r % 524288
      = (r + (l.map F).sum) % 524288 := by
  induction l generalizing r with
  | nil => simp
  | cons a l ih =>
    simp only [List.foldl_cons, List.map_cons, List.sum_cons]
    rw [ih, and_mask, mod_U32_mod]
    omega

theorem foldl_addmod_lt (F : Nat → Nat) (l : List Nat) (r : Nat) (hr : r < 524288) :
    l.foldl (fun ret k => ((ret + F k) % U32) &&& mask) r < 524288 := by
  induction l generalizing r with
  | nil => simpa using hr
  | cons a l ih =>
    simp only [List.foldl_cons]
    apply ih
    rw [and_mask]
    exact Nat.mod_lt _ (by decide)

theorem hash_lt (charSigned : Bool) (st : KarpRabinHash) (s : List Byte) :
    hash charSigned st s < 524288 :=
  foldl_addmod_lt _ _ 0 (by decide)

theorem hash_eq_sum (charSigned : Bool) (st : KarpRabinHash) (s : List Byte) :
    hash charSigned st s = ((List.range s.length).map (term charSigned st s)).sum % 524288 := by
  have h1 := foldl_addmod (term charSigned st s) (List.range s.length) 0
  have h2 : hash charSigned st s
      = (List.range s.length).foldl
          (fun ret k => ((ret + term charSigned st s k) % U32) &&& mask) 0 := by
    unfold hash term weight
    simp only [powLoop_eq]
    simp only [and_mask, mod_U32_mod]
  rw [h2]
  rw [Nat.zero_add] at h1
  rw [← h1]
  exact (Nat.mod_eq_of_lt (foldl_addmod_lt _ _ 0 (by decide))).symm

theorem sum_term_modEq (charSigned : Bool) (st : KarpRabinHash) (s : List Byte) :
    ((List.range s.length).map (term charSigned st s)).sum % 524288
      = poly charSigned st s % 524288 := by
  induction s with
  | nil => rfl
  | cons c t ih =>
    have hshift : (List.range t.length).map (term charSigned st (c :: t) ∘ Nat.succ)
        = (List.range t.length).map (term charSigned st t) := by
      apply List.map_congr_left
      intro k hk
      have hk' : k < t.length := List.mem_range.mp hk
      simp only [Function.comp, term, List.length_cons, Nat.succ_eq_add_one,
        List.getD_cons_succ]
      have : t.length + 1 - 1 - (k + 1) = t.length - 1 - k := by omega
      rw [this]
    simp only [List.length_cons, List.range_succ_eq_map, List.map_cons, List.sum_cons,
      List.map_map, hshift, poly]
    have h0 : term charSigned st (c :: t) 0
        = (B ^ t.length % 524288 * weight charSigned st c) % 524288 := by
      simp [term]
    rw [h0, Nat.mod_mul_mod]
    omega

/-- The weak hash `hash(s)` is the polynomial value of the window modulo
`2 ^ 19`. -/
theorem hash_eq_poly (charSigned : Bool) (st : KarpRabinHash) (s : List Byte) :
    hash charSigned st s = poly charSigned st s % 524288 := by
  rw [hash_eq_sum, sum_term_modEq]

theorem poly_append_singleton (charSigned : Bool) (st : KarpRabinHash) (t : List Byte)
    (c : Byte) :
    poly charSigned st (t ++ [c]) = B * poly charSigned st t + weight charSigned st c := by
  induction t with
  | nil => simp [poly]
  | cons a t ih =>
    rw [List.cons_append, poly, poly, ih, List.length_append, List.length_singleton, pow_succ]
    ring

/-- The rolling identity: sliding the window `out :: mid` to `mid ++ [in_]` by
`update` gives the hash of the new window, when `BtoN` is `B ^ n` modulo
`2 ^ 19` for the window length `n` and `hash` reads for the two bytes `out`
and `in_` the table entries that `update` reads. -/
theorem update_hash (charSigned : Bool) (st : KarpRabinHash) (out in_ : Byte)
    (mid : List Byte) (hB : st.BtoN = B ^ (mid.length + 1) % 524288)
    (hout : weight charSigned st out = st.hashvalues (out.val : Int))
    (hin : weight charSigned st in_ = st.hashvalues (in_.val : Int)) :
    update st (hash charSigned st (out :: mid)) out in_
      = hash charSigned st (mid ++ [in_]) := by
  rw [hash_eq_poly, hash_eq_poly, poly_append_singleton, poly, update, and_mask, hB,
    ← hout, ← hin]
  have hp : (B ^ (mid.length + 1) % 524288 * weight charSigned st out) % 524288
      = (37 * (B ^ mid.length * weight charSigned st out)) % 524288 := by
    rw [Nat.mod_mul_mod, pow_succ]
    congr 1
    ring
  generalize (B ^ (mid.length + 1) % 524288 * weight charSigned st out) = P at hp ⊢
  generalize B ^ mid.length * weight charSigned st out = a at hp ⊢
  generalize poly charSigned st mid = q
  generalize weight charSigned st in_ = wn
  show ((37 * ((a + q) % 524288) % 4294967296 + wn) % 4294967296
      + (4294967296 - P % 4294967296)) % 4294967296 % 524288 = (37 * q + wn) % 524288
  omega

end KarpRabinHash


/-! ## `GenerateSignatures` in closed form -/

theorem blockCount_cover (len B : Nat) (hB : 1 ≤ B) : len ≤ blockCount len B * B := by
  unfold blockCount
  have h1 := Nat.div_add_mod (len + B - 1) B
  have h2 := Nat.mod_lt (len + B - 1) (show B > 0 by omega)
  rw [Nat.mul_comm]
  omega

theorem blockCount_tight (len B : Nat) (hB : 1 ≤ B) (i : Nat) (hi : i < blockCount len B) :
    i * B < len := by
  unfold blockCount at hi
  have h1 := Nat.div_add_mod (len + B - 1) B
  have h2 := Nat.mod_lt (len + B - 1) (show B > 0 by omega)
  have h3 : (i + 1) * B ≤ (len + B - 1) / B * B := Nat.mul_le_mul_right B hi
  rw [Nat.add_mul, Nat.one_mul, Nat.mul_comm ((len + B - 1) / B)] at h3
  omega

theorem blockCount_le (len B : Nat) (hB : 1 ≤ B) : blockCount len B ≤ len := by
  by_contra h
  have h1 := blockCount_tight len B hB len (by omega)
  have h2 : len * 1 ≤ len * B := Nat.mul_le_mul_left len hB
  omega

theorem GenerateSignatures.loop_eq (charSigned : Bool) (st : KarpRabinHash) (s : List Byte)
    (B : Nat) (hB : 1 ≤ B) (hs : s.length < U32) :
    ∀ (n fuel : Nat) (result : List BlockSignature) (idx : Nat), n < fuel →
      s.length ≤ idx * B + n * B → (0 < n → idx * B + (n - 1) * B < s.length) →
      GenerateSignatures.loop charSigned st s B fuel result idx (min (idx * B) s.length)
          (min (idx * B + B) s.length)
        = some (result ++ (List.range' idx n).map (sigAt charSigned st s B)) := by
  intro n
  induction n with
  | zero =>
    intro fuel result idx hf hcover _
    obtain ⟨f, rfl⟩ : ∃ f, fuel = f + 1 := ⟨fuel - 1, by omega⟩
    have e1 : min (idx * B) s.length = s.length := by omega
    have e2 : min (idx * B + B) s.length = s.length := by omega
    simp [GenerateSignatures.loop, e1, e2]
  | succ n ih =>
    intro fuel result idx hf hcover htight
    obtain ⟨f, rfl⟩ : ∃ f, fuel = f + 1 := ⟨fuel - 1, by omega⟩
    have ht : idx * B + n * B < s.length := by simpa using htight (by omega)
    have hmul : (n + 1) * B = n * B + B := by ring
    have hidx : (idx + 1) * B = idx * B + B := by ring
    have hle : idx * 1 ≤ idx * B := Nat.mul_le_mul_left idx hB
    have e1 : min (idx * B) s.length = idx * B := by omega
    have hne : ¬ idx * B = min (idx * B + B) s.length := by omega
    have hU : (idx + 1) % U32 = idx + 1 := Nat.mod_eq_of_lt (by omega)
    have hit : min (idx * B + B) s.length = min ((idx + 1) * B) s.length := by rw [hidx]
    have hend : (if min (idx * B + B) s.length ≠ s.length then
          min (idx * B + B) s.length + min ((s.length - min (idx * B + B) s.length) % U32) B
        else min (idx * B + B) s.length) = min ((idx + 1) * B + B) s.length := by
      rw [hidx]
      split
      · rw [Nat.mod_eq_of_lt (by omega)]
        omega
      · omega
    rw [e1, GenerateSignatures.loop, if_neg hne]
    simp only [hU, hend]
    rw [hit, ih f _ (idx + 1) (by omega) (by omega) (by intro h; have := Nat.sub_add_cancel h; (have h5 : (n - 1) * B + B = n * B := by rw [← Nat.add_one_mul, this]); omega)]
    rw [List.range'_succ, List.map_cons, List.append_assoc]
    simp only [List.singleton_append, sigAt, hidx]

/-- For a document shorter than `2 ^ 32` bytes and a block size of at least 1,
`GenerateSignatures` returns the signatures of the blocks `0 .. count - 1`. -/
theorem GenerateSignatures_eq (charSigned : Bool) (st : KarpRabinHash) (s : List Byte)
    (B : Nat) (hB : 1 ≤ B) (hs : s.length < U32) :
    GenerateSignatures charSigned st s B
      = some ((List.range (blockCount s.length B)).map (sigAt charSigned st s B)) := by
  have h := GenerateSignatures.loop_eq charSigned st s B hB hs (blockCount s.length B)
    (s.length + 1) [] 0 (by have := blockCount_le s.length B hB; omega)
    (by have := blockCount_cover s.length B hB; omega)
    (by
      intro hpos
      have := blockCount_tight s.length B hB (blockCount s.length B - 1) (by omega)
      omega)
  have e0 : min (0 * B) s.length = 0 := by simp
  have e1 : min (0 * B + B) s.length = 0 + min (s.length % U32) B := by
    rw [Nat.mod_eq_of_lt hs]
    simp [Nat.min_comm]
  rw [e0, e1, List.nil_append, ← List.range_eq_range'] at h
  exact h


theorem flatten_chunks (R : List Byte) (B : Nat) (k : Nat) :
    ((List.range k).map
        (fun i => (to_string_view R (i * B) (min (i * B + B) R.length)).bytes)).flatten
      = R.take (k * B) := by
  induction k with
  | zero => simp
  | succ k ih =>
    rw [List.range_succ, List.map_append, List.flatten_append, ih]
    simp only [List.map_cons, List.map_nil, List.flatten_cons, List.flatten_nil,
      List.append_nil, to_string_view]
    have hk : (k + 1) * B = k * B + B := by ring
    rw [hk, List.take_add]
    congr 1
    by_cases h : k * B + B ≤ R.length
    · rw [Nat.min_eq_left h, Nat.add_sub_cancel_left]
    · rw [Nat.min_eq_right (by omega)]
      rw [List.take_of_length_le (by simp), List.take_of_length_le (by simp; omega)]

/-- C1 (amended): for every reference string `R` shorter than `2 ^ 32` bytes
and every block size `B ≥ 1`, `GenerateSignatures(R, B)` returns exactly
`ceil (len R / B)` records (none when `R` is empty); the record at position `i`
has `idx = i`, `data = R[i * B, min (i * B + B) (len R))`, `weak = hash(data)`
and `strong = MurmurHash3(0x1234, data)`; every block is non-empty, each block
ends where the next one starts, the last one ends at `len R`, and the blocks
concatenated in order give `R`. -/
theorem GenerateSignatures_tiles (charSigned : Bool) (st : KarpRabinHash) (R : List Byte)
    (B : Nat) (hB : 1 ≤ B) (hR : R.length < 4294967296) :
    ∃ sigs, GenerateSignatures charSigned st R B = some sigs ∧
      sigs.length = (R.length + B - 1) / B ∧
      (R = [] → sigs = []) ∧
      (∀ (i : Nat) (hi : i < sigs.length),
        (sigs.get ⟨i, hi⟩).idx = i ∧
        (sigs.get ⟨i, hi⟩).data = to_string_view R (i * B) (min (i * B + B) R.length) ∧
        (sigs.get ⟨i, hi⟩).weak
          = KarpRabinHash.hash charSigned st (sigs.get ⟨i, hi⟩).data.bytes ∧
        (sigs.get ⟨i, hi⟩).strong = MurmurHash3 charSigned 0x1234 (sigs.get ⟨i, hi⟩).data.bytes ∧
        i * B < R.length ∧
        (i + 1 < sigs.length → min (i * B + B) R.length = (i + 1) * B) ∧
        (i + 1 = sigs.length → min (i * B + B) R.length = R.length)) ∧
      (sigs.map (fun sig => sig.data.bytes)).flatten = R := by
  refine ⟨_, GenerateSignatures_eq charSigned st R B hB hR, ?_, ?_, ?_, ?_⟩
  · simp [blockCount]
  · intro h
    subst h
    have : blockCount 0 B = 0 := by
      have := blockCount_le 0 B hB
      omega
    simp [this]
  · intro i hi
    have hi' : i < blockCount R.length B := by simpa using hi
    have ht := blockCount_tight R.length B hB i hi'
    have hc := blockCount_cover R.length B hB
    have hn : (List.map (sigAt charSigned st R B) (List.range (blockCount R.length B))).length
        = blockCount R.length B := by simp
    simp only [List.get_eq_getElem, List.getElem_map, List.getElem_range, sigAt]
    refine ⟨trivial, trivial, trivial, trivial, ht, ?_, ?_⟩
    · intro h2
      rw [hn] at h2
      have := blockCount_tight R.length B hB (i + 1) h2
      have e : (i + 1) * B = i * B + B := by ring
      omega
    · intro h2
      rw [hn] at h2
      rw [← h2] at hc
      have e : (i + 1) * B = i * B + B := by ring
      omega
  · rw [List.map_map]
    have h := flatten_chunks R B (blockCount R.length B)
    have hc := blockCount_cover R.length B hB
    rw [List.take_of_length_le hc] at h
    exact h

/-- Witness of `GenerateSignatures_tiles`: a document of five bytes cut in
blocks of two. -/
theorem GenerateSignatures_tiles_witness :
    ∃ sigs, GenerateSignatures true (KarpRabinHash.init (fun i => i) (fun _ => 0) 2)
        [1, 2, 3, 4, 5] 2 = some sigs ∧
      sigs.length = (5 + 2 - 1) / 2 ∧
      sigs.map (fun sig => (sig.idx, sig.data.offset, sig.data.bytes))
        = [(0, 0, [1, 2]), (1, 2, [3, 4]), (2, 4, [5])] := by
  obtain ⟨sigs, h1, h2, -, h4, h5⟩ := GenerateSignatures_tiles true
    (KarpRabinHash.init (fun i => i) (fun _ => 0) 2) [1, 2, 3, 4, 5] 2 (by decide) (by decide)
  refine ⟨sigs, h1, h2, ?_⟩
  have e : GenerateSignatures true (KarpRabinHash.init (fun i => i) (fun _ => 0) 2)
      [1, 2, 3, 4, 5] 2 = some sigs := h1
  have d : (GenerateSignatures true (KarpRabinHash.init (fun i => i) (fun _ => 0) 2)
      [1, 2, 3, 4, 5] 2).map (fun l => l.map (fun sig => (sig.idx, sig.data.offset, sig.data.bytes)))
      = some [(0, 0, [1, 2]), (1, 2, [3, 4]), (2, 4, [5])] := by decide
  rw [e] at d
  simpa using d

/-- C1, counterexample: a reference of `2 ^ 32` zero bytes with block size 1.
The conversion of `s.size()` to `uint32_t` in `std::min<uint32_t>` gives 0, the
loop is not entered and no record is returned, where the claim asks for
`2 ^ 32` records. -/
theorem GenerateSignatures_wraps :
    GenerateSignatures true (KarpRabinHash.init (fun i => i) (fun _ => 0) 1)
        (List.replicate 4294967296 0) 1 = some [] ∧
      ((List.replicate 4294967296 (0 : Byte)).length + 1 - 1) / 1 = 4294967296 := by
  constructor
  · unfold GenerateSignatures
    rw [List.length_replicate]
    have e : 0 + min (4294967296 % U32) 1 = 0 := by decide
    rw [e, GenerateSignatures.loop]
    simp
  · rw [List.length_replicate]

/-- C3, failing input: block size 1, `char` signed, window bytes `0xFF, 0x00`,
the weight 1 for the byte `0xFF` and 0 for every other byte, and zero in the
storage around the table. `hash` reads `hashvalues[-1]` for the byte `0xFF`,
`update` reads `hashvalues[255]`: the hash of the first window is 0, the slide
gives `2 ^ 19 - 37`, and the hash of the new window from scratch is 0. -/
theorem update_differs_from_hash :
    KarpRabinHash.hash true
        (KarpRabinHash.init (fun i => if i = 255 then 1 else 0) (fun _ => 0) 1) [255] = 0 ∧
      KarpRabinHash.update
        (KarpRabinHash.init (fun i => if i = 255 then 1 else 0) (fun _ => 0) 1)
        (KarpRabinHash.hash true
          (KarpRabinHash.init (fun i => if i = 255 then 1 else 0) (fun _ => 0) 1) [255])
          255 0 = 524251 ∧
      KarpRabinHash.hash true
        (KarpRabinHash.init (fun i => if i = 255 then 1 else 0) (fun _ => 0) 1) [0] = 0 := by
  decide

theorem init_hashvalues_entry (rand : Nat → Nat) (outside : Int → Nat) (n i : Nat)
    (h : i < 256) :
    (KarpRabinHash.init rand outside n).hashvalues (i : Int) = rand i % KarpRabinHash.mask := by
  have h1 : (0 : Int) ≤ (i : Int) ∧ (i : Int) < ((KarpRabinHash.nbrofchars : Nat) : Int) := by
    have : KarpRabinHash.nbrofchars = 256 := rfl
    rw [this]
    omega
  simp only [KarpRabinHash.init, if_pos h1, Int.toNat_ofNat]

theorem init_hashvalues_outside (rand : Nat → Nat) (outside : Int → Nat) (n : Nat) (i : Int)
    (h : i < 0) :
    (KarpRabinHash.init rand outside n).hashvalues i = outside i % U32 := by
  have h1 : ¬ ((0 : Int) ≤ i ∧ i < ((KarpRabinHash.nbrofchars : Nat) : Int)) := by omega
  simp only [KarpRabinHash.init, if_neg h1]

/-- Whatever the storage around the table holds, there is a weight table for
which the slide over the byte `0xFF` does not give the hash of the new window,
when `char` is signed. -/
theorem update_differs_for_any_storage (outside : Int → Nat) :
    ∃ rand : Nat → Nat,
      KarpRabinHash.update (KarpRabinHash.init rand outside 1)
          (KarpRabinHash.hash true (KarpRabinHash.init rand outside 1) [255]) 255 0
        ≠ KarpRabinHash.hash true (KarpRabinHash.init rand outside 1) [0] := by
  have hpoly : ∀ (st : KarpRabinHash) (c : Byte),
      KarpRabinHash.hash true st [c] = KarpRabinHash.weight true st c % 524288 := by
    intro st c
    rw [KarpRabinHash.hash_eq_poly]
    simp [KarpRabinHash.poly]
  have h255 : charToInt true 255 = -1 := by decide
  have h0 : charToInt true 0 = ((0 : Nat) : Int) := by decide
  have hc255 : (((255 : Byte).val : Nat) : Int) = ((255 : Nat) : Int) := rfl
  have hc0 : (((0 : Byte).val : Nat) : Int) = ((0 : Nat) : Int) := rfl
  have hB : KarpRabinHash.B ^ 1 % 524288 = 37 := by decide
  have hlt := Nat.mod_lt (outside (-1) % U32) (show 524288 > 0 by decide)
  by_cases ho : outside (-1) % U32 % 524288 = 0
  · refine ⟨fun i => if i = 255 then 1 else 0, ?_⟩
    rw [hpoly, hpoly]
    simp only [KarpRabinHash.weight, h255, h0, hc255, hc0, KarpRabinHash.update,
      KarpRabinHash.and_mask, KarpRabinHash.init_BtoN, hB,
      init_hashvalues_entry _ _ _ 255 (by decide), init_hashvalues_entry _ _ _ 0 (by decide),
      init_hashvalues_outside _ _ _ (-1) (by decide), ho]
    decide
  · refine ⟨fun _ => 0, ?_⟩
    rw [hpoly, hpoly]
    simp only [KarpRabinHash.weight, h255, h0, hc255, hc0, KarpRabinHash.update,
      KarpRabinHash.and_mask, KarpRabinHash.init_BtoN, hB,
      init_hashvalues_entry _ _ _ 255 (by decide), init_hashvalues_entry _ _ _ 0 (by decide),
      init_hashvalues_outside _ _ _ (-1) (by decide)]
    generalize outside (-1) % U32 % 524288 = h at ho hlt
    rw [Nat.zero_mod, Nat.mul_zero, Nat.zero_mod, Nat.sub_zero, Nat.add_zero, Nat.mod_mod,
      Nat.add_mod_right, Nat.mod_mod, KarpRabinHash.mod_U32_mod, Nat.zero_mod]
    intro hc
    have hd : 524288 ∣ KarpRabinHash.B * h := Nat.dvd_of_mod_eq_zero hc
    have hcop : Nat.Coprime 524288 KarpRabinHash.B := by norm_num
    have hdh : 524288 ∣ h := hcop.dvd_of_dvd_mul_left hd
    have := Nat.le_of_dvd (Nat.pos_of_ne_zero ho) hdh
    omega

/-! ## The map `deltas` -/

theorem mem_keys_emplace (m : DeltaMap) (k : Nat) (v : Delta) (j : Nat) :
    j ∈ keys (emplace m k v) ↔ j = k ∨ j ∈ keys m := by
  induction m with
  | nil => simp [emplace, keys]
  | cons p m ih =>
    obtain ⟨k', v'⟩ := p
    unfold emplace
    split
    · simp [keys]
    · split
      · rename_i h1 h2
        subst h2
        simp [keys]
      · simp only [keys, List.map_cons, List.mem_cons] at ih ⊢
        rw [ih]
        tauto

theorem mem_emplace (m : DeltaMap) (k : Nat) (v : Delta) (p : Nat × Delta)
    (h : p ∈ emplace m k v) : p ∈ m ∨ p = (k, v) := by
  induction m with
  | nil => simpa [emplace] using h
  | cons q m ih =>
    obtain ⟨k', v'⟩ := q
    unfold emplace at h
    split at h
    · simp only [List.mem_cons] at h ⊢
      tauto
    · split at h
      · exact Or.inl h
      · simp only [List.mem_cons] at h ⊢
        rcases h with h | h
        · exact Or.inl (Or.inl h)
        · rcases ih h with h | h
          · exact Or.inl (Or.inr h)
          · exact Or.inr h

theorem sorted_emplace (m : DeltaMap) (k : Nat) (v : Delta)
    (h : (keys m).Pairwise (· < ·)) : (keys (emplace m k v)).Pairwise (· < ·) := by
  induction m with
  | nil => simp [emplace, keys]
  | cons p m ih =>
    obtain ⟨k', v'⟩ := p
    have h' : (k' :: keys m).Pairwise (· < ·) := h
    rw [List.pairwise_cons] at h'
    unfold emplace
    split
    · rename_i hlt
      show (k :: k' :: keys m).Pairwise (· < ·)
      rw [List.pairwise_cons]
      refine ⟨?_, h⟩
      intro a ha
      rcases List.mem_cons.mp ha with ha | ha
      · omega
      · have := h'.1 a ha
        omega
    · split
      · exact h
      · rename_i h1 h2
        show (k' :: keys (emplace m k v)).Pairwise (· < ·)
        rw [List.pairwise_cons]
        refine ⟨?_, ih h'.2⟩
        intro a ha
        rcases (mem_keys_emplace m k v a).mp ha with ha | ha
        · omega
        · exact h'.1 a ha

/-- On a map in key order that has the key `k`, `deltas[k]` changes the entry
of `k` only. -/
theorem modify_eq_map (m : DeltaMap) (k : Nat) (f : Delta → Delta)
    (hs : (keys m).Pairwise (· < ·)) (hk : k ∈ keys m) :
    modify m k f = m.map (fun p => if p.1 = k then (p.1, f p.2) else p) := by
  induction m with
  | nil => simp [keys] at hk
  | cons p m ih =>
    obtain ⟨k', v'⟩ := p
    have h' : (k' :: keys m).Pairwise (· < ·) := hs
    rw [List.pairwise_cons] at h'
    have hk' : k = k' ∨ k ∈ keys m := by simpa [keys] using hk
    unfold modify
    have hge : ¬ k < k' := by
      rcases hk' with h | h
      · omega
      · have := h'.1 k h
        omega
    rw [if_neg hge]
    by_cases he : k = k'
    · subst he
      rw [if_pos rfl]
      simp only [List.map_cons, if_true]
      congr 1
      symm
      conv_rhs => rw [← List.map_id m]
      apply List.map_congr_left
      intro p hp
      have : p.1 ∈ keys m := List.mem_map_of_mem Prod.fst hp
      have := h'.1 _ this
      rw [if_neg (by omega)]
      rfl
    · rw [if_neg he]
      have hk2 : k ∈ keys m := by tauto
      rw [ih h'.2 hk2]
      simp only [List.map_cons]
      rw [if_neg (by omega)]

theorem keys_modify (m : DeltaMap) (k : Nat) (f : Delta → Delta)
    (hs : (keys m).Pairwise (· < ·)) (hk : k ∈ keys m) :
    keys (modify m k f) = keys m := by
  rw [modify_eq_map m k f hs hk, keys, keys, List.map_map]
  apply List.map_congr_left
  intro p _
  simp only [Function.comp]
  split <;> rfl

/-! ## The tables built by the first loop of `GenerateDelta` -/

theorem tables_foldl (B : Nat) (sigs : List BlockSignature)
    (m0 : Nat → List BlockSignature) (d0 : DeltaMap) :
    sigs.foldl (fun (acc : (Nat → List BlockSignature) × DeltaMap) (sig : BlockSignature) =>
        let idx := sig.idx
        let start := (idx * B) % U32
        ((fun w => if w = sig.weak then acc.1 w ++ [sig] else acc.1 w :
            Nat → List BlockSignature),
         emplace acc.2 idx ⟨idx, start, (start + B) % U32, true, ⟨0, []⟩⟩)) (m0, d0)
      = (fun w => m0 w ++ sigs.filter (fun sg => decide (w = sg.weak)),
         sigs.foldl (fun d sg => emplace d sg.idx (freshDelta B sg.idx)) d0) := by
  induction sigs generalizing m0 d0 with
  | nil => simp
  | cons sg sigs ih =>
    simp only [List.foldl_cons]
    rw [ih]
    congr 1
    funext w
    by_cases h : w = sg.weak
    · simp [h, List.filter_cons]
    · simp [h, List.filter_cons]

theorem tables_fst (B : Nat) (sigs : List BlockSignature) (w : Nat) :
    (GenerateDelta.tables B sigs).1 w = sigs.filter (fun sg => decide (w = sg.weak)) := by
  unfold GenerateDelta.tables
  rw [tables_foldl]
  simp

theorem tables_snd (B : Nat) (sigs : List BlockSignature) :
    (GenerateDelta.tables B sigs).2 = prepopulated B sigs := by
  unfold GenerateDelta.tables prepopulated
  rw [tables_foldl]

/-- The search for `sig` returns the first signature, in table order, whose
weak hash is the running hash and whose strong hash is that of the window. -/
theorem findSig_eq (charSigned : Bool) (s : List Byte) (B : Nat)
    (sigs : List BlockSignature) (σ : ScanState) :
    GenerateDelta.findSig charSigned s (GenerateDelta.tables B sigs).1 σ
      = sigs.find? (accepts charSigned s σ) := by
  unfold GenerateDelta.findSig
  simp only [tables_fst]
  have hf : ∀ l : List BlockSignature,
      List.find? (fun sg => sg.strong == MurmurHash3 charSigned seed
          (to_string_view s σ.it σ.end_).bytes)
        (l.filter (fun sg => decide (σ.hashvalue = sg.weak)))
      = l.find? (accepts charSigned s σ) := by
    intro l
    rw [List.find?_filter]
    congr 1
    funext sg
    simp only [accepts, ScanState.window]
    by_cases h1 : σ.hashvalue = sg.weak <;>
      by_cases h2 : sg.strong = MurmurHash3 charSigned seed (to_string_view s σ.it σ.end_).bytes <;>
      simp [h1, h2]
  split
  · rename_i h
    rw [← hf, List.isEmpty_iff.mp h]
    rfl
  · exact hf sigs

theorem prepopulated_foldl_spec (B : Nat) (sigs : List BlockSignature) (d0 : DeltaMap)
    (hs : (keys d0).Pairwise (· < ·)) :
    let d := sigs.foldl (fun d sg => emplace d sg.idx (freshDelta B sg.idx)) d0
    (keys d).Pairwise (· < ·) ∧
      (∀ j, j ∈ keys d ↔ j ∈ keys d0 ∨ ∃ sg ∈ sigs, sg.idx = j) ∧
      (∀ p ∈ d, p ∈ d0 ∨ p.2 = freshDelta B p.1) := by
  induction sigs generalizing d0 with
  | nil =>
    simp only [List.foldl_nil, List.not_mem_nil, false_and, exists_false, or_false, true_and]
    exact ⟨hs, fun _ => trivial, fun p hp => Or.inl hp⟩
  | cons sg sigs ih =>
    simp only [List.foldl_cons]
    have h1 := ih (emplace d0 sg.idx (freshDelta B sg.idx)) (sorted_emplace _ _ _ hs)
    simp only at h1 ⊢
    refine ⟨h1.1, ?_, ?_⟩
    · intro j
      rw [h1.2.1 j, mem_keys_emplace]
      simp only [List.mem_cons, exists_eq_or_imp]
      constructor
      · rintro ((h | h) | h)
        · exact Or.inr (Or.inl h.symm)
        · exact Or.inl h
        · exact Or.inr (Or.inr h)
      · rintro (h | h | h)
        · exact Or.inl (Or.inr h)
        · exact Or.inl (Or.inl h.symm)
        · exact Or.inr h
    · intro p hp
      rcases h1.2.2 p hp with h | h
      · rcases mem_emplace _ _ _ _ h with h | h
        · exact Or.inl h
        · right
          rw [h]
      · exact Or.inr h

theorem prepopulated_sorted (B : Nat) (sigs : List BlockSignature) :
    (keys (prepopulated B sigs)).Pairwise (· < ·) :=
  (prepopulated_foldl_spec B sigs [] (by simp [keys])).1

theorem mem_keys_prepopulated (B : Nat) (sigs : List BlockSignature) (j : Nat) :
    j ∈ keys (prepopulated B sigs) ↔ ∃ sg ∈ sigs, sg.idx = j := by
  have h := (prepopulated_foldl_spec B sigs [] (by simp [keys])).2.1 j
  simpa [keys] using h

theorem mem_prepopulated (B : Nat) (sigs : List BlockSignature) (p : Nat × Delta)
    (hp : p ∈ prepopulated B sigs) : p.2 = freshDelta B p.1 := by
  have h := (prepopulated_foldl_spec B sigs [] (by simp [keys])).2.2 p hp
  simpa using h

theorem emplace_last (m : DeltaMap) (k : Nat) (v : Delta) (h : ∀ j ∈ keys m, j < k) :
    emplace m k v = m ++ [(k, v)] := by
  induction m with
  | nil => rfl
  | cons p m ih =>
    obtain ⟨k', v'⟩ := p
    have h1 : k' < k := h k' (by simp [keys])
    unfold emplace
    rw [if_neg (by omega), if_neg (by omega), ih (fun j hj => h j (by
      simp only [keys, List.map_cons, List.mem_cons] at hj ⊢
      exact Or.inr hj))]
    rfl

/-- The pre-populated map for the signature table of a reference: the entries
`0 .. n - 1`, each fresh. -/
theorem prepopulated_sigAt (charSigned : Bool) (st : KarpRabinHash) (R : List Byte)
    (B n : Nat) :
    prepopulated B ((List.range n).map (sigAt charSigned st R B))
      = (List.range n).map (fun i => (i, freshDelta B i)) := by
  induction n with
  | zero => rfl
  | succ n ih =>
    unfold prepopulated at ih ⊢
    rw [List.range_succ, List.map_append, List.foldl_append, ih]
    simp only [List.map_cons, List.map_nil, List.foldl_cons, List.foldl_nil, List.map_append]
    rw [emplace_last]
    · rfl
    · intro j hj
      simp only [keys, List.map_map, List.mem_map, List.mem_range, Function.comp] at hj
      obtain ⟨a, ha, rfl⟩ := hj
      exact ha

/-! ## One pass of the scan -/

theorem step_exit (charSigned : Bool) (st : KarpRabinHash) (s : List Byte) (B : Nat)
    (sigs : List BlockSignature) (σ : ScanState) (h : σ.it = s.length) :
    GenerateDelta.step charSigned st s B (GenerateDelta.tables B sigs).1 σ = none := by
  unfold GenerateDelta.step
  rw [if_pos h]

theorem step_match (charSigned : Bool) (st : KarpRabinHash) (s : List Byte) (B : Nat)
    (sigs : List BlockSignature) (σ : ScanState) (sg : BlockSignature)
    (h : σ.it ≠ s.length) (hf : sigs.find? (accepts charSigned s σ) = some sg) :
    GenerateDelta.step charSigned st s B (GenerateDelta.tables B sigs).1 σ
      = some (afterMatch charSigned st s B σ sg) := by
  unfold GenerateDelta.step
  rw [if_neg h, findSig_eq, hf]
  simp only [afterMatch]
  split <;> rfl

theorem step_break (charSigned : Bool) (st : KarpRabinHash) (s : List Byte) (B : Nat)
    (sigs : List BlockSignature) (σ : ScanState)
    (hf : sigs.find? (accepts charSigned s σ) = none) (he : σ.end_ = s.length) :
    GenerateDelta.step charSigned st s B (GenerateDelta.tables B sigs).1 σ = none := by
  unfold GenerateDelta.step
  rw [findSig_eq, hf]
  simp only
  rw [if_pos he]
  split <;> rfl

theorem step_slide (charSigned : Bool) (st : KarpRabinHash) (s : List Byte) (B : Nat)
    (sigs : List BlockSignature) (σ : ScanState) (h : σ.it ≠ s.length)
    (hf : sigs.find? (accepts charSigned s σ) = none) (he : σ.end_ ≠ s.length) :
    GenerateDelta.step charSigned st s B (GenerateDelta.tables B sigs).1 σ
      = some (afterSlide st s σ) := by
  unfold GenerateDelta.step
  rw [if_neg h, findSig_eq, hf]
  simp only
  exact if_neg he

/-- A pass of the scan either exits, accepts the first signature that passes
the test, or slides. -/
theorem step_cases (charSigned : Bool) (st : KarpRabinHash) (s : List Byte) (B : Nat)
    (sigs : List BlockSignature) (σ σ' : ScanState)
    (h : GenerateDelta.step charSigned st s B (GenerateDelta.tables B sigs).1 σ = some σ') :
    σ.it ≠ s.length ∧
    ((∃ sg, sigs.find? (accepts charSigned s σ) = some sg ∧
        σ' = afterMatch charSigned st s B σ sg) ∨
     (sigs.find? (accepts charSigned s σ) = none ∧ σ.end_ ≠ s.length ∧
        σ' = afterSlide st s σ)) := by
  by_cases hit : σ.it = s.length
  · rw [step_exit charSigned st s B sigs σ hit] at h
    exact absurd h (by simp)
  refine ⟨hit, ?_⟩
  cases hf : sigs.find? (accepts charSigned s σ) with
  | some sg =>
    rw [step_match charSigned st s B sigs σ sg hit hf] at h
    exact Or.inl ⟨sg, rfl, (Option.some.inj h).symm⟩
  | none =>
    by_cases he : σ.end_ = s.length
    · rw [step_break charSigned st s B sigs σ hf he] at h
      exact absurd h (by simp)
    · rw [step_slide charSigned st s B sigs σ hit hf he] at h
      exact Or.inr ⟨rfl, he, (Option.some.inj h).symm⟩

/-- Induction over the scan: what holds of the state on entry and is kept by
every pass holds of the state at the exit, where no further pass is made. -/
theorem loop_induction (charSigned : Bool) (st : KarpRabinHash) (s : List Byte) (B : Nat)
    (mapsigs : Nat → List BlockSignature) (P : ScanState → Prop)
    (hstep : ∀ σ σ', P σ → GenerateDelta.step charSigned st s B mapsigs σ = some σ' → P σ') :
    ∀ (fuel : Nat) (σ r : ScanState), P σ →
      GenerateDelta.loop charSigned st s B mapsigs fuel σ = some r →
      P r ∧ GenerateDelta.step charSigned st s B mapsigs r = none := by
  intro fuel
  induction fuel with
  | zero =>
    intro σ r _ h
    simp [GenerateDelta.loop] at h
  | succ fuel ih =>
    intro σ r hP h
    unfold GenerateDelta.loop at h
    cases hs : GenerateDelta.step charSigned st s B mapsigs σ with
    | none =>
      rw [hs] at h
      have : σ = r := Option.some.inj h
      subst this
      exact ⟨hP, hs⟩
    | some σ' =>
      rw [hs] at h
      exact ih σ' r (hstep σ σ' hP hs) h

/-- More fuel does not change the result of a scan that exits. -/
theorem loop_mono (charSigned : Bool) (st : KarpRabinHash) (s : List Byte) (B : Nat)
    (mapsigs : Nat → List BlockSignature) :
    ∀ (fuel k : Nat) (σ r : ScanState),
      GenerateDelta.loop charSigned st s B mapsigs fuel σ = some r →
      GenerateDelta.loop charSigned st s B mapsigs (fuel + k) σ = some r := by
  intro fuel
  induction fuel with
  | zero =>
    intro k σ r h
    simp [GenerateDelta.loop] at h
  | succ fuel ih =>
    intro k σ r h
    have e : fuel + 1 + k = (fuel + k) + 1 := by omega
    rw [e]
    unfold GenerateDelta.loop at h ⊢
    cases hs : GenerateDelta.step charSigned st s B mapsigs σ with
    | none =>
      rw [hs] at h
      exact h
    | some σ' =>
      rw [hs] at h
      exact ih k σ' r h

/-! ## The state after a pass -/

theorem afterMatch_it (charSigned : Bool) (st : KarpRabinHash) (s : List Byte) (B : Nat)
    (σ : ScanState) (sg : BlockSignature) :
    (afterMatch charSigned st s B σ sg).it = σ.end_ := by
  unfold afterMatch
  split <;> rfl

theorem afterMatch_last_it (charSigned : Bool) (st : KarpRabinHash) (s : List Byte) (B : Nat)
    (σ : ScanState) (sg : BlockSignature) :
    (afterMatch charSigned st s B σ sg).last_it = σ.end_ := by
  unfold afterMatch
  split <;> rfl

theorem afterMatch_end (charSigned : Bool) (st : KarpRabinHash) (s : List Byte) (B : Nat)
    (σ : ScanState) (sg : BlockSignature) :
    (afterMatch charSigned st s B σ sg).end_
      = if σ.end_ ≠ s.length then σ.end_ + min ((s.length - σ.end_) % U32) B else σ.end_ := by
  unfold afterMatch
  split <;> rfl

theorem afterMatch_deltas (charSigned : Bool) (st : KarpRabinHash) (s : List Byte) (B : Nat)
    (σ : ScanState) (sg : BlockSignature) :
    (afterMatch charSigned st s B σ sg).deltas
      = modify σ.deltas sg.idx
          (fun delta => { delta with missing := false,
                                     data := to_string_view s σ.last_it σ.it }) := by
  unfold afterMatch
  split <;> rfl

theorem afterMatch_accepted (charSigned : Bool) (st : KarpRabinHash) (s : List Byte) (B : Nat)
    (σ : ScanState) (sg : BlockSignature) :
    (afterMatch charSigned st s B σ sg).accepted
      = ⟨σ.it, σ.end_, σ.last_it, σ.hashvalue, sg⟩ :: σ.accepted := by
  unfold afterMatch
  split <;> rfl

theorem afterMatch_hashvalue (charSigned : Bool) (st : KarpRabinHash) (s : List Byte) (B : Nat)
    (σ : ScanState) (sg : BlockSignature) :
    (afterMatch charSigned st s B σ sg).hashvalue
      = if σ.end_ ≠ s.length then
          KarpRabinHash.hash charSigned st
            (to_string_view s σ.end_ (σ.end_ + min ((s.length - σ.end_) % U32) B)).bytes
        else σ.hashvalue := by
  unfold afterMatch
  split <;> rfl

theorem keys_eq_of_skeleton (m m' : DeltaMap) (h : skeleton m = skeleton m') :
    keys m = keys m' := by
  have h2 := congrArg (List.map (fun q : Nat × Nat × Nat × Nat => q.1)) h
  simpa [skeleton, keys, List.map_map, Function.comp] using h2

theorem skeleton_modify (m : DeltaMap) (k : Nat) (v : string_view)
    (hs : (keys m).Pairwise (· < ·)) (hk : k ∈ keys m) :
    skeleton (modify m k (fun delta => { delta with missing := false, data := v }))
      = skeleton m := by
  rw [modify_eq_map m k _ hs hk, skeleton, skeleton, List.map_map]
  apply List.map_congr_left
  intro p _
  simp only [Function.comp]
  split <;> rfl

theorem linked_cons_eq (s : List Byte) (a : Accepted) (acc : List Accepted) (p : Nat × Delta)
    (h : a.sig.idx = p.1) :
    linked s (a :: acc) p ↔ p.2.missing = false ∧ p.2.data = to_string_view s a.last_it a.it := by
  simp [linked, List.find?_cons, h]

theorem linked_cons_ne (s : List Byte) (a : Accepted) (acc : List Accepted) (p : Nat × Delta)
    (h : a.sig.idx ≠ p.1) :
    linked s (a :: acc) p ↔ linked s acc p := by
  simp [linked, List.find?_cons, h]

theorem start_sound (charSigned : Bool) (st : KarpRabinHash) (s : List Byte) (B : Nat)
    (sigs : List BlockSignature) :
    Sound charSigned s B sigs (GenerateDelta.start charSigned st s B sigs) := by
  have hle : s.length % U32 ≤ s.length := Nat.mod_le _ _
  refine ⟨Nat.le_refl _, ?_, ?_, ?_, ?_, ?_, ?_⟩
  · simp [GenerateDelta.start]
  · simp only [GenerateDelta.start]
    omega
  · simp only [GenerateDelta.start, tables_snd]
  · intro p hp
    simp only [GenerateDelta.start, tables_snd] at hp
    have := mem_prepopulated B sigs p hp
    simp only [GenerateDelta.start, linked, List.find?_nil]
    rw [this]
    exact ⟨rfl, rfl⟩
  · intro a ha
    simp [GenerateDelta.start] at ha
  · simp [GenerateDelta.start, chained]

theorem step_sound (charSigned : Bool) (st : KarpRabinHash) (s : List Byte) (B : Nat)
    (sigs : List BlockSignature) (σ σ' : ScanState) (hS : Sound charSigned s B sigs σ)
    (h : GenerateDelta.step charSigned st s B (GenerateDelta.tables B sigs).1 σ = some σ') :
    Sound charSigned s B sigs σ' := by
  obtain ⟨hit, hc⟩ := step_cases charSigned st s B sigs σ σ' h
  have h1 := hS.last_le
  have h2 := hS.it_le
  have h3 := hS.end_le
  rcases hc with ⟨sg, hf, rfl⟩ | ⟨hf, he, rfl⟩
  · have hmem : sg ∈ sigs := List.mem_of_find?_eq_some hf
    have hacc : accepts charSigned s σ sg = true := List.find?_some hf
    have hkeys : keys σ.deltas = keys (prepopulated B sigs) := keys_eq_of_skeleton _ _ hS.skel
    have hsorted : (keys σ.deltas).Pairwise (· < ·) := by
      rw [hkeys]
      exact prepopulated_sorted B sigs
    have hk : sg.idx ∈ keys σ.deltas := by
      rw [hkeys, mem_keys_prepopulated]
      exact ⟨sg, hmem, rfl⟩
    have hmod : (s.length - σ.end_) % U32 ≤ s.length - σ.end_ := Nat.mod_le _ _
    refine ⟨?_, ?_, ?_, ?_, ?_, ?_, ?_⟩
    · rw [afterMatch_it, afterMatch_last_it]
    · rw [afterMatch_it, afterMatch_end]
      split <;> omega
    · rw [afterMatch_end]
      split <;> omega
    · rw [afterMatch_deltas, skeleton_modify _ _ _ hsorted hk]
      exact hS.skel
    · intro p hp
      rw [afterMatch_deltas, modify_eq_map _ _ _ hsorted hk] at hp
      rw [afterMatch_accepted]
      obtain ⟨q, hq, rfl⟩ := List.mem_map.mp hp
      by_cases hqk : q.1 = sg.idx
      · simp only [if_pos hqk]
        rw [linked_cons_eq _ _ _ _ hqk.symm]
        exact ⟨rfl, rfl⟩
      · simp only [if_neg hqk]
        rw [linked_cons_ne _ _ _ _ (fun e => hqk e.symm)]
        exact hS.link q hq
    · intro a ha
      rw [afterMatch_accepted] at ha
      rcases List.mem_cons.mp ha with rfl | ha
      · simp only [accepts, ScanState.window, Bool.and_eq_true, decide_eq_true_eq,
          beq_iff_eq] at hacc
        exact ⟨hmem, hacc.1, hacc.2, h3⟩
      · exact hS.events a ha
    · rw [afterMatch_accepted, afterMatch_last_it]
      exact ⟨rfl, h1, h2, hS.chain⟩
  · refine ⟨?_, ?_, ?_, hS.skel, hS.link, hS.events, hS.chain⟩
    · show σ.last_it ≤ σ.it + 1
      omega
    · show σ.it + 1 ≤ σ.end_ + 1
      omega
    · show σ.end_ + 1 ≤ s.length
      omega

/-- Every state of a scan that exits is sound, and so is the state at the
exit, where the next pass would leave the loop. -/
theorem run_sound (charSigned : Bool) (st : KarpRabinHash) (s : List Byte) (B : Nat)
    (sigs : List BlockSignature) (σ : ScanState)
    (h : GenerateDelta.run charSigned st s B sigs = some σ) :
    Sound charSigned s B sigs σ ∧
      GenerateDelta.step charSigned st s B (GenerateDelta.tables B sigs).1 σ = none :=
  loop_induction charSigned st s B (GenerateDelta.tables B sigs).1
    (Sound charSigned s B sigs)
    (fun σ σ' hS hs => step_sound charSigned st s B sigs σ σ' hS hs)
    _ _ σ (start_sound charSigned st s B sigs) h

/-! ## The window has the block size, and the scan exits -/

theorem start_shape (charSigned : Bool) (st : KarpRabinHash) (s : List Byte) (B : Nat)
    (sigs : List BlockSignature) (hs : s.length < U32) :
    (GenerateDelta.start charSigned st s B sigs).end_
      = min ((GenerateDelta.start charSigned st s B sigs).it + B) s.length := by
  simp only [GenerateDelta.start, Nat.mod_eq_of_lt hs]
  omega

theorem step_shape (charSigned : Bool) (st : KarpRabinHash) (s : List Byte) (B : Nat)
    (sigs : List BlockSignature) (hs : s.length < U32) (σ σ' : ScanState)
    (hS : Sound charSigned s B sigs σ) (hsh : σ.end_ = min (σ.it + B) s.length)
    (h : GenerateDelta.step charSigned st s B (GenerateDelta.tables B sigs).1 σ = some σ') :
    σ'.end_ = min (σ'.it + B) s.length := by
  obtain ⟨hit, hc⟩ := step_cases charSigned st s B sigs σ σ' h
  have h3 := hS.end_le
  rcases hc with ⟨sg, hf, rfl⟩ | ⟨hf, he, rfl⟩
  · rw [afterMatch_it, afterMatch_end]
    split
    · rw [Nat.mod_eq_of_lt (by omega)]
      omega
    · omega
  · show σ.end_ + 1 = min (σ.it + 1 + B) s.length
    omega

theorem step_progress (charSigned : Bool) (st : KarpRabinHash) (s : List Byte) (B : Nat)
    (sigs : List BlockSignature) (hB : 1 ≤ B) (σ σ' : ScanState)
    (hS : Sound charSigned s B sigs σ) (hsh : σ.end_ = min (σ.it + B) s.length)
    (h : GenerateDelta.step charSigned st s B (GenerateDelta.tables B sigs).1 σ = some σ') :
    σ.it < σ'.it ∧ σ'.it ≤ s.length := by
  obtain ⟨hit, hc⟩ := step_cases charSigned st s B sigs σ σ' h
  have h2 := hS.it_le
  have h3 := hS.end_le
  rcases hc with ⟨sg, hf, rfl⟩ | ⟨hf, he, rfl⟩
  · rw [afterMatch_it]
    omega
  · show σ.it < σ.it + 1 ∧ σ.it + 1 ≤ s.length
    omega

/-- With a block size of at least 1 and a target shorter than `2 ^ 32` bytes
every pass moves `it` forward, so the loop exits before the fuel runs out. -/
theorem loop_exits (charSigned : Bool) (st : KarpRabinHash) (s : List Byte) (B : Nat)
    (sigs : List BlockSignature) (hB : 1 ≤ B) (hs : s.length < U32) :
    ∀ (fuel : Nat) (σ : ScanState), Sound charSigned s B sigs σ →
      σ.end_ = min (σ.it + B) s.length → s.length - σ.it < fuel →
      ∃ r, GenerateDelta.loop charSigned st s B (GenerateDelta.tables B sigs).1 fuel σ
        = some r := by
  intro fuel
  induction fuel with
  | zero =>
    intro σ _ _ h
    omega
  | succ fuel ih =>
    intro σ hS hsh hf
    unfold GenerateDelta.loop
    cases hstep : GenerateDelta.step charSigned st s B (GenerateDelta.tables B sigs).1 σ with
    | none => exact ⟨σ, rfl⟩
    | some σ' =>
      have hp := step_progress charSigned st s B sigs hB σ σ' hS hsh hstep
      exact ih σ' (step_sound charSigned st s B sigs σ σ' hS hstep)
        (step_shape charSigned st s B sigs hs σ σ' hS hsh hstep) (by omega)

theorem run_exits (charSigned : Bool) (st : KarpRabinHash) (s : List Byte) (B : Nat)
    (sigs : List BlockSignature) (hB : 1 ≤ B) (hs : s.length < U32) :
    ∃ r, GenerateDelta.run charSigned st s B sigs = some r :=
  loop_exits charSigned st s B sigs hB hs _ _ (start_sound charSigned st s B sigs)
    (start_shape charSigned st s B sigs hs)
    (by simp only [GenerateDelta.start]; omega)

/-- Induction over the scan of a target shorter than `2 ^ 32` bytes, with the
facts that hold of every state at hand. -/
theorem run_induction (charSigned : Bool) (st : KarpRabinHash) (s : List Byte) (B : Nat)
    (sigs : List BlockSignature) (hs : s.length < U32) (P : ScanState → Prop)
    (h0 : P (GenerateDelta.start charSigned st s B sigs))
    (hstep : ∀ σ σ', Sound charSigned s B sigs σ → σ.end_ = min (σ.it + B) s.length → P σ →
      GenerateDelta.step charSigned st s B (GenerateDelta.tables B sigs).1 σ = some σ' → P σ')
    (r : ScanState) (h : GenerateDelta.run charSigned st s B sigs = some r) :
    P r ∧ Sound charSigned s B sigs r ∧ r.end_ = min (r.it + B) s.length ∧
      GenerateDelta.step charSigned st s B (GenerateDelta.tables B sigs).1 r = none := by
  have := loop_induction charSigned st s B (GenerateDelta.tables B sigs).1
    (fun σ => Sound charSigned s B sigs σ ∧ σ.end_ = min (σ.it + B) s.length ∧ P σ)
    (fun σ σ' hP hstp => ⟨step_sound charSigned st s B sigs σ σ' hP.1 hstp,
      step_shape charSigned st s B sigs hs σ σ' hP.1 hP.2.1 hstp,
      hstep σ σ' hP.1 hP.2.1 hP.2.2 hstp⟩)
    _ _ r ⟨start_sound charSigned st s B sigs, start_shape charSigned st s B sigs hs, h0⟩ h
  exact ⟨this.1.2.2, this.1.1, this.1.2.1, this.2⟩

/-! ## The running hash is the hash of the window -/

theorem drop_take_succ (s : List Byte) (i k : Nat) (h : i < s.length) :
    (s.drop i).take (k + 1) = s.getD i 0 :: (s.drop (i + 1)).take k := by
  rw [List.drop_eq_getElem_cons h, List.take_succ_cons, List.getD_eq_getElem s 0 h]

theorem drop_take_snoc (s : List Byte) (i k : Nat) (h : i + k < s.length) :
    (s.drop i).take (k + 1) = (s.drop i).take k ++ [s.getD (i + k) 0] := by
  rw [List.take_succ, List.getElem?_drop, List.getElem?_eq_getElem h,
    List.getD_eq_getElem s 0 h]
  rfl

theorem start_rolling (charSigned : Bool) (st : KarpRabinHash) (s : List Byte) (B : Nat)
    (sigs : List BlockSignature) :
    Rolling charSigned st s (GenerateDelta.start charSigned st s B sigs) := by
  intro _
  rfl

/-- A pass keeps the running hash equal to the hash of the window, when
`BtoN` was initialised for the block size and `hash` reads for every byte of
the target the table entry that `update` reads. -/
theorem step_rolling (charSigned : Bool) (st : KarpRabinHash) (s : List Byte) (B : Nat)
    (sigs : List BlockSignature) (hB : 1 ≤ B)
    (hBtoN : st.BtoN = KarpRabinHash.B ^ B % 524288)
    (hw : ∀ c ∈ s, KarpRabinHash.weight charSigned st c = st.hashvalues (c.val : Int))
    (σ σ' : ScanState)
    (hS : Sound charSigned s B sigs σ) (hsh : σ.end_ = min (σ.it + B) s.length)
    (hR : Rolling charSigned st s σ)
    (h : GenerateDelta.step charSigned st s B (GenerateDelta.tables B sigs).1 σ = some σ') :
    Rolling charSigned st s σ' := by
  obtain ⟨hit, hc⟩ := step_cases charSigned st s B sigs σ σ' h
  have h2 := hS.it_le
  have h3 := hS.end_le
  rcases hc with ⟨sg, hf, rfl⟩ | ⟨hf, he, rfl⟩
  · intro hne
    rw [afterMatch_it] at hne
    simp only [ScanState.window, afterMatch_hashvalue, afterMatch_it, afterMatch_end, if_pos hne]
  · intro _
    have hend : σ.end_ = σ.it + B := by omega
    obtain ⟨k, rfl⟩ : ∃ k, B = k + 1 := ⟨B - 1, by omega⟩
    have hlt : σ.it < s.length := by omega
    have hlt2 : σ.it + 1 + k < s.length := by omega
    have hv : σ.hashvalue
        = KarpRabinHash.hash charSigned st (s.getD σ.it 0 :: (s.drop (σ.it + 1)).take k) := by
      rw [hR hit, ScanState.window, to_string_view, hend, Nat.add_sub_cancel_left,
        drop_take_succ s σ.it k hlt]
    have hlen : ((s.drop (σ.it + 1)).take k).length = k := by
      rw [List.length_take, List.length_drop]
      omega
    have hout : s.getD σ.it 0 ∈ s := by
      rw [List.getD_eq_getElem s 0 hlt]
      exact List.getElem_mem _
    have hin : s.getD σ.end_ 0 ∈ s := by
      rw [List.getD_eq_getElem s 0 (by omega)]
      exact List.getElem_mem _
    show KarpRabinHash.update st σ.hashvalue (s.getD σ.it 0) (s.getD σ.end_ 0)
      = KarpRabinHash.hash charSigned st
          (to_string_view s (σ.it + 1) (σ.end_ + 1)).bytes
    rw [hv, KarpRabinHash.update_hash charSigned st _ _ _ (by rw [hlen]; exact hBtoN)
      (hw _ hout) (hw _ hin)]
    have e : σ.end_ + 1 - (σ.it + 1) = k + 1 := by omega
    have e2 : σ.end_ = σ.it + 1 + k := by omega
    rw [to_string_view, e, drop_take_snoc s (σ.it + 1) k hlt2, ← e2]

theorem weight_of_unsigned (st : KarpRabinHash) (c : Byte) :
    KarpRabinHash.weight false st c = st.hashvalues (c.val : Int) := by
  simp [KarpRabinHash.weight, charToInt]

theorem weight_of_ascii (charSigned : Bool) (st : KarpRabinHash) (c : Byte)
    (h : c.val < 128) :
    KarpRabinHash.weight charSigned st c = st.hashvalues (c.val : Int) := by
  have : ¬ 128 ≤ c.val := by omega
  simp [KarpRabinHash.weight, charToInt, this]

/-! ## `GenerateSignatures` on any document -/

theorem GenerateSignatures.loop_idx (charSigned : Bool) (st : KarpRabinHash) (s : List Byte)
    (B : Nat) :
    ∀ (fuel : Nat) (result : List BlockSignature) (idx it end_ : Nat),
      it ≤ s.length → end_ = it + min ((s.length - it) % U32) B →
      idx + (s.length - it) % U32 < U32 → (s.length - it) % U32 < fuel →
      ∃ more, GenerateSignatures.loop charSigned st s B fuel result idx it end_
          = some (result ++ more) ∧
        more.map (fun sg => sg.idx) = List.range' idx more.length := by
  intro fuel
  induction fuel with
  | zero =>
    intro result idx it end_ _ _ _ h
    omega
  | succ fuel ih =>
    intro result idx it end_ hit hend hidx hfuel
    have hmod : (s.length - it) % U32 ≤ s.length - it := Nat.mod_le _ _
    unfold GenerateSignatures.loop
    by_cases he : it = end_
    · rw [if_pos he]
      exact ⟨[], by simp, by simp⟩
    · rw [if_neg he]
      simp only
      have hend' : (if end_ ≠ s.length then end_ + min ((s.length - end_) % U32) B else end_)
          = end_ + min ((s.length - end_) % U32) B := by
        split
        · rfl
        · rename_i h
          have : end_ = s.length := by omega
          subst this
          simp
      have hrho : (s.length - end_) % U32 + (end_ - it) = (s.length - it) % U32 := by
        have h1 : end_ - it ≤ (s.length - it) % U32 := by omega
        have h2 := Nat.div_add_mod (s.length - it) U32
        have h3 : s.length - end_ = U32 * ((s.length - it) / U32)
            + ((s.length - it) % U32 - (end_ - it)) := by omega
        rw [h3, Nat.mul_add_mod]
        have h4 := Nat.mod_lt (s.length - it) (show U32 > 0 by decide)
        rw [Nat.mod_eq_of_lt (by omega)]
        omega
      obtain ⟨more, hm1, hm2⟩ := ih
        (result ++ [BlockSignature.mk idx
          (MurmurHash3 charSigned seed (to_string_view s it end_).bytes)
          (KarpRabinHash.hash charSigned st (to_string_view s it end_).bytes)
          (to_string_view s it end_)])
        ((idx + 1) % U32) end_ (end_ + min ((s.length - end_) % U32) B)
        (by omega) rfl
        (by
          rw [Nat.mod_eq_of_lt (by omega)]
          omega)
        (by omega)
      rw [hend', hm1]
      refine ⟨BlockSignature.mk idx
          (MurmurHash3 charSigned seed (to_string_view s it end_).bytes)
          (KarpRabinHash.hash charSigned st (to_string_view s it end_).bytes)
          (to_string_view s it end_) :: more, by simp, ?_⟩
      rw [List.map_cons, hm2, Nat.mod_eq_of_lt (by omega), List.length_cons, List.range'_succ]

/-- For every document and block size `GenerateSignatures` returns a table,
and the record at position `i` of the table has `idx = i`. -/
theorem GenerateSignatures_idx (charSigned : Bool) (st : KarpRabinHash) (s : List Byte)
    (B : Nat) :
    ∃ sigs, GenerateSignatures charSigned st s B = some sigs ∧
      sigs.map (fun sg => sg.idx) = List.range sigs.length := by
  have hmod : s.length % U32 ≤ s.length := Nat.mod_le _ _
  have hlt := Nat.mod_lt s.length (show U32 > 0 by decide)
  obtain ⟨more, h1, h2⟩ := GenerateSignatures.loop_idx charSigned st s B (s.length + 1) [] 0 0
    (0 + min (s.length % U32) B) (Nat.zero_le _) (by simp) (by simpa using hlt)
    (by simp only [Nat.sub_zero]; omega)
  refine ⟨more, ?_, ?_⟩
  · simpa [GenerateSignatures] using h1
  · rw [h2, List.range_eq_range']

theorem GenerateDelta_eq_some (charSigned : Bool) (st : KarpRabinHash) (s : List Byte)
    (B : Nat) (sigs : List BlockSignature) (plan : DeltaMap) :
    GenerateDelta charSigned st s B sigs = some plan ↔
      ∃ σ, GenerateDelta.run charSigned st s B sigs = some σ ∧ σ.deltas = plan := by
  unfold GenerateDelta
  cases GenerateDelta.run charSigned st s B sigs <;> simp

/-- C5 (amended): for every reference `R` and target shorter than `2 ^ 32`
bytes and every block size `B ≥ 1`, the plan built from
`GenerateSignatures(R, B)` has one entry for each block `i` of `R`, with
`start = i * B` and `end = i * B + B` reduced modulo `2 ^ 32`; `end` is not
clipped to `len R`, so for a final, shorter block it lies past the end of the
block. -/
theorem GenerateDelta_ranges (charSigned : Bool) (st : KarpRabinHash) (R T : List Byte)
    (B : Nat) (hB : 1 ≤ B) (hR : R.length < 4294967296) (hT : T.length < 4294967296) :
    ∃ sigs plan, GenerateSignatures charSigned st R B = some sigs ∧
      GenerateDelta charSigned st T B sigs = some plan ∧
      keys plan = List.range ((R.length + B - 1) / B) ∧
      ∀ p ∈ plan, p.1 * B < R.length ∧ p.2.start = p.1 * B ∧
        p.2.end_ = (p.1 * B + B) % 4294967296 ∧
        (p.1 * B + B < 4294967296 → p.2.end_ = p.1 * B + B) := by
  have hsig := GenerateSignatures_eq charSigned st R B hB hR
  obtain ⟨σ, hrun⟩ := run_exits charSigned st T B
    ((List.range (blockCount R.length B)).map (sigAt charSigned st R B)) hB hT
  refine ⟨_, σ.deltas, hsig, (GenerateDelta_eq_some _ _ _ _ _ _).mpr ⟨σ, hrun, rfl⟩, ?_, ?_⟩
  · have hS := (run_sound _ _ _ _ _ σ hrun).1
    rw [keys_eq_of_skeleton _ _ hS.skel, prepopulated_sigAt, keys, List.map_map]
    simp [Function.comp_def, blockCount]
  · intro p hp
    have hS := (run_sound _ _ _ _ _ σ hrun).1
    have hsk := hS.skel
    rw [prepopulated_sigAt] at hsk
    have hmem : (p.1, p.2.idx, p.2.start, p.2.end_) ∈ skeleton σ.deltas :=
      List.mem_map.mpr ⟨p, hp, rfl⟩
    rw [hsk, skeleton, List.map_map] at hmem
    obtain ⟨i, hi, he⟩ := List.mem_map.mp hmem
    simp only [Function.comp, freshDelta, Prod.mk.injEq] at he
    obtain ⟨e1, -, e3, e4⟩ := he
    subst e1
    have hlt := blockCount_tight R.length B hB _ (List.mem_range.mp hi)
    have hmod : p.1 * B % U32 = p.1 * B := Nat.mod_eq_of_lt (by unfold U32; omega)
    rw [hmod] at e3 e4
    refine ⟨hlt, e3.symm, e4.symm, ?_⟩
    intro h
    rw [← e4]
    exact Nat.mod_eq_of_lt h

/-- Witness of `GenerateDelta_ranges`: a reference of five bytes in blocks of
four; the entry of the final block, of one byte, has the range `[4, 8)`. -/
theorem GenerateDelta_ranges_witness :
    ∃ sigs plan, GenerateSignatures true (KarpRabinHash.init (fun i => i) (fun _ => 0) 4)
        [1, 2, 3, 4, 5] 4 = some sigs ∧
      GenerateDelta true (KarpRabinHash.init (fun i => i) (fun _ => 0) 4) [7, 7] 4 sigs
        = some plan ∧
      keys plan = List.range ((5 + 4 - 1) / 4) ∧
      ∀ p ∈ plan, p.1 * 4 < 5 ∧ p.2.start = p.1 * 4 ∧
        p.2.end_ = (p.1 * 4 + 4) % 4294967296 ∧
        (p.1 * 4 + 4 < 4294967296 → p.2.end_ = p.1 * 4 + 4) :=
  GenerateDelta_ranges true (KarpRabinHash.init (fun i => i) (fun _ => 0) 4)
    [1, 2, 3, 4, 5] [7, 7] 4 (by decide) (by decide) (by decide)

/-- C5, counterexample: reference `1 2 3 4 5`, block size 4, target equal to
the reference. The final block is `[4, 5)`, and its entry has `end = 8`,
where the claim asks for `min (1 * 4 + 4) 5 = 5`. -/
theorem GenerateDelta_end_not_clipped :
    (GenerateSignatures true (KarpRabinHash.init (fun i => i) (fun _ => 0) 4)
        [1, 2, 3, 4, 5] 4).bind
      (fun sigs => GenerateDelta true (KarpRabinHash.init (fun i => i) (fun _ => 0) 4)
        [1, 2, 3, 4, 5] 4 sigs)
      = some [(0, ⟨0, 0, 4, false, ⟨0, []⟩⟩), (1, ⟨1, 4, 8, false, ⟨4, []⟩⟩)] ∧
    min (1 * 4 + 4) ([1, 2, 3, 4, 5] : List Byte).length = 5 := by
  decide

/-! ## A target shorter than the block size -/

/-- C10: for every block size `B` (a `uint32_t`), every target `T` shorter
than `B` and every signature table, if no signature has both `weak = hash(T)`
and `strong = MurmurHash3(0x1234, T)`, then the window on entry is `T`, the
first pass of the loop exits, so that the scan ends in the state it started in
without a slide, and the plan returned is the pre-populated one, with
`missing = true` and an empty literal in every entry. -/
theorem GenerateDelta_short_target (charSigned : Bool) (st : KarpRabinHash) (B : Nat)
    (T : List Byte) (sigs : List BlockSignature) (hB : B < 4294967296) (hT : T.length < B)
    (hno : ∀ sg ∈ sigs, ¬ (sg.weak = KarpRabinHash.hash charSigned st T ∧
      sg.strong = MurmurHash3 charSigned 0x1234 T)) :
    (GenerateDelta.start charSigned st T B sigs).window T = T ∧
    GenerateDelta.step charSigned st T B (GenerateDelta.tables B sigs).1
      (GenerateDelta.start charSigned st T B sigs) = none ∧
    GenerateDelta.run charSigned st T B sigs
      = some (GenerateDelta.start charSigned st T B sigs) ∧
    ∃ plan, GenerateDelta charSigned st T B sigs = some plan ∧
      plan = (GenerateDelta.start charSigned st T B sigs).deltas ∧
      ∀ p ∈ plan, p.2.missing = true ∧ p.2.data.bytes = [] := by
  have hend : 0 + min (T.length % U32) B = T.length := by
    rw [Nat.mod_eq_of_lt (by unfold U32; omega)]
    omega
  have hwin : (GenerateDelta.start charSigned st T B sigs).window T = T := by
    simp only [GenerateDelta.start, ScanState.window, to_string_view, hend]
    simp
  have hhv : (GenerateDelta.start charSigned st T B sigs).hashvalue
      = KarpRabinHash.hash charSigned st T := by
    have : (to_string_view T 0 (0 + min (T.length % U32) B)).bytes = T := by
      simp only [to_string_view, hend]
      simp
    simp only [GenerateDelta.start, this]
  have hstep : GenerateDelta.step charSigned st T B (GenerateDelta.tables B sigs).1
      (GenerateDelta.start charSigned st T B sigs) = none := by
    apply step_break
    · rw [List.find?_eq_none]
      intro sg hsg hacc
      simp only [accepts, hwin, hhv, Bool.and_eq_true, decide_eq_true_eq, beq_iff_eq] at hacc
      exact hno sg hsg ⟨hacc.1.symm, hacc.2⟩
    · simp only [GenerateDelta.start, hend]
  have hrun : GenerateDelta.run charSigned st T B sigs
      = some (GenerateDelta.start charSigned st T B sigs) := by
    have e : 2 * T.length + 2 = (2 * T.length + 1) + 1 := by omega
    rw [GenerateDelta.run, e, GenerateDelta.loop, hstep]
  refine ⟨hwin, hstep, hrun, _, (GenerateDelta_eq_some _ _ _ _ _ _).mpr ⟨_, hrun, rfl⟩, rfl, ?_⟩
  intro p hp
  simp only [GenerateDelta.start, tables_snd] at hp
  rw [mem_prepopulated B sigs p hp]
  exact ⟨rfl, rfl⟩

/-- Witness of `GenerateDelta_short_target`: block size 4, a target of two
bytes, and the signatures of a reference of five bytes. -/
theorem GenerateDelta_short_target_witness :
    GenerateDelta.run true (KarpRabinHash.init (fun i => i) (fun _ => 0) 4) [7, 7] 4
        [sigAt true (KarpRabinHash.init (fun i => i) (fun _ => 0) 4) [1, 2, 3, 4, 5] 4 0,
         sigAt true (KarpRabinHash.init (fun i => i) (fun _ => 0) 4) [1, 2, 3, 4, 5] 4 1]
      = some (GenerateDelta.start true (KarpRabinHash.init (fun i => i) (fun _ => 0) 4)
          [7, 7] 4
          [sigAt true (KarpRabinHash.init (fun i => i) (fun _ => 0) 4) [1, 2, 3, 4, 5] 4 0,
           sigAt true (KarpRabinHash.init (fun i => i) (fun _ => 0) 4) [1, 2, 3, 4, 5] 4 1]) :=
  (GenerateDelta_short_target true (KarpRabinHash.init (fun i => i) (fun _ => 0) 4) 4 [7, 7]
    [sigAt true (KarpRabinHash.init (fun i => i) (fun _ => 0) 4) [1, 2, 3, 4, 5] 4 0,
     sigAt true (KarpRabinHash.init (fun i => i) (fun _ => 0) 4) [1, 2, 3, 4, 5] 4 1]
    (by decide) (by decide) (by decide)).2.2.1

/-! ## Literals and windows partition a prefix of the target -/

theorem chained_end_le (l : List Accepted) (q : Nat) (h : chained l q) :
    ∀ a ∈ l, a.last_it ≤ a.it ∧ a.it ≤ a.end_ ∧ a.end_ ≤ q := by
  induction l generalizing q with
  | nil => simp
  | cons b l ih =>
    obtain ⟨hq, h1, h2, h3⟩ := h
    intro a ha
    rcases List.mem_cons.mp ha with rfl | ha
    · exact ⟨h1, h2, by omega⟩
    · have := ih _ h3 a ha
      omega

/-- The ranges `[last_it, end)` of the accepted windows, each a literal
followed by its window, partition `[0, q)`. -/
theorem chained_cover (l : List Accepted) (q : Nat) (h : chained l q) (x : Nat) (hx : x < q) :
    ∃ a, (a ∈ l ∧ a.last_it ≤ x ∧ x < a.end_) ∧
      ∀ b, (b ∈ l ∧ b.last_it ≤ x ∧ x < b.end_) → b = a := by
  induction l generalizing q with
  | nil =>
    have : q = 0 := h
    omega
  | cons c l ih =>
    obtain ⟨hq, h1, h2, h3⟩ := h
    have hle := chained_end_le l _ h3
    by_cases hc : c.last_it ≤ x
    · refine ⟨c, ⟨List.mem_cons_self _ _, hc, by omega⟩, ?_⟩
      rintro b ⟨hb, hb1, hb2⟩
      rcases List.mem_cons.mp hb with rfl | hb
      · rfl
      · have := hle b hb
        omega
    · obtain ⟨a, ⟨ha, ha1, ha2⟩, huniq⟩ := ih _ h3 (by omega)
      refine ⟨a, ⟨List.mem_cons_of_mem _ ha, ha1, ha2⟩, ?_⟩
      rintro b ⟨hb, hb1, hb2⟩
      rcases List.mem_cons.mp hb with rfl | hb
      · omega
      · exact huniq b ⟨hb, hb1, hb2⟩

/-- In a chain, of two accepted windows the one nearer the head lies after the
other. -/
theorem chained_find_latest (l : List Accepted) (q : Nat) (h : chained l q) (k : Nat)
    (a : Accepted) (hf : l.find? (fun a => decide (a.sig.idx = k)) = some a) :
    a ∈ l ∧ a.sig.idx = k ∧ ∀ b ∈ l, b.sig.idx = k → b.end_ ≤ a.end_ := by
  induction l generalizing q with
  | nil => simp at hf
  | cons c l ih =>
    obtain ⟨hq, h1, h2, h3⟩ := h
    have hle := chained_end_le l _ h3
    rw [List.find?_cons] at hf
    by_cases hc : c.sig.idx = k
    · simp only [hc, decide_True] at hf
      have : c = a := Option.some.inj hf
      subst this
      refine ⟨List.mem_cons_self _ _, hc, ?_⟩
      intro b hb _
      rcases List.mem_cons.mp hb with rfl | hb
      · exact Nat.le_refl _
      · have := hle b hb
        omega
    · simp only [hc, decide_False] at hf
      obtain ⟨ha, hk, hlat⟩ := ih _ h3 hf
      refine ⟨List.mem_cons_of_mem _ ha, hk, ?_⟩
      intro b hb hbk
      rcases List.mem_cons.mp hb with rfl | hb
      · exact absurd hbk hc
      · exact hlat b hb hbk

/-- Two accepted windows of a chain that differ have disjoint ranges
`[last_it, end)`. -/
theorem chained_disjoint (l : List Accepted) (q : Nat) (h : chained l q)
    (a b : Accepted) (ha : a ∈ l) (hb : b ∈ l) (hne : a ≠ b) :
    a.end_ ≤ b.last_it ∨ b.end_ ≤ a.last_it := by
  induction l generalizing q with
  | nil => simp at ha
  | cons c l ih =>
    obtain ⟨hq, h1, h2, h3⟩ := h
    have hle := chained_end_le l _ h3
    rcases List.mem_cons.mp ha with ha1 | ha1
    · rcases List.mem_cons.mp hb with hb1 | hb1
      · exact absurd (ha1.trans hb1.symm) hne
      · right
        have := (hle b hb1).2.2
        rw [ha1]
        exact this
    · rcases List.mem_cons.mp hb with hb1 | hb1
      · left
        have := (hle a ha1).2.2
        rw [hb1]
        exact this
      · exact ih _ h3 ha1 hb1

/-- Every window accepted by the scan is non-empty, when the block size is at
least 1 and the target shorter than `2 ^ 32` bytes. -/
theorem run_windows_nonempty (charSigned : Bool) (st : KarpRabinHash) (s : List Byte)
    (B : Nat) (sigs : List BlockSignature) (hB : 1 ≤ B) (hs : s.length < U32)
    (r : ScanState) (h : GenerateDelta.run charSigned st s B sigs = some r) :
    ∀ a ∈ r.accepted, a.it < a.end_ := by
  refine (run_induction charSigned st s B sigs hs (fun σ => ∀ a ∈ σ.accepted, a.it < a.end_)
    ?_ ?_ r h).1
  · intro a ha
    simp [GenerateDelta.start] at ha
  · intro σ σ' hS hsh hP hstep
    obtain ⟨hit, hc⟩ := step_cases charSigned st s B sigs σ σ' hstep
    have h2 := hS.it_le
    have h3 := hS.end_le
    rcases hc with ⟨sg, hf, rfl⟩ | ⟨hf, he, rfl⟩
    · intro a ha
      rw [afterMatch_accepted] at ha
      rcases List.mem_cons.mp ha with rfl | ha
      · show σ.it < σ.end_
        omega
      · exact hP a ha
    · exact hP

theorem length_to_string_view (s : List Byte) (i j : Nat) (h1 : i ≤ j) (h2 : j ≤ s.length) :
    (to_string_view s i j).bytes.length = j - i := by
  simp only [to_string_view, List.length_take, List.length_drop]
  omega

/-- The state at the exit of the scan, for a block size of at least 1 and a
target shorter than `2 ^ 32` bytes: the accepted windows are non-empty and
form a chain, the ranges made of a literal and its window partition the
target up to the end of the last window, every entry of the plan is fresh or
holds the literal of the latest window accepted for its key, literals of
different entries are disjoint, and when no key is accepted twice every
literal of the chain is in the plan. -/
theorem run_partition (charSigned : Bool) (st : KarpRabinHash) (T : List Byte) (B : Nat)
    (sigs : List BlockSignature) (hB : 1 ≤ B) (hT : T.length < U32) (σ : ScanState)
    (hrun : GenerateDelta.run charSigned st T B sigs = some σ) :
    (σ.last_it = match σ.accepted with
      | [] => 0
      | a :: _ => a.end_) ∧
    (∀ a ∈ σ.accepted, a.last_it ≤ a.it ∧ a.it < a.end_ ∧ a.end_ ≤ σ.last_it ∧
      σ.last_it ≤ T.length) ∧
    (∀ x, x < σ.last_it →
      ∃ a, (a ∈ σ.accepted ∧ a.last_it ≤ x ∧ x < a.end_) ∧
        ∀ b, (b ∈ σ.accepted ∧ b.last_it ≤ x ∧ x < b.end_) → b = a) ∧
    (∀ p ∈ σ.deltas,
      (p.2.missing = true ∧ p.2.data.bytes = [] ∧ ∀ a ∈ σ.accepted, a.sig.idx ≠ p.1) ∨
      (p.2.missing = false ∧ ∃ a ∈ σ.accepted, a.sig.idx = p.1 ∧
        p.2.data = to_string_view T a.last_it a.it ∧
        ∀ b ∈ σ.accepted, b.sig.idx = p.1 → b.end_ ≤ a.end_)) ∧
    (∀ p ∈ σ.deltas, ∀ q ∈ σ.deltas, p.2.missing = false → q.2.missing = false → p.1 ≠ q.1 →
      p.2.data.offset + p.2.data.bytes.length ≤ q.2.data.offset ∨
      q.2.data.offset + q.2.data.bytes.length ≤ p.2.data.offset) ∧
    ((σ.accepted.map (fun a => a.sig.idx)).Nodup →
      ∀ a ∈ σ.accepted, ∃ p ∈ σ.deltas, p.1 = a.sig.idx ∧ p.2.missing = false ∧
        p.2.data = to_string_view T a.last_it a.it) := by
  have hS := (run_sound charSigned st T B sigs σ hrun).1
  have hne := run_windows_nonempty charSigned st T B sigs hB hT σ hrun
  have hch := hS.chain
  have hle := chained_end_le _ _ hch
  have hlast : σ.last_it ≤ T.length := by
    have := hS.last_le
    have := hS.it_le
    have := hS.end_le
    omega
  have hP3 : ∀ p ∈ σ.deltas,
      (p.2.missing = true ∧ p.2.data.bytes = [] ∧ ∀ a ∈ σ.accepted, a.sig.idx ≠ p.1) ∨
      (p.2.missing = false ∧ ∃ a ∈ σ.accepted, a.sig.idx = p.1 ∧
        p.2.data = to_string_view T a.last_it a.it ∧
        ∀ b ∈ σ.accepted, b.sig.idx = p.1 → b.end_ ≤ a.end_) := by
    intro p hp
    have hl := hS.link p hp
    unfold linked at hl
    cases hf : σ.accepted.find? (fun a => decide (a.sig.idx = p.1)) with
    | none =>
      rw [hf] at hl
      left
      refine ⟨hl.1, by rw [hl.2], ?_⟩
      intro a ha
      have := List.find?_eq_none.mp hf a ha
      simpa using this
    | some a =>
      rw [hf] at hl
      right
      obtain ⟨ha, hk, hlat⟩ := chained_find_latest _ _ hch p.1 a hf
      exact ⟨hl.1, a, ha, hk, hl.2, hlat⟩
  refine ⟨?_, ?_, ?_, hP3, ?_, ?_⟩
  · cases hacc : σ.accepted with
    | nil =>
      rw [hacc] at hch
      exact hch
    | cons a l =>
      rw [hacc] at hch
      exact hch.1
  · intro a ha
    have := hle a ha
    have := hne a ha
    omega
  · intro x hx
    exact chained_cover _ _ hch x hx
  · intro p hp q hq hpm hqm hpq
    rcases hP3 p hp with ⟨h, -⟩ | ⟨-, a, ha, hak, had, -⟩
    · rw [hpm] at h
      exact absurd h (by simp)
    rcases hP3 q hq with ⟨h, -⟩ | ⟨-, b, hb, hbk, hbd, -⟩
    · rw [hqm] at h
      exact absurd h (by simp)
    have hab : a ≠ b := by
      intro e
      rw [e] at hak
      exact hpq (hak.symm.trans hbk)
    have h1 := hle a ha
    have h2 := hle b hb
    rw [had, hbd, length_to_string_view T _ _ h1.1 (by omega),
      length_to_string_view T _ _ h2.1 (by omega)]
    simp only [to_string_view]
    rcases chained_disjoint _ _ hch a b ha hb hab with h | h <;> omega
  · intro hnd a ha
    have hkey : a.sig.idx ∈ keys σ.deltas := by
      rw [keys_eq_of_skeleton _ _ hS.skel, mem_keys_prepopulated]
      exact ⟨a.sig, (hS.events a ha).1, rfl⟩
    obtain ⟨p, hp, hpk⟩ := List.mem_map.mp hkey
    refine ⟨p, hp, hpk, ?_⟩
    rcases hP3 p hp with ⟨-, -, h⟩ | ⟨hm, a', ha', hk', hd', -⟩
    · exact absurd hpk.symm (h a ha)
    · have : a' = a := List.inj_on_of_nodup_map hnd ha' ha (hk'.trans hpk)
      subst this
      exact ⟨hm, hd'⟩

/-- C7 (amended): for every reference, every target shorter than `2 ^ 32`
bytes and every block size of at least 1, the scan exits, and with `last` the
end of the last window it accepted (0 when it accepted none): each accepted
window is non-empty and is preceded by its literal, the range from the end of
the window accepted before it (or 0) to its start; these literals and windows
partition `[0, last)` (every offset below `last` lies in the literal or the
window of exactly one accepted window); a reference block may be accepted for
several windows, and its entry of the plan holds the literal of the latest
one; the literals of different matched entries of the plan are disjoint
ranges of the target; and when no block is accepted twice every literal of
the partition is the literal of an entry of the plan. -/
theorem GenerateDelta_partition (charSigned : Bool) (st : KarpRabinHash) (R T : List Byte)
    (B : Nat) (hB : 1 ≤ B) (hT : T.length < 4294967296) :
    ∃ sigs σ, GenerateSignatures charSigned st R B = some sigs ∧
      GenerateDelta.run charSigned st T B sigs = some σ ∧
      GenerateDelta charSigned st T B sigs = some σ.deltas ∧
      (σ.last_it = match σ.accepted with
        | [] => 0
        | a :: _ => a.end_) ∧
      (∀ a ∈ σ.accepted, a.last_it ≤ a.it ∧ a.it < a.end_ ∧ a.end_ ≤ σ.last_it ∧
        σ.last_it ≤ T.length) ∧
      (∀ x, x < σ.last_it →
        ∃ a, (a ∈ σ.accepted ∧ a.last_it ≤ x ∧ x < a.end_) ∧
          ∀ b, (b ∈ σ.accepted ∧ b.last_it ≤ x ∧ x < b.end_) → b = a) ∧
      (∀ p ∈ σ.deltas,
        (p.2.missing = true ∧ p.2.data.bytes = [] ∧ ∀ a ∈ σ.accepted, a.sig.idx ≠ p.1) ∨
        (p.2.missing = false ∧ ∃ a ∈ σ.accepted, a.sig.idx = p.1 ∧
          p.2.data = to_string_view T a.last_it a.it ∧
          ∀ b ∈ σ.accepted, b.sig.idx = p.1 → b.end_ ≤ a.end_)) ∧
      (∀ p ∈ σ.deltas, ∀ q ∈ σ.deltas, p.2.missing = false → q.2.missing = false →
        p.1 ≠ q.1 →
        p.2.data.offset + p.2.data.bytes.length ≤ q.2.data.offset ∨
        q.2.data.offset + q.2.data.bytes.length ≤ p.2.data.offset) ∧
      ((σ.accepted.map (fun a => a.sig.idx)).Nodup →
        ∀ a ∈ σ.accepted, ∃ p ∈ σ.deltas, p.1 = a.sig.idx ∧ p.2.missing = false ∧
          p.2.data = to_string_view T a.last_it a.it) := by
  obtain ⟨sigs, hsig, -⟩ := GenerateSignatures_idx charSigned st R B
  obtain ⟨σ, hrun⟩ := run_exits charSigned st T B sigs hB hT
  exact ⟨sigs, σ, hsig, hrun, (GenerateDelta_eq_some _ _ _ _ _ _).mpr ⟨σ, hrun, rfl⟩,
    run_partition charSigned st T B sigs hB hT σ hrun⟩

/-! ## The scan of a reference against its own signatures -/

/-- The search in the signature table of a reference returns the signature of
the least block index that passes the test. -/
theorem find?_sigAt_min (charSigned : Bool) (st : KarpRabinHash) (R : List Byte) (B n : Nat)
    (p : BlockSignature → Bool) (sg : BlockSignature)
    (h : ((List.range n).map (sigAt charSigned st R B)).find? p = some sg) :
    ∃ m, m < n ∧ sg = sigAt charSigned st R B m ∧ p (sigAt charSigned st R B m) = true ∧
      ∀ j, j < m → p (sigAt charSigned st R B j) = false := by
  induction n with
  | zero => simp at h
  | succ n ih =>
    rw [List.range_succ, List.map_append, List.find?_append] at h
    cases hf : ((List.range n).map (sigAt charSigned st R B)).find? p with
    | some x =>
      rw [hf] at h
      have : x = sg := by simpa using h
      subst this
      obtain ⟨m, hm, h1, h2, h3⟩ := ih hf
      exact ⟨m, by omega, h1, h2, h3⟩
    | none =>
      rw [hf] at h
      simp only [Option.none_or, List.map_cons, List.map_nil, List.find?_cons,
        List.find?_nil] at h
      by_cases hp : p (sigAt charSigned st R B n) = true
      · rw [hp] at h
        have : sigAt charSigned st R B n = sg := Option.some.inj h
        refine ⟨n, by omega, this.symm, hp, ?_⟩
        intro j hj
        have := List.find?_eq_none.mp hf (sigAt charSigned st R B j)
          (List.mem_map.mpr ⟨j, List.mem_range.mpr hj, rfl⟩)
        simpa using this
      · simp only [Bool.not_eq_true] at hp
        rw [hp] at h
        exact absurd h (by simp)

theorem find?_sigAt_isSome (charSigned : Bool) (st : KarpRabinHash) (R : List Byte) (B n : Nat)
    (p : BlockSignature → Bool) (i : Nat) (hi : i < n)
    (hp : p (sigAt charSigned st R B i) = true) :
    ∃ sg, ((List.range n).map (sigAt charSigned st R B)).find? p = some sg := by
  cases hf : ((List.range n).map (sigAt charSigned st R B)).find? p with
  | some sg => exact ⟨sg, rfl⟩
  | none =>
    have := List.find?_eq_none.mp hf (sigAt charSigned st R B i)
      (List.mem_map.mpr ⟨i, List.mem_range.mpr hi, rfl⟩)
    exact absurd hp this

theorem sameAs_self (x : BlockSignature) : sameAs x x = true := by
  simp [sameAs]

/-- At a block boundary the test of the search is the test for the hashes of
that block. -/
theorem accepts_at_block (charSigned : Bool) (st : KarpRabinHash) (R : List Byte) (B j : Nat)
    (σ : ScanState) (hit : σ.it = j * B) (hend : σ.end_ = min (σ.it + B) R.length)
    (hv : σ.hashvalue = KarpRabinHash.hash charSigned st (σ.window R)) :
    accepts charSigned R σ = sameAs (sigAt charSigned st R B j) := by
  funext sg
  have hw : σ.window R = (sigAt charSigned st R B j).data.bytes := by
    simp only [ScanState.window, sigAt, hend, hit]
  simp only [accepts, sameAs, hv, hw]
  rfl

theorem start_aligned (charSigned : Bool) (st : KarpRabinHash) (R : List Byte) (B : Nat)
    (hB : 1 ≤ B) (sigs : List BlockSignature) :
    Aligned charSigned st R B (GenerateDelta.start charSigned st R B sigs) := by
  refine ⟨rfl, ?_, start_rolling charSigned st R B sigs, ?_, ?_⟩
  · by_cases h : R.length = 0
    · left
      simp [GenerateDelta.start, h]
    · right
      refine ⟨0, ?_, by simp [GenerateDelta.start]⟩
      have hcov := blockCount_cover R.length B hB
      by_contra hc
      have h0 : blockCount R.length B = 0 := by omega
      rw [h0, Nat.zero_mul] at hcov
      omega
  · intro a ha
    simp [GenerateDelta.start] at ha
  · intro i _ hi
    simp [GenerateDelta.start] at hi

theorem step_aligned (charSigned : Bool) (st : KarpRabinHash) (R : List Byte) (B : Nat)
    (hB : 1 ≤ B) (σ σ' : ScanState)
    (hS : Sound charSigned R B
      ((List.range (blockCount R.length B)).map (sigAt charSigned st R B)) σ)
    (hsh : σ.end_ = min (σ.it + B) R.length)
    (hA : Aligned charSigned st R B σ)
    (h : GenerateDelta.step charSigned st R B
      (GenerateDelta.tables B
        ((List.range (blockCount R.length B)).map (sigAt charSigned st R B))).1 σ = some σ') :
    Aligned charSigned st R B σ' := by
  obtain ⟨hit, hc⟩ := step_cases charSigned st R B _ σ σ' h
  obtain ⟨j, hj, hjB⟩ : ∃ j, j < blockCount R.length B ∧ σ.it = j * B := by
    rcases hA.boundary with h | h
    · exact absurd h hit
    · exact h
  have hacc := accepts_at_block charSigned st R B j σ hjB hsh (hA.rolling hit)
  have h3 := hS.end_le
  have hcover := blockCount_cover R.length B hB
  rcases hc with ⟨sg, hf, rfl⟩ | ⟨hf, he, rfl⟩
  · refine ⟨?_, ?_, ?_, ?_, ?_⟩
    · rw [afterMatch_it, afterMatch_last_it]
    · rw [afterMatch_it]
      by_cases he : σ.end_ = R.length
      · exact Or.inl he
      · right
        have hlt : (j + 1) * B < R.length := by
          rw [Nat.add_mul, Nat.one_mul]
          omega
        refine ⟨j + 1, ?_, ?_⟩
        · by_contra hc
          have : blockCount R.length B * B ≤ (j + 1) * B :=
            Nat.mul_le_mul_right B (by omega)
          omega
        · rw [Nat.add_mul, Nat.one_mul]
          omega
    · intro hne
      rw [afterMatch_it] at hne
      simp only [ScanState.window, afterMatch_hashvalue, afterMatch_it, afterMatch_end,
        if_pos hne]
    · intro a ha
      rw [afterMatch_accepted] at ha
      rcases List.mem_cons.mp ha with rfl | ha
      · refine ⟨hA.last_eq, j, hj, hjB, ?_⟩
        rw [← hacc]
        exact hf
      · exact hA.events a ha
    · intro i hi hlt
      rw [afterMatch_it] at hlt
      rw [afterMatch_accepted]
      by_cases hij : i * B < σ.it
      · obtain ⟨a, ha, hai⟩ := hA.done i hi hij
        exact ⟨a, List.mem_cons_of_mem _ ha, hai⟩
      · have hle : i ≤ j := by
          by_contra hc
          have : (j + 1) * B ≤ i * B := Nat.mul_le_mul_right B (by omega)
          rw [Nat.add_mul, Nat.one_mul] at this
          omega
        have hge : j ≤ i := by
          by_contra hc
          have : (i + 1) * B ≤ j * B := Nat.mul_le_mul_right B (by omega)
          rw [Nat.add_mul, Nat.one_mul] at this
          omega
        have : i = j := by omega
        subst this
        exact ⟨_, List.mem_cons_self _ _, hjB⟩
  · exfalso
    rw [hacc] at hf
    obtain ⟨sg, hsg⟩ := find?_sigAt_isSome charSigned st R B (blockCount R.length B)
      (sameAs (sigAt charSigned st R B j)) j hj (sameAs_self _)
    rw [hsg] at hf
    exact absurd hf (by simp)

theorem getD_sigAt (charSigned : Bool) (st : KarpRabinHash) (R : List Byte) (B n j : Nat)
    (hj : j < n) :
    ((List.range n).map (sigAt charSigned st R B)).getD j default
      = sigAt charSigned st R B j := by
  rw [List.getD_eq_getElem _ _ (by simpa using hj)]
  simp

theorem sameAs_iff (x sg : BlockSignature) :
    sameAs x sg = true ↔ x.weak = sg.weak ∧ sg.strong = x.strong := by
  simp [sameAs]

/-- The scan of a reference against its own signature table ends at the end of
the reference with every block accepted. -/
theorem run_aligned (charSigned : Bool) (st : KarpRabinHash) (R : List Byte) (B : Nat)
    (hB : 1 ≤ B) (hR : R.length < U32) (σ : ScanState)
    (hrun : GenerateDelta.run charSigned st R B
      ((List.range (blockCount R.length B)).map (sigAt charSigned st R B)) = some σ) :
    Aligned charSigned st R B σ ∧ σ.it = R.length := by
  obtain ⟨hA, hS, hsh, hstop⟩ := run_induction charSigned st R B _ hR
    (Aligned charSigned st R B) (start_aligned charSigned st R B hB _)
    (fun σ σ' hS hsh hA hstep => step_aligned charSigned st R B hB σ σ' hS hsh hA hstep)
    σ hrun
  refine ⟨hA, ?_⟩
  by_contra hit
  obtain ⟨j, hj, hjB⟩ : ∃ j, j < blockCount R.length B ∧ σ.it = j * B := by
    rcases hA.boundary with h | h
    · exact absurd h hit
    · exact h
  have hacc := accepts_at_block charSigned st R B j σ hjB hsh (hA.rolling hit)
  obtain ⟨sg, hsg⟩ := find?_sigAt_isSome charSigned st R B (blockCount R.length B)
    (sameAs (sigAt charSigned st R B j)) j hj (sameAs_self _)
  rw [← hacc] at hsg
  rw [step_match charSigned st R B _ σ sg hit hsg] at hstop
  exact absurd hstop (by simp)

/-- The plan of the scan of a reference against its own signature table:
every entry has an empty literal, and the entry of block `i` is matched
exactly when no earlier block has both hashes of block `i`. -/
theorem run_identity (charSigned : Bool) (st : KarpRabinHash) (R : List Byte) (B : Nat)
    (hB : 1 ≤ B) (hR : R.length < U32) (σ : ScanState)
    (hrun : GenerateDelta.run charSigned st R B
      ((List.range (blockCount R.length B)).map (sigAt charSigned st R B)) = some σ) :
    keys σ.deltas = List.range (blockCount R.length B) ∧
    ∀ p ∈ σ.deltas, p.1 < blockCount R.length B ∧ p.2.data.bytes = [] ∧
      (p.2.missing = false ↔
        ∀ j, j < p.1 →
          ¬ ((sigAt charSigned st R B j).weak = (sigAt charSigned st R B p.1).weak ∧
             (sigAt charSigned st R B j).strong = (sigAt charSigned st R B p.1).strong)) := by
  obtain ⟨hA, hend⟩ := run_aligned charSigned st R B hB hR σ hrun
  have hS := (run_sound _ _ _ _ _ σ hrun).1
  obtain ⟨-, -, -, hP3, -, -⟩ := run_partition charSigned st R B _ hB hR σ hrun
  have hkeys : keys σ.deltas = List.range (blockCount R.length B) := by
    rw [keys_eq_of_skeleton _ _ hS.skel, prepopulated_sigAt, keys, List.map_map]
    simp [Function.comp_def]
  refine ⟨hkeys, ?_⟩
  intro p hp
  have hpn : p.1 < blockCount R.length B := by
    have : p.1 ∈ keys σ.deltas := List.mem_map.mpr ⟨p, hp, rfl⟩
    rw [hkeys] at this
    exact List.mem_range.mp this
  refine ⟨hpn, ?_, ?_⟩
  · rcases hP3 p hp with ⟨-, h, -⟩ | ⟨-, a, ha, -, hd, -⟩
    · exact h
    · rw [hd, (hA.events a ha).1]
      simp [to_string_view]
  · constructor
    · intro hm j hj
      rcases hP3 p hp with ⟨h, -⟩ | ⟨-, a, ha, hak, -, -⟩
      · rw [hm] at h
        exact absurd h (by simp)
      obtain ⟨-, i, hi, -, hfind⟩ := hA.events a ha
      obtain ⟨m, hm1, hm2, hm3, hm4⟩ := find?_sigAt_min charSigned st R B _ _ _ hfind
      have hmk : m = p.1 := by
        rw [hm2] at hak
        exact hak
      subst hmk
      have hjf := hm4 j hj
      rw [sameAs_iff] at hm3
      intro hsame
      have : sameAs (sigAt charSigned st R B i) (sigAt charSigned st R B j) = true := by
        rw [sameAs_iff]
        exact ⟨hm3.1.trans hsame.1.symm, hsame.2.trans hm3.2⟩
      rw [this] at hjf
      exact absurd hjf (by simp)
    · intro hfirst
      have hlt := blockCount_tight R.length B hB p.1 hpn
      obtain ⟨a, ha, hai⟩ := hA.done p.1 hpn (by omega)
      obtain ⟨-, i, hi, hiB, hfind⟩ := hA.events a ha
      have hik : i = p.1 := by
        rw [hai] at hiB
        exact (Nat.eq_of_mul_eq_mul_right (by omega) hiB).symm
      subst hik
      obtain ⟨m, hm1, hm2, hm3, hm4⟩ := find?_sigAt_min charSigned st R B _ _ _ hfind
      have hmi : m = p.1 := by
        by_contra hne
        rcases Nat.lt_or_gt_of_ne hne with h | h
        · rw [sameAs_iff] at hm3
          exact hfirst m h ⟨hm3.1.symm, hm3.2⟩
        · have := hm4 p.1 h
          rw [sameAs_self] at this
          exact absurd this (by simp)
      rcases hP3 p hp with ⟨-, -, h⟩ | ⟨hm, -⟩
      · exfalso
        apply h a ha
        rw [hm2, hmi]
        rfl
      · exact hm

/-- C2 (amended): for every string `R` shorter than `2 ^ 32` bytes, every
block size `B ≥ 1` and every weight table, the plan computed with target equal
to the reference has one entry for each block, every entry has an empty
literal, and the entry of block `i` has `missing = false` exactly when no
earlier block has both the weak and the strong hash of block `i`; the entry of
a block that repeats the two hashes of an earlier block keeps
`missing = true`. -/
theorem GenerateDelta_identity (charSigned : Bool) (st : KarpRabinHash) (R : List Byte)
    (B : Nat) (hB : 1 ≤ B) (hR : R.length < 4294967296) :
    ∃ sigs plan, GenerateSignatures charSigned st R B = some sigs ∧
      GenerateDelta charSigned st R B sigs = some plan ∧
      keys plan = List.range sigs.length ∧
      ∀ p ∈ plan, p.2.data.bytes = [] ∧
        (p.2.missing = false ↔
          ∀ j, j < p.1 →
            ¬ ((sigs.getD j default).weak = (sigs.getD p.1 default).weak ∧
               (sigs.getD j default).strong = (sigs.getD p.1 default).strong)) := by
  have hsig := GenerateSignatures_eq charSigned st R B hB hR
  obtain ⟨σ, hrun⟩ := run_exits charSigned st R B
    ((List.range (blockCount R.length B)).map (sigAt charSigned st R B)) hB hR
  obtain ⟨hkeys, hall⟩ := run_identity charSigned st R B hB hR σ hrun
  refine ⟨_, σ.deltas, hsig, (GenerateDelta_eq_some _ _ _ _ _ _).mpr ⟨σ, hrun, rfl⟩,
    by simpa using hkeys, ?_⟩
  intro p hp
  obtain ⟨hpn, hbytes, hiff⟩ := hall p hp
  refine ⟨hbytes, ?_⟩
  rw [hiff, getD_sigAt charSigned st R B _ p.1 hpn]
  constructor
  · intro h j hj
    rw [getD_sigAt charSigned st R B _ j (by omega)]
    exact h j hj
  · intro h j hj
    have := h j hj
    rw [getD_sigAt charSigned st R B _ j (by omega)] at this
    exact this

/-- Witness of `GenerateDelta_identity`: the reference `1 2 1 2 3` in blocks
of two, whose second block repeats the first. -/
theorem GenerateDelta_identity_witness :
    ∃ sigs plan, GenerateSignatures true (KarpRabinHash.init (fun i => i) (fun _ => 0) 2)
        [1, 2, 1, 2, 3] 2 = some sigs ∧
      GenerateDelta true (KarpRabinHash.init (fun i => i) (fun _ => 0) 2) [1, 2, 1, 2, 3] 2 sigs
        = some plan ∧
      keys plan = List.range sigs.length ∧
      ∀ p ∈ plan, p.2.data.bytes = [] ∧
        (p.2.missing = false ↔
          ∀ j, j < p.1 →
            ¬ ((sigs.getD j default).weak = (sigs.getD p.1 default).weak ∧
               (sigs.getD j default).strong = (sigs.getD p.1 default).strong)) :=
  GenerateDelta_identity true (KarpRabinHash.init (fun i => i) (fun _ => 0) 2)
    [1, 2, 1, 2, 3] 2 (by decide) (by decide)

/-- C2, counterexample: the reference `7 7` with block size 1 and target equal
to the reference. Both windows are accepted for the signature of block 0, the
first in the bucket, and the entry of block 1 keeps `missing = true`. -/
theorem GenerateDelta_identity_duplicate :
    (GenerateSignatures true (KarpRabinHash.init (fun i => i) (fun _ => 0) 1) [7, 7] 1).bind
      (fun sigs => GenerateDelta true (KarpRabinHash.init (fun i => i) (fun _ => 0) 1)
        [7, 7] 1 sigs)
      = some [(0, ⟨0, 0, 1, false, ⟨1, []⟩⟩), (1, ⟨1, 1, 2, true, ⟨0, []⟩⟩)] := by
  decide

/-- C7, counterexample: reference `1 2 3 4` with block size 4 and target
`9 1 2 3 4 8 1 2 3 4`. Block 0 is accepted for the two windows `[1, 5)` and
`[6, 10)`; its entry keeps the literal `[5, 6)` of the second only, and the
byte at offset 0, before the end of the last match, is in no literal of the
plan and in no matched window. -/
theorem GenerateDelta_matched_twice :
    (GenerateSignatures true (KarpRabinHash.init (fun i => i) (fun _ => 0) 4)
        [1, 2, 3, 4] 4).bind
      (fun sigs => (GenerateDelta.run true (KarpRabinHash.init (fun i => i) (fun _ => 0) 4)
        [9, 1, 2, 3, 4, 8, 1, 2, 3, 4] 4 sigs).map
          (fun σ => (σ.deltas, σ.accepted.map (fun a => (a.sig.idx, a.it, a.end_)))))
      = some ([(0, ⟨0, 0, 4, false, ⟨5, [8]⟩⟩)], [(0, 6, 10), (0, 1, 5)]) := by
  decide

/-- Witness of `GenerateDelta_partition`: reference `1 2 3 4 5 6`, block size
2, target `1 2 9 5 6`. -/
theorem GenerateDelta_partition_witness :
    ∃ sigs σ, GenerateSignatures true (KarpRabinHash.init (fun i => i) (fun _ => 0) 2)
        [1, 2, 3, 4, 5, 6] 2 = some sigs ∧
      GenerateDelta.run true (KarpRabinHash.init (fun i => i) (fun _ => 0) 2)
        [1, 2, 9, 5, 6] 2 sigs = some σ ∧
      σ.last_it ≤ 5 := by
  obtain ⟨sigs, σ, h1, h2, -, -, h4, -⟩ := GenerateDelta_partition true
    (KarpRabinHash.init (fun i => i) (fun _ => 0) 2) [1, 2, 3, 4, 5, 6] [1, 2, 9, 5, 6] 2
    (by decide) (by decide)
  refine ⟨sigs, σ, h1, h2, ?_⟩
  have hS := (run_sound _ _ _ _ _ σ h2).1
  have := hS.last_le
  have := hS.it_le
  have := hS.end_le
  simp only [List.length_cons, List.length_nil] at *
  omega

/-! ## The plan does not depend on the weight table -/

theorem find?_congr_mem {α : Type} (p q : α → Bool) (l : List α)
    (h : ∀ a ∈ l, p a = q a) : l.find? p = l.find? q := by
  induction l with
  | nil => rfl
  | cons a l ih =>
    rw [List.find?_cons, List.find?_cons, h a (List.mem_cons_self _ _),
      ih (fun b hb => h b (List.mem_cons_of_mem _ hb))]

theorem strongSeparates_spec (charSigned : Bool) (R T : List Byte) (B : Nat)
    (h : strongSeparates charSigned R T B = true) (i p : Nat)
    (hi : i < blockCount R.length B) (hp : p < T.length)
    (hm : MurmurHash3 charSigned seed (blockBytes R B i)
      = MurmurHash3 charSigned seed (windowAt T B p)) :
    blockBytes R B i = windowAt T B p := by
  unfold strongSeparates at h
  rw [List.all_eq_true] at h
  have h1 := h i (List.mem_range.mpr hi)
  rw [List.all_eq_true] at h1
  have h2 := h1 p (List.mem_range.mpr hp)
  simpa [hm] using h2

/-- When the strong hash separates blocks from windows and the running hash
is the hash of the window, the search for `sig` returns the signature of the
first block that has the bytes of the window. -/
theorem find?_by_bytes (charSigned : Bool) (st : KarpRabinHash) (R T : List Byte) (B : Nat)
    (hsep : strongSeparates charSigned R T B = true) (σ : ScanState)
    (hit : σ.it < T.length) (hsh : σ.end_ = min (σ.it + B) T.length)
    (hv : σ.hashvalue = KarpRabinHash.hash charSigned st (σ.window T)) :
    ((List.range (blockCount R.length B)).map (sigAt charSigned st R B)).find?
        (accepts charSigned T σ)
      = ((List.range (blockCount R.length B)).find?
          (fun i => decide (blockBytes R B i = windowAt T B σ.it))).map
            (sigAt charSigned st R B) := by
  rw [List.find?_map]
  congr 1
  apply find?_congr_mem
  intro i hi
  have hw : σ.window T = windowAt T B σ.it := by
    simp only [ScanState.window, windowAt, hsh]
  have hb : (sigAt charSigned st R B i).data.bytes = blockBytes R B i := rfl
  have hwk : (sigAt charSigned st R B i).weak
      = KarpRabinHash.hash charSigned st (blockBytes R B i) := rfl
  have hst : (sigAt charSigned st R B i).strong
      = MurmurHash3 charSigned seed (blockBytes R B i) := rfl
  simp only [Function.comp, accepts, hv, hw, hwk, hst]
  by_cases he : blockBytes R B i = windowAt T B σ.it
  · simp [he]
  · have hne : ¬ MurmurHash3 charSigned seed (blockBytes R B i)
        = MurmurHash3 charSigned seed (windowAt T B σ.it) := fun hm =>
      he (strongSeparates_spec charSigned R T B hsep i σ.it (List.mem_range.mp hi) hit hm)
    simp [he, hne]

theorem sameScan_afterMatch (charSigned : Bool) (st₁ st₂ : KarpRabinHash) (T : List Byte)
    (B : Nat) (σ₁ σ₂ : ScanState) (sg₁ sg₂ : BlockSignature) (h : sameScan σ₁ σ₂)
    (hidx : sg₁.idx = sg₂.idx) :
    sameScan (afterMatch charSigned st₁ T B σ₁ sg₁) (afterMatch charSigned st₂ T B σ₂ sg₂) := by
  obtain ⟨h1, h2, h3, h4⟩ := h
  refine ⟨?_, ?_, ?_, ?_⟩
  · rw [afterMatch_it, afterMatch_it, h3]
  · rw [afterMatch_last_it, afterMatch_last_it, h3]
  · rw [afterMatch_end, afterMatch_end, h3]
  · rw [afterMatch_deltas, afterMatch_deltas, h1, h2, h4, hidx]

/-- Under two weight tables a pass of the scan does the same: it exits in
both, accepts the same block in both, or slides in both. -/
theorem step_sameScan (charSigned : Bool) (st₁ st₂ : KarpRabinHash) (R T : List Byte)
    (B : Nat) (hsep : strongSeparates charSigned R T B = true) (σ₁ σ₂ : ScanState)
    (h : sameScan σ₁ σ₂)
    (hle : σ₁.it ≤ T.length) (hsh : σ₁.end_ = min (σ₁.it + B) T.length)
    (hr₁ : Rolling charSigned st₁ T σ₁) (hr₂ : Rolling charSigned st₂ T σ₂) :
    (GenerateDelta.step charSigned st₁ T B (GenerateDelta.tables B
        ((List.range (blockCount R.length B)).map (sigAt charSigned st₁ R B))).1 σ₁ = none ∧
      GenerateDelta.step charSigned st₂ T B (GenerateDelta.tables B
        ((List.range (blockCount R.length B)).map (sigAt charSigned st₂ R B))).1 σ₂ = none) ∨
    ∃ σ₁' σ₂',
      GenerateDelta.step charSigned st₁ T B (GenerateDelta.tables B
        ((List.range (blockCount R.length B)).map (sigAt charSigned st₁ R B))).1 σ₁
          = some σ₁' ∧
      GenerateDelta.step charSigned st₂ T B (GenerateDelta.tables B
        ((List.range (blockCount R.length B)).map (sigAt charSigned st₂ R B))).1 σ₂
          = some σ₂' ∧
      sameScan σ₁' σ₂' := by
  obtain ⟨h1, h2, h3, h4⟩ := h
  by_cases hit : σ₁.it = T.length
  · left
    exact ⟨step_exit _ _ _ _ _ _ hit, step_exit _ _ _ _ _ _ (h1 ▸ hit)⟩
  have hit₂ : σ₂.it ≠ T.length := h1 ▸ hit
  have hf₁ := find?_by_bytes charSigned st₁ R T B hsep σ₁ (by omega) hsh (hr₁ hit)
  have hf₂ := find?_by_bytes charSigned st₂ R T B hsep σ₂ (by omega) (by rw [← h1, ← h3]; exact hsh)
    (hr₂ hit₂)
  rw [← h1] at hf₂
  cases hfind : (List.range (blockCount R.length B)).find?
      (fun i => decide (blockBytes R B i = windowAt T B σ₁.it)) with
  | some i =>
    rw [hfind] at hf₁ hf₂
    right
    refine ⟨_, _, step_match _ _ _ _ _ _ _ hit hf₁, step_match _ _ _ _ _ _ _ hit₂ hf₂, ?_⟩
    exact sameScan_afterMatch charSigned st₁ st₂ T B σ₁ σ₂ _ _ ⟨h1, h2, h3, h4⟩ rfl
  | none =>
    rw [hfind] at hf₁ hf₂
    by_cases he : σ₁.end_ = T.length
    · left
      exact ⟨step_break _ _ _ _ _ _ hf₁ he, step_break _ _ _ _ _ _ hf₂ (h3 ▸ he)⟩
    · right
      refine ⟨_, _, step_slide _ _ _ _ _ _ hit hf₁ he,
        step_slide _ _ _ _ _ _ hit₂ hf₂ (h3 ▸ he), ?_⟩
      exact ⟨by simp [afterSlide, h1], by simp [afterSlide, h2], by simp [afterSlide, h3],
        by simp [afterSlide, h4]⟩

theorem loop_sameScan (charSigned : Bool) (st₁ st₂ : KarpRabinHash) (R T : List Byte) (B : Nat)
    (hB : 1 ≤ B) (hT : T.length < U32)
    (hB₁ : st₁.BtoN = KarpRabinHash.B ^ B % 524288)
    (hB₂ : st₂.BtoN = KarpRabinHash.B ^ B % 524288)
    (hw₁ : ∀ c ∈ T, KarpRabinHash.weight charSigned st₁ c = st₁.hashvalues (c.val : Int))
    (hw₂ : ∀ c ∈ T, KarpRabinHash.weight charSigned st₂ c = st₂.hashvalues (c.val : Int))
    (hsep : strongSeparates charSigned R T B = true) :
    ∀ (fuel : Nat) (σ₁ σ₂ : ScanState), sameScan σ₁ σ₂ →
      Sound charSigned T B ((List.range (blockCount R.length B)).map
        (sigAt charSigned st₁ R B)) σ₁ →
      Sound charSigned T B ((List.range (blockCount R.length B)).map
        (sigAt charSigned st₂ R B)) σ₂ →
      σ₁.end_ = min (σ₁.it + B) T.length →
      Rolling charSigned st₁ T σ₁ → Rolling charSigned st₂ T σ₂ →
      (GenerateDelta.loop charSigned st₁ T B (GenerateDelta.tables B
          ((List.range (blockCount R.length B)).map (sigAt charSigned st₁ R B))).1
          fuel σ₁).map (fun σ => σ.deltas)
        = (GenerateDelta.loop charSigned st₂ T B (GenerateDelta.tables B
          ((List.range (blockCount R.length B)).map (sigAt charSigned st₂ R B))).1
          fuel σ₂).map (fun σ => σ.deltas) := by
  intro fuel
  induction fuel with
  | zero =>
    intro σ₁ σ₂ _ _ _ _ _ _
    rfl
  | succ fuel ih =>
    intro σ₁ σ₂ hsame hS₁ hS₂ hsh hr₁ hr₂
    have hle : σ₁.it ≤ T.length := by
      have := hS₁.it_le
      have := hS₁.end_le
      omega
    have hsh₂ : σ₂.end_ = min (σ₂.it + B) T.length := by
      rw [← hsame.1, ← hsame.2.2.1]
      exact hsh
    unfold GenerateDelta.loop
    rcases step_sameScan charSigned st₁ st₂ R T B hsep σ₁ σ₂ hsame hle hsh hr₁ hr₂ with
      ⟨e₁, e₂⟩ | ⟨σ₁', σ₂', e₁, e₂, hsame'⟩
    · rw [e₁, e₂]
      simp only [Option.map_some']
      rw [hsame.2.2.2]
    · rw [e₁, e₂]
      exact ih σ₁' σ₂' hsame'
        (step_sound _ _ _ _ _ _ _ hS₁ e₁) (step_sound _ _ _ _ _ _ _ hS₂ e₂)
        (step_shape _ _ _ _ _ hT _ _ hS₁ hsh e₁)
        (step_rolling _ _ _ _ _ hB hB₁ hw₁ _ _ hS₁ hsh hr₁ e₁)
        (step_rolling _ _ _ _ _ hB hB₂ hw₂ _ _ hS₂ hsh₂ hr₂ e₂)

/-- The plan does not depend on the weight table, when the strong hash
separates the blocks of the reference from the windows of the target, both
tables are initialised for the block size, and `hash` reads for every byte of
the target the table entry that `update` reads. -/
theorem GenerateDelta_independent (charSigned : Bool) (st₁ st₂ : KarpRabinHash)
    (R T : List Byte) (B : Nat) (hB : 1 ≤ B) (hT : T.length < U32)
    (hB₁ : st₁.BtoN = KarpRabinHash.B ^ B % 524288)
    (hB₂ : st₂.BtoN = KarpRabinHash.B ^ B % 524288)
    (hw₁ : ∀ c ∈ T, KarpRabinHash.weight charSigned st₁ c = st₁.hashvalues (c.val : Int))
    (hw₂ : ∀ c ∈ T, KarpRabinHash.weight charSigned st₂ c = st₂.hashvalues (c.val : Int))
    (hsep : strongSeparates charSigned R T B = true) :
    GenerateDelta charSigned st₁ T B
        ((List.range (blockCount R.length B)).map (sigAt charSigned st₁ R B))
      = GenerateDelta charSigned st₂ T B
        ((List.range (blockCount R.length B)).map (sigAt charSigned st₂ R B)) := by
  unfold GenerateDelta GenerateDelta.run
  apply loop_sameScan charSigned st₁ st₂ R T B hB hT hB₁ hB₂ hw₁ hw₂ hsep
  · refine ⟨rfl, rfl, rfl, ?_⟩
    simp only [GenerateDelta.start, tables_snd, prepopulated_sigAt]
  · exact start_sound _ _ _ _ _
  · exact start_sound _ _ _ _ _
  · exact start_shape _ _ _ _ _ hT
  · exact start_rolling _ _ _ _ _
  · exact start_rolling _ _ _ _ _

/-! ## The acceptance scenarios of `main` -/

/-- The plan of a `calculateDiff` with block size 16 is the plan computed with
the zero weight table, for documents of ASCII bytes shorter than `2 ^ 32`
whose blocks and windows the strong hash separates. -/
theorem calculateDiff_eq_zeroTable (charSigned : Bool) (rand : Nat → Nat)
    (outside : Int → Nat) (R T : List Byte) (hR : R.length < U32) (hT : T.length < U32)
    (hascii : ∀ c ∈ T, c.val < 128) (hsep : strongSeparates charSigned R T 16 = true) :
    (calculateDiff charSigned rand outside 16 R T).map (fun r => r.delta)
      = GenerateDelta charSigned zeroTable16 T 16
          ((List.range (blockCount R.length 16)).map (sigAt charSigned zeroTable16 R 16)) := by
  have h16 : (((16 : Int) % (U32 : Int)).toNat) = 16 := by decide
  unfold calculateDiff
  simp only [h16]
  rw [GenerateSignatures_eq charSigned _ R 16 (by decide) hR]
  simp only
  rw [GenerateDelta_independent charSigned (KarpRabinHash.init rand outside 16) zeroTable16
    R T 16 (by decide) hT (KarpRabinHash.init_BtoN _ _ _) (KarpRabinHash.init_BtoN _ _ _)
    (fun c hc => weight_of_ascii _ _ c (hascii c hc))
    (fun c hc => weight_of_ascii _ _ c (hascii c hc)) hsep]
  cases GenerateDelta charSigned zeroTable16 T 16
    ((List.range (blockCount R.length 16)).map (sigAt charSigned zeroTable16 R 16)) <;> rfl

set_option maxRecDepth 100000 in
theorem docB1_ascii : ∀ c ∈ docB1, c.val < 128 := by
  decide

set_option maxRecDepth 100000 in
theorem docs1_separated (charSigned : Bool) : strongSeparates charSigned docA1 docB1 16 = true := by
  cases charSigned <;> decide

set_option maxRecDepth 100000 in
/-- The plan of the first scenario of `main` under the zero weight table. -/
theorem docs1_plan_zeroTable (charSigned : Bool) :
    GenerateDelta charSigned zeroTable16 docB1 16
      ((List.range (blockCount docA1.length 16)).map (sigAt charSigned zeroTable16 docA1 16))
      = some
        [(0, ⟨0, 0, 16, true, ⟨0, []⟩⟩),
         (1, ⟨1, 16, 32, false, ⟨0, bytesOf "When summertime "⟩⟩),
         (2, ⟨2, 32, 48, true, ⟨0, []⟩⟩),
         (3, ⟨3, 48, 64, false, ⟨32, bytesOf " days hot en"⟩⟩),
         (4, ⟨4, 64, 80, false, ⟨60, []⟩⟩),
         (5, ⟨5, 80, 96, false, ⟨76, []⟩⟩),
         (6, ⟨6, 96, 112, false, ⟨92, []⟩⟩)] := by
  cases charSigned <;> decide

/-- C8: for every weight table (and either signedness of `char`),
`calculateDiff(16, a, b)` on the two documents of the first scenario of `main`
returns a plan of 7 entries in which entry 0 is missing, entry 1 is matched
with the literal "When summertime ", entry 2 is missing and entry 3 is matched
with the literal " days hot en"; the entries 4, 5 and 6 are matched with
empty literals. -/
theorem calculateDiff_first_scenario (charSigned : Bool) (rand : Nat → Nat)
    (outside : Int → Nat) :
    ∃ r, calculateDiff charSigned rand outside 16 docA1 docB1 = some r ∧
      r.delta.length = 7 ∧
      r.delta =
        [(0, ⟨0, 0, 16, true, ⟨0, []⟩⟩),
         (1, ⟨1, 16, 32, false, ⟨0, bytesOf "When summertime "⟩⟩),
         (2, ⟨2, 32, 48, true, ⟨0, []⟩⟩),
         (3, ⟨3, 48, 64, false, ⟨32, bytesOf " days hot en"⟩⟩),
         (4, ⟨4, 64, 80, false, ⟨60, []⟩⟩),
         (5, ⟨5, 80, 96, false, ⟨76, []⟩⟩),
         (6, ⟨6, 96, 112, false, ⟨92, []⟩⟩)] := by
  have hR : docA1.length < U32 := by decide
  have hT : docB1.length < U32 := by decide
  have h := calculateDiff_eq_zeroTable charSigned rand outside docA1 docB1 hR hT docB1_ascii
    (docs1_separated charSigned)
  rw [docs1_plan_zeroTable charSigned] at h
  cases hc : calculateDiff charSigned rand outside 16 docA1 docB1 with
  | none =>
    rw [hc] at h
    exact absurd h (by simp)
  | some r =>
    rw [hc] at h
    have hd : r.delta = _ := Option.some.inj h
    exact ⟨r, rfl, by rw [hd]; rfl, hd⟩

/-! ## A string inserted at a block boundary -/
theorem length_insertAt (R X : List Byte) (a : Nat) :
    (insertAt R a X).length = R.length + X.length := by
  simp only [insertAt, List.length_append, List.length_take, List.length_drop]
  omega

theorem drop_insertAt_after (R X : List Byte) (a d : Nat) (ha : a ≤ R.length) :
    (insertAt R a X).drop (a + X.length + d) = R.drop (a + d) := by
  have h1 : (R.take a ++ X).length = a + X.length := by
    simp only [List.length_append, List.length_take]
    omega
  rw [insertAt, ← List.drop_drop, List.drop_left' h1, List.drop_drop]

theorem take_drop_insertAt_before (R X : List Byte) (a p w : Nat) (ha : a ≤ R.length)
    (hp : p + w ≤ a) :
    ((insertAt R a X).drop p).take w = (R.drop p).take w := by
  have hlen : (R.take a).length = a := by
    rw [List.length_take]
    omega
  rw [insertAt, List.append_assoc, List.drop_append_of_le_length (by omega),
    List.take_append_of_le_length (by rw [List.length_drop]; omega), List.drop_take,
    List.take_take]
  congr 1
  omega

theorem take_drop_insertAt_inside (R X : List Byte) (a : Nat) (ha : a ≤ R.length) :
    ((insertAt R a X).drop a).take X.length = X := by
  have hlen : (R.take a).length = a := by
    rw [List.length_take]
    omega
  rw [insertAt, List.append_assoc, List.drop_left' hlen, List.take_left' rfl]

theorem accepts_of_window (charSigned : Bool) (st : KarpRabinHash) (R T : List Byte) (B j : Nat)
    (σ : ScanState) (hw : σ.window T = blockBytes R B j)
    (hv : σ.hashvalue = KarpRabinHash.hash charSigned st (σ.window T)) :
    accepts charSigned T σ = sameAs (sigAt charSigned st R B j) := by
  funext sg
  simp only [accepts, sameAs, hv, hw]
  rfl

theorem find?_accepts_none (charSigned : Bool) (st : KarpRabinHash) (R T : List Byte) (B : Nat)
    (σ : ScanState) (hv : σ.hashvalue = KarpRabinHash.hash charSigned st (σ.window T))
    (hno : ∀ i, i < blockCount R.length B →
      ¬ (KarpRabinHash.hash charSigned st (σ.window T)
          = KarpRabinHash.hash charSigned st (blockBytes R B i) ∧
        MurmurHash3 charSigned seed (σ.window T)
          = MurmurHash3 charSigned seed (blockBytes R B i))) :
    ((List.range (blockCount R.length B)).map (sigAt charSigned st R B)).find?
        (accepts charSigned T σ) = none := by
  rw [List.find?_eq_none]
  intro sg hsg hacc
  obtain ⟨i, hi, rfl⟩ := List.mem_map.mp hsg
  simp only [accepts, hv, Bool.and_eq_true, decide_eq_true_eq, beq_iff_eq] at hacc
  exact hno i (List.mem_range.mp hi) ⟨hacc.1, hacc.2.symm⟩

theorem window_before (R X : List Byte) (B k j : Nat) (hk : k * B ≤ R.length)
    (hj : j * B + B ≤ k * B) (σ : ScanState) (hit : σ.it = j * B)
    (hsh : σ.end_ = min (σ.it + B) (insertAt R (k * B) X).length) :
    σ.window (insertAt R (k * B) X) = blockBytes R B j := by
  have hlen := length_insertAt R X (k * B)
  have e1 : σ.end_ - σ.it = B := by omega
  have e2 : min (j * B + B) R.length - j * B = B := by omega
  simp only [ScanState.window, to_string_view, blockBytes, e1, e2]
  rw [hit]
  exact take_drop_insertAt_before R X (k * B) (j * B) B hk hj

theorem window_after (R X : List Byte) (B k : Nat) (hk : k * B ≤ R.length) (d : Nat)
    (σ : ScanState) (j : Nat) (hj : j * B = k * B + d) (hit : σ.it = j * B + X.length)
    (hsh : σ.end_ = min (σ.it + B) (insertAt R (k * B) X).length) :
    σ.window (insertAt R (k * B) X) = blockBytes R B j := by
  have hlen := length_insertAt R X (k * B)
  have e1 : σ.end_ - σ.it = min (j * B + B) R.length - j * B := by omega
  have e3 : σ.it = k * B + X.length + d := by omega
  simp only [ScanState.window, to_string_view, blockBytes, e1]
  rw [e3, drop_insertAt_after R X (k * B) d hk, ← hj]

theorem step_inserted (charSigned : Bool) (st : KarpRabinHash) (R : List Byte) (B k : Nat)
    (X : List Byte) (hB : 1 ≤ B) (hk : (k + 1) * B ≤ R.length) (hX : 0 < X.length)
    (hBtoN : st.BtoN = KarpRabinHash.B ^ B % 524288)
    (hw : ∀ c ∈ insertAt R (k * B) X,
      KarpRabinHash.weight charSigned st c = st.hashvalues (c.val : Int))
    (hins : ∀ m, m < X.length → ∀ i, i < blockCount R.length B →
      ¬ (KarpRabinHash.hash charSigned st (windowAt (insertAt R (k * B) X) B (k * B + m))
          = KarpRabinHash.hash charSigned st (blockBytes R B i) ∧
        MurmurHash3 charSigned seed (windowAt (insertAt R (k * B) X) B (k * B + m))
          = MurmurHash3 charSigned seed (blockBytes R B i)))
    (σ σ' : ScanState)
    (hS : Sound charSigned (insertAt R (k * B) X) B
      ((List.range (blockCount R.length B)).map (sigAt charSigned st R B)) σ)
    (hsh : σ.end_ = min (σ.it + B) (insertAt R (k * B) X).length)
    (hI : Inserted charSigned st R B k X σ)
    (hstep : GenerateDelta.step charSigned st (insertAt R (k * B) X) B
      (GenerateDelta.tables B
        ((List.range (blockCount R.length B)).map (sigAt charSigned st R B))).1 σ = some σ') :
    Inserted charSigned st R B k X σ' := by
  have hroll' := step_rolling charSigned st _ B _ hB hBtoN hw σ σ' hS hsh hI.rolling hstep
  obtain ⟨hit, hc⟩ := step_cases charSigned st _ B _ σ σ' hstep
  have hlenT := length_insertAt R X (k * B)
  have hk1 : (k + 1) * B = k * B + B := by ring
  have hkR : k * B ≤ R.length := by omega
  have hcover := blockCount_cover R.length B hB
  have hwinAt : σ.window (insertAt R (k * B) X) = windowAt (insertAt R (k * B) X) B σ.it := by
    simp only [ScanState.window, windowAt, hsh]
  have hlow : ∀ i, i < k → i * B + B ≤ k * B := by
    intro i hi
    have : (i + 1) * B ≤ k * B := Nat.mul_le_mul_right B (by omega)
    rw [Nat.add_mul, Nat.one_mul] at this
    exact this
  have hhigh : ∀ i, k ≤ i → k * B ≤ i * B := fun i hi => Nat.mul_le_mul_right B hi
  have hidx : ∀ i, (sigAt charSigned st R B i).idx = i := fun _ => rfl
  rcases hI.phase with ⟨j, hjk, hjit, hjlast⟩ | ⟨m, hm0, hmx, hmit, hmlast⟩ |
      ⟨j, hkj, hjn, hjit, hjlast⟩
  · by_cases hlt : j < k
    · -- a block before the insertion
      have hjB := hlow j hlt
      have hjn : j < blockCount R.length B := by
        by_contra hc'
        have : blockCount R.length B * B ≤ j * B := Nat.mul_le_mul_right B (by omega)
        omega
      have hwin := window_before R X B k j hkR hjB σ hjit hsh
      have hacc := accepts_of_window charSigned st R _ B j σ hwin (hI.rolling hit)
      obtain ⟨sg0, hfind⟩ := find?_sigAt_isSome charSigned st R B (blockCount R.length B)
        (sameAs (sigAt charSigned st R B j)) j hjn (sameAs_self _)
      rw [← hacc] at hfind
      rcases hc with ⟨sg, hf, rfl⟩ | ⟨hf, he, rfl⟩
      · refine ⟨hroll', Or.inl ⟨j + 1, by omega, ?_, ?_⟩, ?_, ?_⟩
        · rw [afterMatch_it, Nat.add_mul, Nat.one_mul]
          omega
        · rw [afterMatch_it, afterMatch_last_it]
        · intro a ha
          rw [afterMatch_accepted] at ha
          rcases List.mem_cons.mp ha with rfl | ha
          · exact ⟨j, hjn, by rw [← hacc]; exact hf,
              Or.inl ⟨hlt, by show σ.last_it = j * B; omega, hjit⟩⟩
          · exact hI.events a ha
        · intro i hi hcond
          rw [afterMatch_it] at hcond
          rw [afterMatch_accepted]
          by_cases hik : i < k
          · rw [if_pos hik] at hcond
            by_cases hij : i < j
            · have := hlow i hik
              have h2 : i * B + B ≤ j * B := by
                have : (i + 1) * B ≤ j * B := Nat.mul_le_mul_right B (by omega)
                rw [Nat.add_mul, Nat.one_mul] at this
                exact this
              obtain ⟨a, ha, hai⟩ := hI.done i hi (by rw [if_pos hik]; omega)
              exact ⟨a, List.mem_cons_of_mem _ ha, hai⟩
            · have hle : i ≤ j := by
                by_contra hc'
                have : (j + 1) * B ≤ i * B := Nat.mul_le_mul_right B (by omega)
                rw [Nat.add_mul, Nat.one_mul] at this
                omega
              have : i = j := by omega
              subst this
              exact ⟨_, List.mem_cons_self _ _, by rw [if_pos hik]; exact hjit⟩
          · rw [if_neg hik] at hcond
            have := hhigh i (by omega)
            omega
      · rw [hfind] at hf
        exact absurd hf (by simp)
    · -- the start of the insertion
      have hjk' : j = k := by omega
      subst hjk'
      have hnone : ((List.range (blockCount R.length B)).map (sigAt charSigned st R B)).find?
          (accepts charSigned (insertAt R (j * B) X) σ) = none := by
        apply find?_accepts_none charSigned st R _ B σ (hI.rolling hit)
        rw [hwinAt, hjit]
        exact hins 0 hX
      rcases hc with ⟨sg, hf, rfl⟩ | ⟨hf, he, rfl⟩
      · rw [hnone] at hf
        exact absurd hf (by simp)
      · refine ⟨hroll', Or.inr (Or.inl ⟨1, by omega, by omega, ?_, ?_⟩), hI.events, ?_⟩
        · show σ.it + 1 = j * B + 1
          omega
        · show σ.last_it = j * B
          omega
        · intro i hi hcond
          have hcond' : if i < j then i * B < σ.it + 1 else i * B + X.length < σ.it + 1 :=
            hcond
          apply hI.done i hi
          by_cases hik : i < j
          · rw [if_pos hik] at hcond' ⊢
            have := hlow i hik
            omega
          · rw [if_neg hik] at hcond' ⊢
            have := hhigh i (by omega)
            omega
  · by_cases hlt : m < X.length
    · -- inside the insertion
      have hnone : ((List.range (blockCount R.length B)).map (sigAt charSigned st R B)).find?
          (accepts charSigned (insertAt R (k * B) X) σ) = none := by
        apply find?_accepts_none charSigned st R _ B σ (hI.rolling hit)
        rw [hwinAt, hmit]
        exact hins m hlt
      rcases hc with ⟨sg, hf, rfl⟩ | ⟨hf, he, rfl⟩
      · rw [hnone] at hf
        exact absurd hf (by simp)
      · refine ⟨hroll', Or.inr (Or.inl ⟨m + 1, by omega, by omega, ?_, ?_⟩), hI.events, ?_⟩
        · show σ.it + 1 = k * B + (m + 1)
          omega
        · exact hmlast
        · intro i hi hcond
          have hcond' : if i < k then i * B < σ.it + 1 else i * B + X.length < σ.it + 1 :=
            hcond
          apply hI.done i hi
          by_cases hik : i < k
          · rw [if_pos hik] at hcond' ⊢
            have := hlow i hik
            omega
          · rw [if_neg hik] at hcond' ⊢
            have := hhigh i (by omega)
            omega
    · -- the end of the insertion: block k
      have hmx' : m = X.length := by omega
      subst hmx'
      have hkn : k < blockCount R.length B := by
        by_contra hc'
        have : blockCount R.length B * B ≤ k * B := Nat.mul_le_mul_right B (by omega)
        omega
      have hwin := window_after R X B k hkR 0 σ k (by omega) hmit hsh
      have hacc := accepts_of_window charSigned st R _ B k σ hwin (hI.rolling hit)
      obtain ⟨sg0, hfind⟩ := find?_sigAt_isSome charSigned st R B (blockCount R.length B)
        (sameAs (sigAt charSigned st R B k)) k hkn (sameAs_self _)
      rw [← hacc] at hfind
      rcases hc with ⟨sg, hf, rfl⟩ | ⟨hf, he, rfl⟩
      · refine ⟨hroll', Or.inr (Or.inr ⟨k + 1, by omega, by omega, ?_, ?_⟩), ?_, ?_⟩
        · rw [afterMatch_it]
          omega
        · rw [afterMatch_it, afterMatch_last_it]
        · intro a ha
          rw [afterMatch_accepted] at ha
          rcases List.mem_cons.mp ha with rfl | ha
          · exact ⟨k, hkn, by rw [← hacc]; exact hf, Or.inr (Or.inl ⟨rfl, hmlast, hmit⟩)⟩
          · exact hI.events a ha
        · intro i hi hcond
          rw [afterMatch_it] at hcond
          rw [afterMatch_accepted]
          by_cases hik : i < k
          · have := hlow i hik
            obtain ⟨a, ha, hai⟩ := hI.done i hi (by rw [if_pos hik]; omega)
            exact ⟨a, List.mem_cons_of_mem _ ha, hai⟩
          · rw [if_neg hik] at hcond
            have hle : i ≤ k := by
              by_contra hc'
              have : (k + 1) * B ≤ i * B := Nat.mul_le_mul_right B (by omega)
              omega
            have : i = k := by omega
            subst this
            exact ⟨_, List.mem_cons_self _ _, by rw [if_neg hik]; exact hmit⟩
      · rw [hfind] at hf
        exact absurd hf (by simp)
  · -- a block after the insertion
    have hjR : j * B < R.length := by omega
    have hjn' : j < blockCount R.length B := by
      by_contra hc'
      have : blockCount R.length B * B ≤ j * B := Nat.mul_le_mul_right B (by omega)
      omega
    have hkj' := hhigh j (by omega)
    have hwin := window_after R X B k hkR (j * B - k * B) σ j (by omega) (by omega) hsh
    have hacc := accepts_of_window charSigned st R _ B j σ hwin (hI.rolling hit)
    obtain ⟨sg0, hfind⟩ := find?_sigAt_isSome charSigned st R B (blockCount R.length B)
      (sameAs (sigAt charSigned st R B j)) j hjn' (sameAs_self _)
    rw [← hacc] at hfind
    rcases hc with ⟨sg, hf, rfl⟩ | ⟨hf, he, rfl⟩
    · have hj1 : (j + 1) * B = j * B + B := by ring
      refine ⟨hroll', Or.inr (Or.inr ⟨j + 1, by omega, by omega, ?_, ?_⟩), ?_, ?_⟩
      · rw [afterMatch_it, hj1]
        omega
      · rw [afterMatch_it, afterMatch_last_it]
      · intro a ha
        rw [afterMatch_accepted] at ha
        rcases List.mem_cons.mp ha with rfl | ha
        · refine ⟨j, hjn', by rw [← hacc]; exact hf, Or.inr (Or.inr ⟨hkj, ?_, ?_⟩)⟩
          · show σ.last_it = j * B + X.length
            omega
          · show σ.it = j * B + X.length
            omega
        · exact hI.events a ha
      · intro i hi hcond
        rw [afterMatch_it] at hcond
        rw [afterMatch_accepted]
        by_cases hik : i < k
        · have := hlow i hik
          obtain ⟨a, ha, hai⟩ := hI.done i hi (by rw [if_pos hik]; omega)
          exact ⟨a, List.mem_cons_of_mem _ ha, hai⟩
        · rw [if_neg hik] at hcond
          by_cases hij : i < j
          · have h2 : i * B + B ≤ j * B := by
              have : (i + 1) * B ≤ j * B := Nat.mul_le_mul_right B (by omega)
              rw [Nat.add_mul, Nat.one_mul] at this
              exact this
            obtain ⟨a, ha, hai⟩ := hI.done i hi (by rw [if_neg hik]; omega)
            exact ⟨a, List.mem_cons_of_mem _ ha, hai⟩
          · have hle : i ≤ j := by
              by_contra hc'
              have : (j + 1) * B ≤ i * B := Nat.mul_le_mul_right B (by omega)
              rw [hj1] at this
              omega
            have : i = j := by omega
            subst this
            exact ⟨_, List.mem_cons_self _ _, by rw [if_neg hik]; show σ.it = i * B + X.length; omega⟩
    · rw [hfind] at hf
      exact absurd hf (by simp)

/-- In the scan of a reference with an insertion, a state before the end of
the target is followed by another pass. -/
theorem inserted_not_stuck (charSigned : Bool) (st : KarpRabinHash) (R : List Byte) (B k : Nat)
    (X : List Byte) (hB : 1 ≤ B) (hk : (k + 1) * B ≤ R.length) (hX : 0 < X.length)
    (σ : ScanState)
    (hsh : σ.end_ = min (σ.it + B) (insertAt R (k * B) X).length)
    (hI : Inserted charSigned st R B k X σ)
    (hit : σ.it ≠ (insertAt R (k * B) X).length) :
    GenerateDelta.step charSigned st (insertAt R (k * B) X) B
      (GenerateDelta.tables B
        ((List.range (blockCount R.length B)).map (sigAt charSigned st R B))).1 σ ≠ none := by
  have hlenT := length_insertAt R X (k * B)
  have hk1 : (k + 1) * B = k * B + B := by ring
  have hkR : k * B ≤ R.length := by omega
  have hcover := blockCount_cover R.length B hB
  have hlow : ∀ i, i < k → i * B + B ≤ k * B := by
    intro i hi
    have : (i + 1) * B ≤ k * B := Nat.mul_le_mul_right B (by omega)
    rw [Nat.add_mul, Nat.one_mul] at this
    exact this
  have hhigh : ∀ i, k ≤ i → k * B ≤ i * B := fun i hi => Nat.mul_le_mul_right B hi
  have hmatch : ∀ j, j < blockCount R.length B →
      σ.window (insertAt R (k * B) X) = blockBytes R B j →
      GenerateDelta.step charSigned st (insertAt R (k * B) X) B
        (GenerateDelta.tables B
          ((List.range (blockCount R.length B)).map (sigAt charSigned st R B))).1 σ
        ≠ none := by
    intro j hj hwin
    have hacc := accepts_of_window charSigned st R _ B j σ hwin (hI.rolling hit)
    obtain ⟨sg0, hfind⟩ := find?_sigAt_isSome charSigned st R B (blockCount R.length B)
      (sameAs (sigAt charSigned st R B j)) j hj (sameAs_self _)
    rw [← hacc] at hfind
    rw [step_match charSigned st _ B _ σ _ hit hfind]
    simp
  have hmove : σ.end_ ≠ (insertAt R (k * B) X).length →
      GenerateDelta.step charSigned st (insertAt R (k * B) X) B
        (GenerateDelta.tables B
          ((List.range (blockCount R.length B)).map (sigAt charSigned st R B))).1 σ
        ≠ none := by
    intro he
    cases hf : ((List.range (blockCount R.length B)).map (sigAt charSigned st R B)).find?
        (accepts charSigned (insertAt R (k * B) X) σ) with
    | some sg =>
      rw [step_match charSigned st _ B _ σ sg hit hf]
      simp
    | none =>
      rw [step_slide charSigned st _ B _ σ hit hf he]
      simp
  rcases hI.phase with ⟨j, hjk, hjit, hjlast⟩ | ⟨m, hm0, hmx, hmit, hmlast⟩ |
      ⟨j, hkj, hjn, hjit, hjlast⟩
  · apply hmove
    have := hhigh k (Nat.le_refl _)
    have : j * B ≤ k * B := Nat.mul_le_mul_right B hjk
    omega
  · by_cases hlt : m < X.length
    · apply hmove
      omega
    · have hkn : k < blockCount R.length B := by
        by_contra hc'
        have : blockCount R.length B * B ≤ k * B := Nat.mul_le_mul_right B (by omega)
        omega
      exact hmatch k hkn (window_after R X B k hkR 0 σ k (by omega) (by omega) hsh)
  · have hjR : j * B < R.length := by omega
    have hjn' : j < blockCount R.length B := by
      by_contra hc'
      have : blockCount R.length B * B ≤ j * B := Nat.mul_le_mul_right B (by omega)
      omega
    have hkj' := hhigh j (by omega)
    exact hmatch j hjn'
      (window_after R X B k hkR (j * B - k * B) σ j (by omega) (by omega) hsh)

theorem start_inserted (charSigned : Bool) (st : KarpRabinHash) (R : List Byte) (B k : Nat)
    (X : List Byte) (sigs : List BlockSignature) :
    Inserted charSigned st R B k X
      (GenerateDelta.start charSigned st (insertAt R (k * B) X) B sigs) := by
  refine ⟨start_rolling _ _ _ _ _, Or.inl ⟨0, Nat.zero_le _, ?_, rfl⟩, ?_, ?_⟩
  · simp [GenerateDelta.start]
  · intro a ha
    simp [GenerateDelta.start] at ha
  · intro i _ hcond
    have h0 : (GenerateDelta.start charSigned st (insertAt R (k * B) X) B sigs).it = 0 := rfl
    rw [h0] at hcond
    split at hcond <;> omega

/-- The plan for a reference with a string inserted at the start of a full
block `k`, when no other block has both hashes of block `k` and no window that
starts inside the insertion has both hashes of a block: the entry of block `k`
is matched and holds the inserted string, every other entry has an empty
literal and is matched exactly when no earlier block has both hashes of its
block. -/
theorem run_insertion (charSigned : Bool) (st : KarpRabinHash) (R : List Byte) (B k : Nat)
    (X : List Byte) (hB : 1 ≤ B) (hk : (k + 1) * B ≤ R.length) (hX : 0 < X.length)
    (hT : (insertAt R (k * B) X).length < U32)
    (hBtoN : st.BtoN = KarpRabinHash.B ^ B % 524288)
    (hw : ∀ c ∈ insertAt R (k * B) X,
      KarpRabinHash.weight charSigned st c = st.hashvalues (c.val : Int))
    (huniq : ∀ j, j < blockCount R.length B → j ≠ k →
      ¬ (KarpRabinHash.hash charSigned st (blockBytes R B j)
          = KarpRabinHash.hash charSigned st (blockBytes R B k) ∧
        MurmurHash3 charSigned seed (blockBytes R B j)
          = MurmurHash3 charSigned seed (blockBytes R B k)))
    (hins : ∀ m, m < X.length → ∀ i, i < blockCount R.length B →
      ¬ (KarpRabinHash.hash charSigned st (windowAt (insertAt R (k * B) X) B (k * B + m))
          = KarpRabinHash.hash charSigned st (blockBytes R B i) ∧
        MurmurHash3 charSigned seed (windowAt (insertAt R (k * B) X) B (k * B + m))
          = MurmurHash3 charSigned seed (blockBytes R B i)))
    (σ : ScanState)
    (hrun : GenerateDelta.run charSigned st (insertAt R (k * B) X) B
      ((List.range (blockCount R.length B)).map (sigAt charSigned st R B)) = some σ) :
    keys σ.deltas = List.range (blockCount R.length B) ∧
    ∀ p ∈ σ.deltas,
      (p.1 = k → p.2.missing = false ∧ p.2.data = ⟨k * B, X⟩) ∧
      (p.1 ≠ k → p.2.data.bytes = [] ∧
        (p.2.missing = false ↔
          ∀ j, j < p.1 →
            ¬ ((sigAt charSigned st R B j).weak = (sigAt charSigned st R B p.1).weak ∧
               (sigAt charSigned st R B j).strong = (sigAt charSigned st R B p.1).strong))) := by
  obtain ⟨hI, hS, hsh, hstop⟩ := run_induction charSigned st _ B _ hT
    (Inserted charSigned st R B k X) (start_inserted charSigned st R B k X _)
    (fun σ σ' hS hsh hI hstep => step_inserted charSigned st R B k X hB hk hX hBtoN hw
      hins σ σ' hS hsh hI hstep) σ hrun
  have hend : σ.it = (insertAt R (k * B) X).length := by
    by_contra hit
    exact inserted_not_stuck charSigned st R B k X hB hk hX σ hsh hI hit hstop
  have hlenT := length_insertAt R X (k * B)
  have hk1 : (k + 1) * B = k * B + B := by ring
  have hkR : k * B ≤ R.length := by omega
  have hcover := blockCount_cover R.length B hB
  have hkn : k < blockCount R.length B := by
    by_contra hc'
    have : blockCount R.length B * B ≤ k * B := Nat.mul_le_mul_right B (by omega)
    omega
  have hlow : ∀ i, i < k → i * B + B ≤ k * B := by
    intro i hi
    have : (i + 1) * B ≤ k * B := Nat.mul_le_mul_right B (by omega)
    rw [Nat.add_mul, Nat.one_mul] at this
    exact this
  have hhigh : ∀ i, k < i → k * B + B ≤ i * B := by
    intro i hi
    have : (k + 1) * B ≤ i * B := Nat.mul_le_mul_right B (by omega)
    omega
  obtain ⟨-, -, -, hP3, -, -⟩ := run_partition charSigned st _ B _ hB hT σ hrun
  have hkeys : keys σ.deltas = List.range (blockCount R.length B) := by
    rw [keys_eq_of_skeleton _ _ hS.skel, prepopulated_sigAt, keys, List.map_map]
    simp [Function.comp_def]
  -- the search for the hashes of block `k` returns the signature of block `k`
  have hfindk : ∀ sg, ((List.range (blockCount R.length B)).map
      (sigAt charSigned st R B)).find? (sameAs (sigAt charSigned st R B k)) = some sg →
      sg = sigAt charSigned st R B k := by
    intro sg hf
    obtain ⟨m, hm1, hm2, hm3, -⟩ := find?_sigAt_min charSigned st R B _ _ _ hf
    by_cases hmk : m = k
    · rw [hm2, hmk]
    · rw [sameAs_iff] at hm3
      exact absurd ⟨hm3.1.symm, hm3.2⟩ (huniq m hm1 hmk)
  -- the search for the hashes of another block returns another signature
  have hfindo : ∀ i, i < blockCount R.length B → i ≠ k → ∀ sg,
      ((List.range (blockCount R.length B)).map
        (sigAt charSigned st R B)).find? (sameAs (sigAt charSigned st R B i)) = some sg →
      sg.idx ≠ k := by
    intro i hi hik sg hf
    obtain ⟨m, hm1, hm2, hm3, -⟩ := find?_sigAt_min charSigned st R B _ _ _ hf
    intro hidx
    have hmk : m = k := by
      rw [hm2] at hidx
      exact hidx
    rw [hmk, sameAs_iff] at hm3
    exact huniq i hi hik ⟨hm3.1, hm3.2.symm⟩
  -- an accepted window of index `k` is the window of block `k`, after the insertion
  have hevk : ∀ a ∈ σ.accepted, a.sig.idx = k →
      a.last_it = k * B ∧ a.it = k * B + X.length := by
    intro a ha hak
    obtain ⟨i, hi, hfind, hcase⟩ := hI.events a ha
    have hik : i = k := by
      by_contra hne
      exact hfindo i hi hne a.sig hfind hak
    rcases hcase with ⟨h, -⟩ | ⟨-, h1, h2⟩ | ⟨h, -⟩
    · omega
    · exact ⟨h1, h2⟩
    · omega
  -- an accepted window of another index has an empty literal
  have hevo : ∀ a ∈ σ.accepted, a.sig.idx ≠ k → a.last_it = a.it := by
    intro a ha hak
    obtain ⟨i, hi, hfind, hcase⟩ := hI.events a ha
    rcases hcase with ⟨-, h1, h2⟩ | ⟨h, -⟩ | ⟨-, h1, h2⟩
    · rw [h1, h2]
    · rw [h] at hfind
      have := hfindk a.sig hfind
      rw [this] at hak
      exact absurd rfl hak
    · rw [h1, h2]
  -- every block was accepted, for the first signature with its hashes
  have hall : ∀ i, i < blockCount R.length B → ∃ a ∈ σ.accepted,
      ((List.range (blockCount R.length B)).map
        (sigAt charSigned st R B)).find? (sameAs (sigAt charSigned st R B i)) = some a.sig := by
    intro i hi
    have hlt := blockCount_tight R.length B hB i hi
    obtain ⟨a, ha, hai⟩ := hI.done i hi (by split <;> omega)
    refine ⟨a, ha, ?_⟩
    obtain ⟨i', hi', hfind, hcase⟩ := hI.events a ha
    have hii : i' = i := by
      by_cases hik : i < k
      · rw [if_pos hik] at hai
        have := hlow i hik
        rcases hcase with ⟨-, -, h2⟩ | ⟨h, -, h2⟩ | ⟨h, -, h2⟩
        · rw [hai] at h2
          exact (Nat.eq_of_mul_eq_mul_right (by omega) h2).symm
        · omega
        · have := hhigh i' h
          omega
      · rw [if_neg hik] at hai
        rcases hcase with ⟨h, -, h2⟩ | ⟨h, -, h2⟩ | ⟨h, -, h2⟩
        · have := hlow i' h
          have : k * B ≤ i * B := Nat.mul_le_mul_right B (by omega)
          omega
        · rw [hai] at h2
          have h3 : i * B = k * B := by omega
          rw [h, Nat.eq_of_mul_eq_mul_right (by omega) h3]
        · rw [hai] at h2
          have h3 : i * B = i' * B := by omega
          exact (Nat.eq_of_mul_eq_mul_right (by omega) h3).symm
    rw [← hii]
    exact hfind
  refine ⟨hkeys, ?_⟩
  intro p hp
  have hpn : p.1 < blockCount R.length B := by
    have : p.1 ∈ keys σ.deltas := List.mem_map.mpr ⟨p, hp, rfl⟩
    rw [hkeys] at this
    exact List.mem_range.mp this
  refine ⟨?_, ?_⟩
  · intro hpk
    obtain ⟨a₀, ha₀, hf₀⟩ := hall k hkn
    have hidx₀ : a₀.sig.idx = p.1 := by
      rw [hfindk a₀.sig hf₀, hpk]
      rfl
    rcases hP3 p hp with ⟨-, -, h⟩ | ⟨hm, a, ha, hak, hd, -⟩
    · exact absurd hidx₀ (h a₀ ha₀)
    obtain ⟨h1, h2⟩ := hevk a ha (hak.trans hpk)
    refine ⟨hm, ?_⟩
    rw [hd, h1, h2, to_string_view, Nat.add_sub_cancel_left,
      take_drop_insertAt_inside R X (k * B) hkR]
  · intro hpk
    refine ⟨?_, ?_, ?_⟩
    · rcases hP3 p hp with ⟨-, h, -⟩ | ⟨-, a, ha, hak, hd, -⟩
      · exact h
      · rw [hd, hevo a ha (by rw [hak]; exact hpk)]
        simp [to_string_view]
    · intro hm j hj
      rcases hP3 p hp with ⟨h, -⟩ | ⟨-, a, ha, hak, -, -⟩
      · rw [hm] at h
        exact absurd h (by simp)
      obtain ⟨i, hi, hfind, -⟩ := hI.events a ha
      obtain ⟨m, hm1, hm2, hm3, hm4⟩ := find?_sigAt_min charSigned st R B _ _ _ hfind
      have hmk : m = p.1 := by
        rw [hm2] at hak
        exact hak
      subst hmk
      have hjf := hm4 j hj
      rw [sameAs_iff] at hm3
      intro hsame
      have : sameAs (sigAt charSigned st R B i) (sigAt charSigned st R B j) = true := by
        rw [sameAs_iff]
        exact ⟨hm3.1.trans hsame.1.symm, hsame.2.trans hm3.2⟩
      rw [this] at hjf
      exact absurd hjf (by simp)
    · intro hfirst
      obtain ⟨a₀, ha₀, hf₀⟩ := hall p.1 hpn
      obtain ⟨m, hm1, hm2, hm3, hm4⟩ := find?_sigAt_min charSigned st R B _ _ _ hf₀
      have hmi : m = p.1 := by
        by_contra hne
        rcases Nat.lt_or_gt_of_ne hne with h | h
        · rw [sameAs_iff] at hm3
          exact hfirst m h ⟨hm3.1.symm, hm3.2⟩
        · have := hm4 p.1 h
          rw [sameAs_self] at this
          exact absurd this (by simp)
      rcases hP3 p hp with ⟨-, -, h⟩ | ⟨hm, -⟩
      · exfalso
        apply h a₀ ha₀
        rw [hm2, hmi]
        rfl
      · exact hm

theorem skeleton_entry (charSigned : Bool) (st : KarpRabinHash) (R T : List Byte) (B : Nat)
    (σ : ScanState)
    (hS : Sound charSigned T B
      ((List.range (blockCount R.length B)).map (sigAt charSigned st R B)) σ)
    (p : Nat × Delta) (hp : p ∈ σ.deltas) :
    p.2.idx = p.1 ∧ p.2.start = (p.1 * B) % U32 ∧ p.2.end_ = ((p.1 * B) % U32 + B) % U32 := by
  have hsk := hS.skel
  rw [prepopulated_sigAt] at hsk
  have hmem : (p.1, p.2.idx, p.2.start, p.2.end_) ∈ skeleton σ.deltas :=
    List.mem_map.mpr ⟨p, hp, rfl⟩
  rw [hsk, skeleton, List.map_map] at hmem
  obtain ⟨i, -, he⟩ := List.mem_map.mp hmem
  simp only [Function.comp, freshDelta, Prod.mk.injEq] at he
  obtain ⟨e1, e2, e3, e4⟩ := he
  subst e1
  exact ⟨e2.symm, e3.symm, e4.symm⟩

/-- C9 (amended): for every reference `R`, block size `B ≥ 1`, index `k` of a
full block of `R` (`(k + 1) * B ≤ len R`) and non-empty string `X`, with
`len R + len X < 2 ^ 32` and `char` unsigned or all bytes of the target below
`0x80`: if no other block of `R` has both the weak and the strong hash of
block `k`, and no window of the target that starts inside the insertion, at
`k * B ≤ p < k * B + len X`, has both hashes of a block of `R`, then in the
plan for the target `R[0, k * B) ++ X ++ R[k * B, len R)` exactly one entry has
a non-empty literal, entry `k`, which is matched and has the literal `X`, at
offset `k * B` of the target; every other entry has the `idx`, `start`, `end`,
`missing` and literal bytes that it has in the plan for the target `R`; and
entry `k` of the plan for the target `R` is matched with an empty literal. -/
theorem GenerateDelta_insertion (charSigned : Bool) (rand : Nat → Nat) (outside : Int → Nat)
    (R : List Byte) (B k : Nat) (X : List Byte)
    (hB : 1 ≤ B) (hk : (k + 1) * B ≤ R.length) (hX : X ≠ [])
    (hlen : R.length + X.length < 4294967296)
    (hbytes : charSigned = false ∨ ∀ c ∈ insertAt R (k * B) X, c.val < 128)
    (huniq : ∀ j, j < blockCount R.length B → j ≠ k →
      ¬ (KarpRabinHash.hash charSigned (KarpRabinHash.init rand outside B) (blockBytes R B j)
          = KarpRabinHash.hash charSigned (KarpRabinHash.init rand outside B)
              (blockBytes R B k) ∧
        MurmurHash3 charSigned 0x1234 (blockBytes R B j)
          = MurmurHash3 charSigned 0x1234 (blockBytes R B k)))
    (hins : ∀ m, m < X.length → ∀ i, i < blockCount R.length B →
      ¬ (KarpRabinHash.hash charSigned (KarpRabinHash.init rand outside B)
            (windowAt (insertAt R (k * B) X) B (k * B + m))
          = KarpRabinHash.hash charSigned (KarpRabinHash.init rand outside B)
              (blockBytes R B i) ∧
        MurmurHash3 charSigned 0x1234 (windowAt (insertAt R (k * B) X) B (k * B + m))
          = MurmurHash3 charSigned 0x1234 (blockBytes R B i))) :
    ∃ sigs plan planR,
      GenerateSignatures charSigned (KarpRabinHash.init rand outside B) R B = some sigs ∧
      GenerateDelta charSigned (KarpRabinHash.init rand outside B) (insertAt R (k * B) X) B sigs
        = some plan ∧
      GenerateDelta charSigned (KarpRabinHash.init rand outside B) R B sigs = some planR ∧
      keys plan = List.range sigs.length ∧ keys planR = List.range sigs.length ∧
      k < sigs.length ∧
      (∀ p ∈ plan, (p.1 = k → p.2.missing = false ∧ p.2.data = ⟨k * B, X⟩) ∧
        (p.1 ≠ k → p.2.data.bytes = [])) ∧
      (∀ p ∈ plan, ∀ q ∈ planR, p.1 = q.1 → p.1 ≠ k →
        p.2.idx = q.2.idx ∧ p.2.start = q.2.start ∧ p.2.end_ = q.2.end_ ∧
        p.2.missing = q.2.missing ∧ p.2.data.bytes = q.2.data.bytes) ∧
      (∀ q ∈ planR, q.1 = k → q.2.missing = false ∧ q.2.data.bytes = []) := by
  have hlenT := length_insertAt R X (k * B)
  have hT : (insertAt R (k * B) X).length < U32 := by
    rw [hlenT]
    exact hlen
  have hR : R.length < U32 := by
    unfold U32
    omega
  have hXpos : 0 < X.length := List.length_pos.mpr hX
  have hw : ∀ c ∈ insertAt R (k * B) X,
      KarpRabinHash.weight charSigned (KarpRabinHash.init rand outside B) c
        = (KarpRabinHash.init rand outside B).hashvalues (c.val : Int) := by
    intro c hc
    rcases hbytes with h | h
    · subst h
      exact weight_of_unsigned _ c
    · exact weight_of_ascii _ _ c (h c hc)
  have hkn : k < blockCount R.length B := by
    have hcover := blockCount_cover R.length B hB
    have hk1 : (k + 1) * B = k * B + B := by ring
    by_contra hc'
    have : blockCount R.length B * B ≤ k * B := Nat.mul_le_mul_right B (by omega)
    omega
  have hsig := GenerateSignatures_eq charSigned (KarpRabinHash.init rand outside B) R B hB hR
  obtain ⟨σ, hrun⟩ := run_exits charSigned (KarpRabinHash.init rand outside B)
    (insertAt R (k * B) X) B
    ((List.range (blockCount R.length B)).map
      (sigAt charSigned (KarpRabinHash.init rand outside B) R B)) hB hT
  obtain ⟨ρ, hrunR⟩ := run_exits charSigned (KarpRabinHash.init rand outside B) R B
    ((List.range (blockCount R.length B)).map
      (sigAt charSigned (KarpRabinHash.init rand outside B) R B)) hB hR
  obtain ⟨hkeys, hall⟩ := run_insertion charSigned (KarpRabinHash.init rand outside B) R B k X
    hB hk hXpos hT (KarpRabinHash.init_BtoN _ _ _) hw huniq hins σ hrun
  obtain ⟨hkeysR, hallR⟩ := run_identity charSigned (KarpRabinHash.init rand outside B) R B
    hB hR ρ hrunR
  have hS := (run_sound _ _ _ _ _ σ hrun).1
  have hSR := (run_sound _ _ _ _ _ ρ hrunR).1
  refine ⟨_, σ.deltas, ρ.deltas, hsig, (GenerateDelta_eq_some _ _ _ _ _ _).mpr ⟨σ, hrun, rfl⟩,
    (GenerateDelta_eq_some _ _ _ _ _ _).mpr ⟨ρ, hrunR, rfl⟩, by simpa using hkeys,
    by simpa using hkeysR, by simpa using hkn, ?_, ?_, ?_⟩
  · intro p hp
    exact ⟨(hall p hp).1, fun hpk => ((hall p hp).2 hpk).1⟩
  · intro p hp q hq hpq hpk
    obtain ⟨e1, e2, e3⟩ := skeleton_entry _ _ R _ B σ hS p hp
    obtain ⟨f1, f2, f3⟩ := skeleton_entry _ _ R _ B ρ hSR q hq
    obtain ⟨hb, hm⟩ := (hall p hp).2 hpk
    obtain ⟨-, hqb, hqm⟩ := hallR q hq
    rw [← hpq] at hqm
    have hiff : p.2.missing = false ↔ q.2.missing = false := hm.trans hqm.symm
    refine ⟨?_, ?_, ?_, ?_, ?_⟩
    · rw [e1, f1, hpq]
    · rw [e2, f2, hpq]
    · rw [e3, f3, hpq]
    · cases hpm : p.2.missing <;> cases hqm' : q.2.missing
      · rfl
      · rw [hiff.mp hpm] at hqm'
        exact absurd hqm' (by simp)
      · rw [hiff.mpr hqm'] at hpm
        exact absurd hpm (by simp)
      · rfl
    · rw [hb, hqb]
  · intro q hq hqk
    obtain ⟨hqn, hqb, hqm⟩ := hallR q hq
    refine ⟨hqm.mpr ?_, hqb⟩
    intro j hj
    rw [hqk]
    rw [hqk] at hj hqn
    exact huniq j (by omega) (by omega)

set_option maxRecDepth 100000 in
theorem docB2_eq : insertAt docA2 (3 * 16) (bytesOf " ..... new addition") = docB2 := by
  decide

set_option maxRecDepth 100000 in
theorem docB2_ascii :
    ∀ c ∈ insertAt docA2 (3 * 16) (bytesOf " ..... new addition"), c.val < 128 := by
  decide

set_option maxRecDepth 100000 in
theorem docA2_block3_unique : ∀ j, j < blockCount docA2.length 16 → j ≠ 3 →
    ¬ (KarpRabinHash.hash true (KarpRabinHash.init (fun i => 7919 * i + 13) (fun _ => 0) 16)
          (blockBytes docA2 16 j)
        = KarpRabinHash.hash true (KarpRabinHash.init (fun i => 7919 * i + 13) (fun _ => 0) 16)
          (blockBytes docA2 16 3) ∧
      MurmurHash3 true 0x1234 (blockBytes docA2 16 j)
        = MurmurHash3 true 0x1234 (blockBytes docA2 16 3)) := by
  decide

set_option maxRecDepth 100000 in
theorem docB2_insertion_unmatched :
    ∀ m, m < (bytesOf " ..... new addition").length → ∀ i, i < blockCount docA2.length 16 →
    ¬ (KarpRabinHash.hash true (KarpRabinHash.init (fun i => 7919 * i + 13) (fun _ => 0) 16)
          (windowAt (insertAt docA2 (3 * 16) (bytesOf " ..... new addition")) 16 (3 * 16 + m))
        = KarpRabinHash.hash true (KarpRabinHash.init (fun i => 7919 * i + 13) (fun _ => 0) 16)
          (blockBytes docA2 16 i) ∧
      MurmurHash3 true 0x1234
          (windowAt (insertAt docA2 (3 * 16) (bytesOf " ..... new addition")) 16 (3 * 16 + m))
        = MurmurHash3 true 0x1234 (blockBytes docA2 16 i)) := by
  decide

/-- Witness of `GenerateDelta_insertion`: the second scenario of `main`, block
size 16 and the string " ..... new addition" inserted at offset 48, the start
of block 3, which gives the target of that scenario. -/
theorem GenerateDelta_insertion_witness :
    insertAt docA2 (3 * 16) (bytesOf " ..... new addition") = docB2 ∧
    ∃ sigs plan planR,
      GenerateSignatures true (KarpRabinHash.init (fun i => 7919 * i + 13) (fun _ => 0) 16)
        docA2 16 = some sigs ∧
      GenerateDelta true (KarpRabinHash.init (fun i => 7919 * i + 13) (fun _ => 0) 16)
        (insertAt docA2 (3 * 16) (bytesOf " ..... new addition")) 16 sigs = some plan ∧
      GenerateDelta true (KarpRabinHash.init (fun i => 7919 * i + 13) (fun _ => 0) 16)
        docA2 16 sigs = some planR ∧
      keys plan = List.range sigs.length ∧ keys planR = List.range sigs.length ∧
      3 < sigs.length ∧
      (∀ p ∈ plan,
        (p.1 = 3 → p.2.missing = false ∧
          p.2.data = ⟨3 * 16, bytesOf " ..... new addition"⟩) ∧
        (p.1 ≠ 3 → p.2.data.bytes = [])) ∧
      (∀ p ∈ plan, ∀ q ∈ planR, p.1 = q.1 → p.1 ≠ 3 →
        p.2.idx = q.2.idx ∧ p.2.start = q.2.start ∧ p.2.end_ = q.2.end_ ∧
        p.2.missing = q.2.missing ∧ p.2.data.bytes = q.2.data.bytes) ∧
      (∀ q ∈ planR, q.1 = 3 → q.2.missing = false ∧ q.2.data.bytes = []) :=
  ⟨docB2_eq,
   GenerateDelta_insertion true (fun i => 7919 * i + 13) (fun _ => 0) docA2 16 3
    (bytesOf " ..... new addition") (by decide) (by decide) (by decide) (by decide)
    (Or.inr docB2_ascii) docA2_block3_unique docB2_insertion_unmatched⟩

/-- C9, counterexamples. First: reference `7`, block size 1, `k = 0` and
`X = 7`; both windows of the target `7 7` are accepted for block 0, and entry
0 ends with an empty literal, not with `X`. Second: reference `1 2 3 4 5`,
block size 4, `k = 1` (the final block, of one byte) and `X = 9 9 9`; after
block 0 the window `9 9 9 5` reaches the end of the target without a match,
the scan stops, and entry 1 stays missing. Third: reference `7 7`, block size
1, `k = 1` and `X = 9`; the window of block 1 in the target `7 9 7` is
accepted for block 0, which has the same hashes, so entry 0 gets the literal
`X` and entry 1 stays missing. Fourth: reference `7 7`, block size 1, `k = 0`
and `X = 9`; in the target `9 7 7` the window of block 0 is accepted with the
literal `X`, then the window of block 1 is accepted for block 0 again, and
entry 0 ends with an empty literal. -/
theorem GenerateDelta_insertion_fails :
    (GenerateSignatures true (KarpRabinHash.init (fun i => i) (fun _ => 0) 1) [7] 1).bind
      (fun sigs => GenerateDelta true (KarpRabinHash.init (fun i => i) (fun _ => 0) 1)
        (insertAt [7] (0 * 1) [7]) 1 sigs)
      = some [(0, ⟨0, 0, 1, false, ⟨1, []⟩⟩)] ∧
    (GenerateSignatures true (KarpRabinHash.init (fun i => i) (fun _ => 0) 4)
        [1, 2, 3, 4, 5] 4).bind
      (fun sigs => GenerateDelta true (KarpRabinHash.init (fun i => i) (fun _ => 0) 4)
        (insertAt [1, 2, 3, 4, 5] (1 * 4) [9, 9, 9]) 4 sigs)
      = some [(0, ⟨0, 0, 4, false, ⟨0, []⟩⟩), (1, ⟨1, 4, 8, true, ⟨0, []⟩⟩)] ∧
    (GenerateSignatures true (KarpRabinHash.init (fun i => i) (fun _ => 0) 1) [7, 7] 1).bind
      (fun sigs => GenerateDelta true (KarpRabinHash.init (fun i => i) (fun _ => 0) 1)
        (insertAt [7, 7] (1 * 1) [9]) 1 sigs)
      = some [(0, ⟨0, 0, 1, false, ⟨1, [9]⟩⟩), (1, ⟨1, 1, 2, true, ⟨0, []⟩⟩)] ∧
    (GenerateSignatures true (KarpRabinHash.init (fun i => i) (fun _ => 0) 1) [7, 7] 1).bind
      (fun sigs => GenerateDelta true (KarpRabinHash.init (fun i => i) (fun _ => 0) 1)
        (insertAt [7, 7] (0 * 1) [9]) 1 sigs)
      = some [(0, ⟨0, 0, 1, false, ⟨2, []⟩⟩), (1, ⟨1, 1, 2, true, ⟨0, []⟩⟩)] := by
  decide
/-! ## Accepted windows pass both checks -/

/-- Every window accepted by the scan had, as running hash, its hash from
scratch, when the block size is at least 1, the target shorter than `2 ^ 32`
bytes, `BtoN` initialised for the block size and `hash` reads for every byte
of the target the table entry that `update` reads. -/
theorem run_accepted_rolling (charSigned : Bool) (st : KarpRabinHash) (T : List Byte) (B : Nat)
    (sigs : List BlockSignature) (hB : 1 ≤ B) (hT : T.length < U32)
    (hBtoN : st.BtoN = KarpRabinHash.B ^ B % 524288)
    (hw : ∀ c ∈ T, KarpRabinHash.weight charSigned st c = st.hashvalues (c.val : Int))
    (σ : ScanState) (hrun : GenerateDelta.run charSigned st T B sigs = some σ) :
    ∀ a ∈ σ.accepted,
      a.hashvalue = KarpRabinHash.hash charSigned st (to_string_view T a.it a.end_).bytes := by
  refine (run_induction charSigned st T B sigs hT
    (fun σ => Rolling charSigned st T σ ∧ ∀ a ∈ σ.accepted,
      a.hashvalue = KarpRabinHash.hash charSigned st (to_string_view T a.it a.end_).bytes)
    ⟨start_rolling _ _ _ _ _, ?_⟩ ?_ σ hrun).1.2
  · intro a ha
    simp [GenerateDelta.start] at ha
  · intro σ σ' hS hsh hP hstep
    refine ⟨step_rolling charSigned st T B sigs hB hBtoN hw σ σ' hS hsh hP.1 hstep, ?_⟩
    obtain ⟨hit, hc⟩ := step_cases charSigned st T B sigs σ σ' hstep
    rcases hc with ⟨sg, hf, rfl⟩ | ⟨hf, he, rfl⟩
    · intro a ha
      rw [afterMatch_accepted] at ha
      rcases List.mem_cons.mp ha with rfl | ha
      · exact hP.1 hit
      · exact hP.2 a ha
    · exact hP.2

/-- Every entry of the plan that ends matched was set for a window of the
target whose strong hash is that of a signature with the index of the entry,
and whose running weak hash is the weak hash of that signature; under the
conditions of `run_accepted_rolling` the running hash is the hash of the
window from scratch. -/
theorem run_matches_confirmed (charSigned : Bool) (st : KarpRabinHash) (T : List Byte)
    (B : Nat) (sigs : List BlockSignature) (hB : 1 ≤ B) (hT : T.length < U32)
    (σ : ScanState) (hrun : GenerateDelta.run charSigned st T B sigs = some σ)
    (p : Nat × Delta) (hp : p ∈ σ.deltas) (hm : p.2.missing = false) :
    ∃ a ∈ σ.accepted, a.sig ∈ sigs ∧ a.sig.idx = p.1 ∧
      a.sig.strong = MurmurHash3 charSigned seed (to_string_view T a.it a.end_).bytes ∧
      a.sig.weak = a.hashvalue ∧
      p.2.data = to_string_view T a.last_it a.it ∧
      ((st.BtoN = KarpRabinHash.B ^ B % 524288 ∧
        ∀ c ∈ T, KarpRabinHash.weight charSigned st c = st.hashvalues (c.val : Int)) →
        a.sig.weak
          = KarpRabinHash.hash charSigned st (to_string_view T a.it a.end_).bytes) := by
  have hS := (run_sound charSigned st T B sigs σ hrun).1
  obtain ⟨-, -, -, hP3, -, -⟩ := run_partition charSigned st T B sigs hB hT σ hrun
  rcases hP3 p hp with ⟨h, -⟩ | ⟨-, a, ha, hak, hd, -⟩
  · rw [hm] at h
    exact absurd h (by simp)
  obtain ⟨e1, e2, e3, -⟩ := hS.events a ha
  refine ⟨a, ha, e1, hak, e3, e2.symm, hd, ?_⟩
  rintro ⟨hBtoN, hw⟩
  rw [← e2]
  exact run_accepted_rolling charSigned st T B sigs hB hT hBtoN hw σ hrun a ha

/-- C6, failing input: `char` signed, block size 8, the reference
`1 0 0 0 3 0 5 6`, the target `2 2 6 0 0 0 117 52 142 126`, the weight 1 for
the bytes 5 and 142 and 0 for every other byte, and zero in the storage around
the table. The reference and the window `[2, 10)` of the target have the same
strong hash. The weak hash of the reference is 37. The byte 142 enters the
window by `update`, which reads `hashvalues[142] = 1`, so the running hash at
the window `[2, 10)` is 37 and the window is accepted for block 0, while
`hash` of that window from scratch, which reads `hashvalues[-114]` for the
byte 142, is 0. Each accepted window is listed as `idx` of its signature,
`it`, `end`, the weak and strong hash of the signature, and the weak and
strong hash of the window from scratch. -/
theorem GenerateDelta_accepts_other_weak :
    (GenerateSignatures true
        (KarpRabinHash.init (fun i => if i = 5 ∨ i = 142 then 1 else 0) (fun _ => 0) 8)
        [1, 0, 0, 0, 3, 0, 5, 6] 8).bind
      (fun sigs => (GenerateDelta.run true
        (KarpRabinHash.init (fun i => if i = 5 ∨ i = 142 then 1 else 0) (fun _ => 0) 8)
        [2, 2, 6, 0, 0, 0, 117, 52, 142, 126] 8 sigs).map
          (fun σ => (σ.deltas, σ.accepted.map (fun a =>
            [a.sig.idx, a.it, a.end_, a.sig.weak, a.sig.strong,
              KarpRabinHash.hash true
                (KarpRabinHash.init (fun i => if i = 5 ∨ i = 142 then 1 else 0) (fun _ => 0) 8)
                (to_string_view [2, 2, 6, 0, 0, 0, 117, 52, 142, 126] a.it a.end_).bytes,
              MurmurHash3 true 0x1234
                (to_string_view [2, 2, 6, 0, 0, 0, 117, 52, 142, 126] a.it a.end_).bytes]))))
      = some ([(0, ⟨0, 0, 8, false, ⟨0, [2, 2]⟩⟩)],
          [[0, 2, 10, 37, 527749662, 0, 527749662]]) := by
  decide

/-! ## The scan exits -/

theorem stateAt_succ (charSigned : Bool) (st : KarpRabinHash) (s : List Byte) (B : Nat)
    (sigs : List BlockSignature) (k : Nat) (σ : ScanState)
    (h : GenerateDelta.stateAt charSigned st s B sigs k = some σ) :
    GenerateDelta.stateAt charSigned st s B sigs (k + 1)
      = GenerateDelta.step charSigned st s B (GenerateDelta.tables B sigs).1 σ := by
  rw [GenerateDelta.stateAt, h]
  rfl

/-- What holds on entry to the scan and is kept by every pass holds at the top
of every pass. -/
theorem stateAt_induction (charSigned : Bool) (st : KarpRabinHash) (s : List Byte) (B : Nat)
    (sigs : List BlockSignature) (P : ScanState → Prop)
    (h0 : P (GenerateDelta.start charSigned st s B sigs))
    (hstep : ∀ σ σ', P σ →
      GenerateDelta.step charSigned st s B (GenerateDelta.tables B sigs).1 σ = some σ' → P σ') :
    ∀ (k : Nat) (σ : ScanState),
      GenerateDelta.stateAt charSigned st s B sigs k = some σ → P σ := by
  intro k
  induction k with
  | zero =>
    intro σ h
    have : GenerateDelta.start charSigned st s B sigs = σ := Option.some.inj h
    rw [← this]
    exact h0
  | succ k ih =>
    intro σ h
    rw [GenerateDelta.stateAt] at h
    cases hk : GenerateDelta.stateAt charSigned st s B sigs k with
    | none =>
      rw [hk] at h
      exact absurd h (by simp)
    | some τ =>
      rw [hk] at h
      exact hstep τ σ (ih τ hk) h

theorem stateAt_sound (charSigned : Bool) (st : KarpRabinHash) (s : List Byte) (B : Nat)
    (sigs : List BlockSignature) (k : Nat) (σ : ScanState)
    (h : GenerateDelta.stateAt charSigned st s B sigs k = some σ) :
    Sound charSigned s B sigs σ :=
  stateAt_induction charSigned st s B sigs (Sound charSigned s B sigs)
    (start_sound charSigned st s B sigs)
    (fun σ σ' hS hs => step_sound charSigned st s B sigs σ σ' hS hs) k σ h

theorem stateAt_shape (charSigned : Bool) (st : KarpRabinHash) (s : List Byte) (B : Nat)
    (sigs : List BlockSignature) (hs : s.length < U32) (k : Nat) (σ : ScanState)
    (h : GenerateDelta.stateAt charSigned st s B sigs k = some σ) :
    Sound charSigned s B sigs σ ∧ σ.end_ = min (σ.it + B) s.length :=
  stateAt_induction charSigned st s B sigs
    (fun σ => Sound charSigned s B sigs σ ∧ σ.end_ = min (σ.it + B) s.length)
    ⟨start_sound charSigned st s B sigs, start_shape charSigned st s B sigs hs⟩
    (fun σ σ' hP hstp => ⟨step_sound charSigned st s B sigs σ σ' hP.1 hstp,
      step_shape charSigned st s B sigs hs σ σ' hP.1 hP.2 hstp⟩) k σ h

/-- With a block size of at least 1 and a target shorter than `2 ^ 32` bytes,
the window start at the top of pass `k` is at least `k`. -/
theorem stateAt_it_ge (charSigned : Bool) (st : KarpRabinHash) (s : List Byte) (B : Nat)
    (sigs : List BlockSignature) (hB : 1 ≤ B) (hs : s.length < U32) :
    ∀ (k : Nat) (σ : ScanState),
      GenerateDelta.stateAt charSigned st s B sigs k = some σ → k ≤ σ.it := by
  intro k
  induction k with
  | zero =>
    intro σ _
    exact Nat.zero_le _
  | succ k ih =>
    intro σ h
    rw [GenerateDelta.stateAt] at h
    cases hk : GenerateDelta.stateAt charSigned st s B sigs k with
    | none =>
      rw [hk] at h
      exact absurd h (by simp)
    | some τ =>
      rw [hk] at h
      obtain ⟨hS, hsh⟩ := stateAt_shape charSigned st s B sigs hs k τ hk
      have hp := step_progress charSigned st s B sigs hB τ σ hS hsh h
      have := ih τ hk
      omega

/-- A scan that exits with fuel `fuel` does so at the top of a pass `k < fuel`. -/
theorem loop_stateAt (charSigned : Bool) (st : KarpRabinHash) (s : List Byte) (B : Nat)
    (sigs : List BlockSignature) :
    ∀ (fuel j : Nat) (σ r : ScanState),
      GenerateDelta.stateAt charSigned st s B sigs j = some σ →
      GenerateDelta.loop charSigned st s B (GenerateDelta.tables B sigs).1 fuel σ = some r →
      ∃ k, GenerateDelta.stateAt charSigned st s B sigs (j + k) = some r ∧
        GenerateDelta.step charSigned st s B (GenerateDelta.tables B sigs).1 r = none := by
  intro fuel
  induction fuel with
  | zero =>
    intro j σ r _ h
    simp [GenerateDelta.loop] at h
  | succ fuel ih =>
    intro j σ r hj h
    unfold GenerateDelta.loop at h
    cases hs : GenerateDelta.step charSigned st s B (GenerateDelta.tables B sigs).1 σ with
    | none =>
      rw [hs] at h
      have : σ = r := Option.some.inj h
      subst this
      exact ⟨0, hj, hs⟩
    | some σ' =>
      rw [hs] at h
      have hj' : GenerateDelta.stateAt charSigned st s B sigs (j + 1) = some σ' := by
        rw [stateAt_succ charSigned st s B sigs j σ hj, hs]
      obtain ⟨k, hk1, hk2⟩ := ih (j + 1) σ' r hj' h
      refine ⟨k + 1, ?_, hk2⟩
      have e : j + (k + 1) = j + 1 + k := by omega
      rw [e]
      exact hk1

/-- C11 (amended): for every block size of at least 1, every target shorter
than `2 ^ 32` bytes and every signature table, each pass of the loop of
`GenerateDelta` either leaves the loop, or accepts a signature for a non-empty
window and moves the window start by the length of that window, or slides and
moves the window start by 1; and the loop exits: there is a pass `k` at whose
top the loop is left, by its condition (`it` at the end of the target, the
body not run) or by `break` (the body run once more), `GenerateDelta` returns
the map of that state, and the number of runs of the loop body, `k` or
`k + 1`, is at most the length of the target. -/
theorem GenerateDelta_terminates (charSigned : Bool) (st : KarpRabinHash) (T : List Byte)
    (B : Nat) (sigs : List BlockSignature) (hB : 1 ≤ B) (hT : T.length < 4294967296) :
    (∀ k σ, GenerateDelta.stateAt charSigned st T B sigs k = some σ →
      GenerateDelta.step charSigned st T B (GenerateDelta.tables B sigs).1 σ = none ∨
      (∃ sg, GenerateDelta.step charSigned st T B (GenerateDelta.tables B sigs).1 σ
          = some (afterMatch charSigned st T B σ sg) ∧ σ.it < σ.end_ ∧
        (afterMatch charSigned st T B σ sg).it = σ.it + (σ.end_ - σ.it)) ∨
      (GenerateDelta.step charSigned st T B (GenerateDelta.tables B sigs).1 σ
          = some (afterSlide st T σ) ∧ (afterSlide st T σ).it = σ.it + 1)) ∧
    ∃ k r, GenerateDelta.stateAt charSigned st T B sigs k = some r ∧
      GenerateDelta.step charSigned st T B (GenerateDelta.tables B sigs).1 r = none ∧
      GenerateDelta.run charSigned st T B sigs = some r ∧
      GenerateDelta charSigned st T B sigs = some r.deltas ∧
      k + (if r.it = T.length then 0 else 1) ≤ T.length := by
  constructor
  · intro k σ hk
    obtain ⟨hS, hsh⟩ := stateAt_shape charSigned st T B sigs hT k σ hk
    have h2 := hS.it_le
    have h3 := hS.end_le
    cases hs : GenerateDelta.step charSigned st T B (GenerateDelta.tables B sigs).1 σ with
    | none => exact Or.inl rfl
    | some σ' =>
      right
      obtain ⟨hit, hc⟩ := step_cases charSigned st T B sigs σ σ' hs
      rcases hc with ⟨sg, -, rfl⟩ | ⟨-, -, rfl⟩
      · left
        refine ⟨sg, rfl, by omega, ?_⟩
        rw [afterMatch_it]
        omega
      · right
        exact ⟨rfl, rfl⟩
  · obtain ⟨r, hr⟩ := run_exits charSigned st T B sigs hB hT
    obtain ⟨k, hk, hstop⟩ := loop_stateAt charSigned st T B sigs _ 0 _ r rfl hr
    rw [Nat.zero_add] at hk
    refine ⟨k, r, hk, hstop, hr, (GenerateDelta_eq_some _ _ _ _ _ _).mpr ⟨r, hr, rfl⟩, ?_⟩
    have hge := stateAt_it_ge charSigned st T B sigs hB hT k r hk
    have hS := stateAt_sound charSigned st T B sigs k r hk
    have h2 := hS.it_le
    have h3 := hS.end_le
    split <;> omega

/-- Witness of `GenerateDelta_terminates`: block size 2, the target
`1 2 9 5 6` and the signatures of the reference `1 2 3 4 5 6`. -/
theorem GenerateDelta_terminates_witness :
    ∃ k r, GenerateDelta.stateAt true (KarpRabinHash.init (fun i => i) (fun _ => 0) 2)
        [1, 2, 9, 5, 6] 2
        ((List.range 3).map
          (sigAt true (KarpRabinHash.init (fun i => i) (fun _ => 0) 2) [1, 2, 3, 4, 5, 6] 2)) k
        = some r ∧
      GenerateDelta true (KarpRabinHash.init (fun i => i) (fun _ => 0) 2) [1, 2, 9, 5, 6] 2
        ((List.range 3).map
          (sigAt true (KarpRabinHash.init (fun i => i) (fun _ => 0) 2) [1, 2, 3, 4, 5, 6] 2))
        = some r.deltas ∧
      k + (if r.it = 5 then 0 else 1) ≤ 5 := by
  obtain ⟨k, r, h1, -, -, h4, h5⟩ := (GenerateDelta_terminates true
    (KarpRabinHash.init (fun i => i) (fun _ => 0) 2) [1, 2, 9, 5, 6] 2
    ((List.range 3).map
      (sigAt true (KarpRabinHash.init (fun i => i) (fun _ => 0) 2) [1, 2, 3, 4, 5, 6] 2))
    (by decide) (by decide)).2
  exact ⟨k, r, h1, h4, h5⟩

/-- With block size 1 and a target of exactly `2 ^ 32` bytes, a pass that
starts with the window `[0, 0)` and running hash 0 accepts the signature of
weak hash 0 and of the strong hash of the empty string, and leaves the window
`[0, 0)` and the running hash 0. -/
theorem step_empty_window (st : KarpRabinHash) (T : List Byte) (hlen : T.length = 4294967296)
    (σ : ScanState) (hI : σ.it = 0 ∧ σ.end_ = 0 ∧ σ.hashvalue = 0) :
    ∃ σ', GenerateDelta.step true st T 1
        (GenerateDelta.tables 1 [⟨0, MurmurHash3 true 0x1234 [], 0, ⟨0, []⟩⟩]).1 σ = some σ' ∧
      σ'.it = 0 ∧ σ'.end_ = 0 ∧ σ'.hashvalue = 0 := by
  obtain ⟨h1, h2, h3⟩ := hI
  have hne : σ.it ≠ T.length := by
    rw [hlen, h1]
    decide
  have hw : σ.window T = [] := by
    simp only [ScanState.window, to_string_view, h1, h2, Nat.sub_self, List.take_zero]
  have hf : List.find? (accepts true T σ) [⟨0, MurmurHash3 true 0x1234 [], 0, ⟨0, []⟩⟩]
      = some ⟨0, MurmurHash3 true 0x1234 [], 0, ⟨0, []⟩⟩ := by
    simp [List.find?_cons, accepts, hw, h3]
  have hmin : 0 + min ((4294967296 - 0) % U32) 1 = 0 := by decide
  refine ⟨_, step_match true st T 1 _ σ _ hne hf, ?_, ?_, ?_⟩
  · rw [afterMatch_it, h2]
  · rw [afterMatch_end, hlen, h2, hmin]
    simp
  · rw [afterMatch_hashvalue, hlen, h2, hmin]
    simp only [to_string_view, Nat.sub_self, List.take_zero]
    rfl

theorem start_empty_window (st : KarpRabinHash) (T : List Byte) (hlen : T.length = 4294967296)
    (sigs : List BlockSignature) :
    (GenerateDelta.start true st T 1 sigs).it = 0 ∧
      (GenerateDelta.start true st T 1 sigs).end_ = 0 ∧
      (GenerateDelta.start true st T 1 sigs).hashvalue = 0 := by
  have hmin : 0 + min (4294967296 % U32) 1 = 0 := by decide
  simp only [GenerateDelta.start, hlen, hmin, to_string_view, Nat.sub_self, List.take_zero]
  exact ⟨trivial, trivial, rfl⟩

/-- C11, counterexample: block size 1, a target of `2 ^ 32` zero bytes, and a
signature table with the one record of weak hash 0 and the strong hash of the
empty string. The conversion to `uint32_t` in `std::min<uint32_t>` makes the
window `[0, 0)`; it is accepted, the next window is `[0, 0)` again, and so on:
at the top of every pass the window start is 0, and the loop does not exit
whatever the number of passes allowed. -/
theorem GenerateDelta_never_exits :
    (List.replicate 4294967296 (0 : Byte)).length = 4294967296 ∧
    (∀ k, ∃ σ, GenerateDelta.stateAt true (KarpRabinHash.init (fun i => i) (fun _ => 0) 1)
        (List.replicate 4294967296 0) 1 [⟨0, MurmurHash3 true 0x1234 [], 0, ⟨0, []⟩⟩] k = some σ ∧
      σ.it = 0 ∧ σ.end_ = 0) ∧
    (∀ fuel, GenerateDelta.loop true (KarpRabinHash.init (fun i => i) (fun _ => 0) 1)
        (List.replicate 4294967296 0) 1
        (GenerateDelta.tables 1 [⟨0, MurmurHash3 true 0x1234 [], 0, ⟨0, []⟩⟩]).1 fuel
        (GenerateDelta.start true (KarpRabinHash.init (fun i => i) (fun _ => 0) 1)
          (List.replicate 4294967296 0) 1 [⟨0, MurmurHash3 true 0x1234 [], 0, ⟨0, []⟩⟩])
      = none) := by
  have hlen : (List.replicate 4294967296 (0 : Byte)).length = 4294967296 :=
    List.length_replicate _ _
  generalize List.replicate 4294967296 (0 : Byte) = T at hlen ⊢
  generalize KarpRabinHash.init (fun i => i) (fun _ => 0) 1 = st
  have h0 := start_empty_window st T hlen [⟨0, MurmurHash3 true 0x1234 [], 0, ⟨0, []⟩⟩]
  refine ⟨hlen, ?_, ?_⟩
  · intro k
    have : ∃ σ, GenerateDelta.stateAt true st T 1
        [⟨0, MurmurHash3 true 0x1234 [], 0, ⟨0, []⟩⟩] k = some σ ∧
        σ.it = 0 ∧ σ.end_ = 0 ∧ σ.hashvalue = 0 := by
      induction k with
      | zero => exact ⟨_, rfl, h0⟩
      | succ k ih =>
        obtain ⟨σ, hk, hI⟩ := ih
        obtain ⟨σ', hs, hI'⟩ := step_empty_window st T hlen σ hI
        exact ⟨σ', by rw [stateAt_succ _ _ _ _ _ k σ hk, hs], hI'⟩
    obtain ⟨σ, hk, h1, h2, -⟩ := this
    exact ⟨σ, hk, h1, h2⟩
  · intro fuel
    have : ∀ σ : ScanState, σ.it = 0 ∧ σ.end_ = 0 ∧ σ.hashvalue = 0 →
        GenerateDelta.loop true st T 1
          (GenerateDelta.tables 1 [⟨0, MurmurHash3 true 0x1234 [], 0, ⟨0, []⟩⟩]).1 fuel σ
        = none := by
      induction fuel with
      | zero =>
        intro σ _
        rfl
      | succ fuel ih =>
        intro σ hI
        obtain ⟨σ', hs, hI'⟩ := step_empty_window st T hlen σ hI
        rw [GenerateDelta.loop, hs]
        exact ih σ' hI'
    exact this _ h0

/-! ## The signature accepted is the first of the table that passes -/

theorem accepts_iff (charSigned : Bool) (s : List Byte) (σ : ScanState) (sg : BlockSignature) :
    accepts charSigned s σ sg = true ↔
      sg.weak = σ.hashvalue ∧ sg.strong = MurmurHash3 charSigned seed (σ.window s) := by
  simp only [accepts, Bool.and_eq_true, decide_eq_true_eq, beq_iff_eq]
  constructor
  · rintro ⟨h1, h2⟩
    exact ⟨h1.symm, h2⟩
  · rintro ⟨h1, h2⟩
    exact ⟨h1.symm, h2⟩

/-- At the top of every pass the running hash is the hash of the window, when
the block size is at least 1, the target shorter than `2 ^ 32` bytes, `BtoN`
initialised for the block size and `hash` reads for every byte of the target
the table entry that `update` reads. -/
theorem stateAt_rolling (charSigned : Bool) (st : KarpRabinHash) (s : List Byte) (B : Nat)
    (sigs : List BlockSignature) (hB : 1 ≤ B) (hs : s.length < U32)
    (hBtoN : st.BtoN = KarpRabinHash.B ^ B % 524288)
    (hw : ∀ c ∈ s, KarpRabinHash.weight charSigned st c = st.hashvalues (c.val : Int))
    (k : Nat) (σ : ScanState)
    (h : GenerateDelta.stateAt charSigned st s B sigs k = some σ) :
    Rolling charSigned st s σ :=
  (stateAt_induction charSigned st s B sigs
    (fun σ => (Sound charSigned s B sigs σ ∧ σ.end_ = min (σ.it + B) s.length) ∧
      Rolling charSigned st s σ)
    ⟨⟨start_sound charSigned st s B sigs, start_shape charSigned st s B sigs hs⟩,
      start_rolling charSigned st s B sigs⟩
    (fun σ σ' hP hstp => ⟨⟨step_sound charSigned st s B sigs σ σ' hP.1.1 hstp,
      step_shape charSigned st s B sigs hs σ σ' hP.1.1 hP.1.2 hstp⟩,
      step_rolling charSigned st s B sigs hB hBtoN hw σ σ' hP.1.1 hP.1.2 hP.2 hstp⟩) k σ h).2

/-- At the top of every pass of the scan that runs the loop body, if some
signature of the table has as weak hash the running hash and as strong hash
the strong hash of the window, then the pass accepts a signature `sg0` with
these two hashes that no signature before it in the table has; when the table
is in index order `sg0` has the smallest `idx` of all signatures with these
hashes. The pass changes the entry of key `sg0.idx` only: it sets its
`missing` to false and its literal to `[last_it, it)`. -/
theorem pass_accepts_first (charSigned : Bool) (st : KarpRabinHash) (T : List Byte)
    (B : Nat) (sigs : List BlockSignature) (k : Nat) (σ : ScanState)
    (hk : GenerateDelta.stateAt charSigned st T B sigs k = some σ) (hit : σ.it ≠ T.length)
    (hex : ∃ sg ∈ sigs, sg.weak = σ.hashvalue ∧
      sg.strong = MurmurHash3 charSigned 0x1234 (σ.window T)) :
    ∃ sg0 before after, sigs = before ++ sg0 :: after ∧
      (sg0.weak = σ.hashvalue ∧ sg0.strong = MurmurHash3 charSigned 0x1234 (σ.window T)) ∧
      (∀ sg ∈ before, ¬ (sg.weak = σ.hashvalue ∧
        sg.strong = MurmurHash3 charSigned 0x1234 (σ.window T))) ∧
      ((sigs.map (fun sg => sg.idx)).Pairwise (· < ·) →
        ∀ sg ∈ sigs, sg.weak = σ.hashvalue ∧
          sg.strong = MurmurHash3 charSigned 0x1234 (σ.window T) → sg0.idx ≤ sg.idx) ∧
      (∃ σ', GenerateDelta.stateAt charSigned st T B sigs (k + 1) = some σ' ∧
        σ'.accepted = ⟨σ.it, σ.end_, σ.last_it, σ.hashvalue, sg0⟩ :: σ.accepted ∧
        σ'.deltas = σ.deltas.map (fun p =>
          if p.1 = sg0.idx then
            (p.1, { p.2 with missing := false, data := to_string_view T σ.last_it σ.it })
          else p) ∧
        sg0.idx ∈ keys σ.deltas ∧
        ∀ p ∈ σ.deltas, p.1 ≠ sg0.idx → p ∈ σ'.deltas) := by
  have hS := stateAt_sound charSigned st T B sigs k σ hk
  have hsome : ∃ sg0, sigs.find? (accepts charSigned T σ) = some sg0 := by
    cases hf : sigs.find? (accepts charSigned T σ) with
    | some sg0 => exact ⟨sg0, rfl⟩
    | none =>
      obtain ⟨sg, hsg, hp⟩ := hex
      have := List.find?_eq_none.mp hf sg hsg
      exact absurd ((accepts_iff charSigned T σ sg).mpr hp) this
  obtain ⟨sg0, hf⟩ := hsome
  obtain ⟨hp0, before, after, hsplit, hbefore⟩ := List.find?_eq_some.mp hf
  have hmem : sg0 ∈ sigs := List.mem_of_find?_eq_some hf
  have hkeys : keys σ.deltas = keys (prepopulated B sigs) := keys_eq_of_skeleton _ _ hS.skel
  have hsorted : (keys σ.deltas).Pairwise (· < ·) := by
    rw [hkeys]
    exact prepopulated_sorted B sigs
  have hkey : sg0.idx ∈ keys σ.deltas := by
    rw [hkeys, mem_keys_prepopulated]
    exact ⟨sg0, hmem, rfl⟩
  have hdel : (afterMatch charSigned st T B σ sg0).deltas = σ.deltas.map (fun p =>
      if p.1 = sg0.idx then
        (p.1, { p.2 with missing := false, data := to_string_view T σ.last_it σ.it })
      else p) := by
    rw [afterMatch_deltas, modify_eq_map _ _ _ hsorted hkey]
  refine ⟨sg0, before, after, hsplit, (accepts_iff charSigned T σ sg0).mp hp0, ?_, ?_, ?_⟩
  · intro sg hsg hp
    have := hbefore sg hsg
    rw [(accepts_iff charSigned T σ sg).mpr hp] at this
    exact absurd this (by simp)
  · intro hord sg hsg hp
    rw [hsplit, List.mem_append, List.mem_cons] at hsg
    rcases hsg with h | h | h
    · have := hbefore sg h
      rw [(accepts_iff charSigned T σ sg).mpr hp] at this
      exact absurd this (by simp)
    · rw [h]
    · rw [hsplit, List.map_append, List.map_cons, List.pairwise_append] at hord
      have := (List.pairwise_cons.mp hord.2.1).1 sg.idx (List.mem_map_of_mem _ h)
      omega
  · refine ⟨afterMatch charSigned st T B σ sg0, ?_, afterMatch_accepted _ _ _ _ _ _, hdel, hkey, ?_⟩
    · rw [stateAt_succ charSigned st T B sigs k σ hk]
      exact step_match charSigned st T B sigs σ sg0 hit hf
    · intro p hp hne
      rw [hdel]
      exact List.mem_map.mpr ⟨p, hp, by rw [if_neg hne]⟩

/-- C12 (amended): for every block size of at least 1, every target shorter
than `2 ^ 32` bytes, with `char` unsigned or all bytes of the target below
`0x80`, the weight table of `init(blockSize)` and every signature table: at
the top of every pass of the scan that runs the loop body, if some signature
of the table has both the weak hash `hash(W)` and the strong hash
`MurmurHash3(0x1234, W)` of the window `W`, then the pass accepts the first
signature of the table, in table order, with these two hashes; when the table
is in index order, as `GenerateSignatures` builds it, that is the signature
with the smallest `idx` of all signatures with these hashes. The pass changes
the entry of key `sg0.idx` only: it sets its `missing` to false and its
literal to `[last_it, it)`, and leaves every other entry as it was. -/
theorem GenerateDelta_tie_break (charSigned : Bool) (rand : Nat → Nat) (outside : Int → Nat)
    (T : List Byte) (B : Nat) (sigs : List BlockSignature) (k : Nat) (σ : ScanState)
    (hB : 1 ≤ B) (hT : T.length < 4294967296)
    (hbytes : charSigned = false ∨ ∀ c ∈ T, c.val < 128)
    (hk : GenerateDelta.stateAt charSigned (KarpRabinHash.init rand outside B) T B sigs k
      = some σ)
    (hit : σ.it ≠ T.length)
    (hex : ∃ sg ∈ sigs,
      sg.weak = KarpRabinHash.hash charSigned (KarpRabinHash.init rand outside B) (σ.window T) ∧
      sg.strong = MurmurHash3 charSigned 0x1234 (σ.window T)) :
    ∃ sg0 before after, sigs = before ++ sg0 :: after ∧
      (sg0.weak
          = KarpRabinHash.hash charSigned (KarpRabinHash.init rand outside B) (σ.window T) ∧
        sg0.strong = MurmurHash3 charSigned 0x1234 (σ.window T)) ∧
      (∀ sg ∈ before, ¬ (sg.weak
          = KarpRabinHash.hash charSigned (KarpRabinHash.init rand outside B) (σ.window T) ∧
        sg.strong = MurmurHash3 charSigned 0x1234 (σ.window T))) ∧
      ((sigs.map (fun sg => sg.idx)).Pairwise (· < ·) →
        ∀ sg ∈ sigs, sg.weak
            = KarpRabinHash.hash charSigned (KarpRabinHash.init rand outside B) (σ.window T) ∧
          sg.strong = MurmurHash3 charSigned 0x1234 (σ.window T) → sg0.idx ≤ sg.idx) ∧
      (∃ σ', GenerateDelta.stateAt charSigned (KarpRabinHash.init rand outside B) T B sigs
          (k + 1) = some σ' ∧
        σ'.accepted = ⟨σ.it, σ.end_, σ.last_it, σ.hashvalue, sg0⟩ :: σ.accepted ∧
        σ'.deltas = σ.deltas.map (fun p =>
          if p.1 = sg0.idx then
            (p.1, { p.2 with missing := false, data := to_string_view T σ.last_it σ.it })
          else p) ∧
        sg0.idx ∈ keys σ.deltas ∧
        ∀ p ∈ σ.deltas, p.1 ≠ sg0.idx → p ∈ σ'.deltas) := by
  have hw : ∀ c ∈ T, KarpRabinHash.weight charSigned (KarpRabinHash.init rand outside B) c
      = (KarpRabinHash.init rand outside B).hashvalues (c.val : Int) := by
    intro c hc
    rcases hbytes with h | h
    · subst h
      exact weight_of_unsigned _ c
    · exact weight_of_ascii _ _ c (h c hc)
  have hroll : σ.hashvalue
      = KarpRabinHash.hash charSigned (KarpRabinHash.init rand outside B) (σ.window T) :=
    stateAt_rolling charSigned _ T B sigs hB hT (KarpRabinHash.init_BtoN _ _ _) hw k σ hk hit
  rw [← hroll] at hex ⊢
  exact pass_accepts_first charSigned _ T B sigs k σ hk hit hex

/-- Witness of `GenerateDelta_tie_break`: block size 1, the target `7 7`
against the signatures of the reference `7 7`, at the top of pass 1, where the
window is the second byte. Both signatures have the hashes of the window, and
the one of index 0 is accepted. -/
theorem GenerateDelta_tie_break_witness :
    ∃ sg0 σ', GenerateDelta.stateAt false (KarpRabinHash.init (fun i => i) (fun _ => 0) 1)
        [7, 7] 1
        ((List.range 2).map
          (sigAt false (KarpRabinHash.init (fun i => i) (fun _ => 0) 1) [7, 7] 1)) 2 = some σ' ∧
      σ'.accepted.head? = some ⟨1, 2, 1, 7, sg0⟩ ∧ sg0.idx = 0 := by
  obtain ⟨sg0, before, after, h1, h2, h3, h4, σ', h5, h6, -⟩ := GenerateDelta_tie_break false
    (fun i => i) (fun _ => 0) [7, 7] 1
    ((List.range 2).map (sigAt false (KarpRabinHash.init (fun i => i) (fun _ => 0) 1) [7, 7] 1))
    1 ⟨1, 1, 2, 7,
      [(0, ⟨0, 0, 1, false, ⟨0, []⟩⟩), (1, ⟨1, 1, 2, true, ⟨0, []⟩⟩)],
      [⟨0, 1, 0, 7, sigAt false (KarpRabinHash.init (fun i => i) (fun _ => 0) 1) [7, 7] 1 0⟩]⟩
    (by decide) (by decide) (Or.inl rfl) rfl (by decide)
    ⟨sigAt false (KarpRabinHash.init (fun i => i) (fun _ => 0) 1) [7, 7] 1 1, by decide,
      by decide⟩
  refine ⟨sg0, σ', h5, by rw [h6]; rfl, ?_⟩
  have := h4 (by decide) (sigAt false (KarpRabinHash.init (fun i => i) (fun _ => 0) 1) [7, 7] 1 0)
    (by decide) (by decide)
  simpa [sigAt] using this

/-- C12, counterexample: block size 1, the target `7`, and the two signatures
of the reference `7 7` in the order index 1, index 0. Both signatures have the
weak and the strong hash of the window `[0, 1)`; the bucket has them in table
order, and the signature of index 1 is accepted, not the one of the smallest
index: entry 1 is set and entry 0 stays missing. -/
theorem GenerateDelta_accepts_table_order :
    (GenerateDelta.run true (KarpRabinHash.init (fun i => i) (fun _ => 0) 1) [7] 1
        [sigAt true (KarpRabinHash.init (fun i => i) (fun _ => 0) 1) [7, 7] 1 1,
         sigAt true (KarpRabinHash.init (fun i => i) (fun _ => 0) 1) [7, 7] 1 0]).map
      (fun σ => (σ.deltas, σ.accepted.map (fun a => [a.sig.idx, a.it, a.end_])))
      = some ([(0, ⟨0, 0, 1, true, ⟨0, []⟩⟩), (1, ⟨1, 1, 2, false, ⟨0, []⟩⟩)], [[1, 0, 1]]) ∧
    [sigAt true (KarpRabinHash.init (fun i => i) (fun _ => 0) 1) [7, 7] 1 1,
      sigAt true (KarpRabinHash.init (fun i => i) (fun _ => 0) 1) [7, 7] 1 0].map
        (fun sg => [sg.idx, sg.weak, sg.strong])
      = [[1, KarpRabinHash.hash true (KarpRabinHash.init (fun i => i) (fun _ => 0) 1) [7],
            MurmurHash3 true 0x1234 [7]],
         [0, KarpRabinHash.hash true (KarpRabinHash.init (fun i => i) (fun _ => 0) 1) [7],
            MurmurHash3 true 0x1234 [7]]] := by
  decide

/-! ## The literal recorded with a match -/

theorem chained_suffix (l₁ l₂ : List Accepted) (q : Nat) (h : chained (l₁ ++ l₂) q) :
    ∃ q', chained l₂ q' := by
  induction l₁ generalizing q with
  | nil => exact ⟨q, h⟩
  | cons a l ih => exact ih _ h.2.2.2

/-- In a chain, the literal of an accepted window starts where the window
accepted just before it ended, or at 0 when it is the first. -/
theorem chained_last_it (a : Accepted) (older : List Accepted) (q : Nat)
    (h : chained (a :: older) q) :
    a.last_it = lastEnd older := by
  obtain ⟨-, -, -, h4⟩ := h
  cases older with
  | nil => exact h4
  | cons b l => exact h4.1

/-- The entry of a key that ends matched holds the literal of the latest
window accepted for the key, which starts at the end of the window accepted
just before it. -/
theorem sound_literal (charSigned : Bool) (T : List Byte) (B : Nat) (sigs : List BlockSignature)
    (σ : ScanState) (hS : Sound charSigned T B sigs σ) (p : Nat × Delta) (hp : p ∈ σ.deltas)
    (hm : p.2.missing = false) :
    ∃ newer a older, σ.accepted = newer ++ a :: older ∧
      a.sig.idx = p.1 ∧ (∀ b ∈ newer, b.sig.idx ≠ p.1) ∧
      a.last_it = lastEnd older ∧
      a.last_it ≤ a.it ∧ a.it ≤ a.end_ ∧ a.end_ ≤ T.length ∧
      p.2.data = to_string_view T a.last_it a.it := by
  have hl := hS.link p hp
  unfold linked at hl
  cases hf : σ.accepted.find? (fun a => decide (a.sig.idx = p.1)) with
  | none =>
    rw [hf] at hl
    rw [hm] at hl
    exact absurd hl.1 (by simp)
  | some a =>
    rw [hf] at hl
    obtain ⟨hpa, newer, older, hsplit, hnewer⟩ := List.find?_eq_some.mp hf
    have hch := hS.chain
    rw [hsplit] at hch
    obtain ⟨q', hq'⟩ := chained_suffix newer (a :: older) _ hch
    have ha : a ∈ σ.accepted := List.mem_of_find?_eq_some hf
    refine ⟨newer, a, older, hsplit, by simpa using hpa, ?_, chained_last_it a older q' hq',
      hq'.2.1, hq'.2.2.1, (hS.events a ha).2.2.2, hl.2⟩
    intro b hb
    have := hnewer b hb
    simpa using this

/-- C13 (amended): for every block size of at least 1, every target shorter
than `2 ^ 32` bytes and every signature table, `GenerateDelta` returns a plan,
and every entry of key `i` that ends with `missing = false` holds as literal
exactly the target slice `[q, p)`, where `p` is the start of the last window
accepted for a signature of index `i` and `q` the end of the window accepted
just before that one, for any index (0 when there is none). At every pass that
accepts a signature, the next window starts at the end of the accepted one,
`last_it` is set there too, the width of the next window is
`min blockSize (len - end)`, and the running hash is the hash of the new
window from scratch when the new window is not at the end of the target. -/
theorem GenerateDelta_literals (charSigned : Bool) (st : KarpRabinHash) (T : List Byte)
    (B : Nat) (sigs : List BlockSignature) (hB : 1 ≤ B) (hT : T.length < 4294967296) :
    ∃ σ, GenerateDelta.run charSigned st T B sigs = some σ ∧
      GenerateDelta charSigned st T B sigs = some σ.deltas ∧
      (∀ p ∈ σ.deltas, p.2.missing = false →
        ∃ newer a older, σ.accepted = newer ++ a :: older ∧
          a.sig.idx = p.1 ∧ (∀ b ∈ newer, b.sig.idx ≠ p.1) ∧
          a.last_it = lastEnd older ∧
          a.last_it ≤ a.it ∧ a.it < a.end_ ∧ a.end_ ≤ T.length ∧
          p.2.data = to_string_view T a.last_it a.it ∧
          p.2.data.bytes = (T.drop a.last_it).take (a.it - a.last_it) ∧
          p.2.data.bytes.length = a.it - a.last_it) ∧
      (∀ k τ sg, GenerateDelta.stateAt charSigned st T B sigs k = some τ → τ.it ≠ T.length →
        GenerateDelta.findSig charSigned T (GenerateDelta.tables B sigs).1 τ = some sg →
        ∃ τ', GenerateDelta.stateAt charSigned st T B sigs (k + 1) = some τ' ∧
          τ'.it = τ.end_ ∧ τ'.last_it = τ.end_ ∧
          τ'.end_ = τ.end_ + min B (T.length - τ.end_) ∧
          (τ'.it ≠ T.length →
            τ'.hashvalue = KarpRabinHash.hash charSigned st (τ'.window T))) := by
  obtain ⟨σ, hrun⟩ := run_exits charSigned st T B sigs hB hT
  have hS := (run_sound charSigned st T B sigs σ hrun).1
  have hne := run_windows_nonempty charSigned st T B sigs hB hT σ hrun
  refine ⟨σ, hrun, (GenerateDelta_eq_some _ _ _ _ _ _).mpr ⟨σ, hrun, rfl⟩, ?_, ?_⟩
  · intro p hp hm
    obtain ⟨newer, a, older, h1, h2, h3, h4, h5, h6, h7, h8⟩ :=
      sound_literal charSigned T B sigs σ hS p hp hm
    have ha : a ∈ σ.accepted := by
      rw [h1]
      simp
    refine ⟨newer, a, older, h1, h2, h3, h4, h5, hne a ha, h7, h8, by rw [h8]; rfl, ?_⟩
    rw [h8, length_to_string_view T _ _ h5 (by omega)]
  · intro k τ sg hk hit hf
    obtain ⟨hSτ, hsh⟩ := stateAt_shape charSigned st T B sigs hT k τ hk
    have h3 := hSτ.end_le
    rw [findSig_eq] at hf
    have hstep := step_match charSigned st T B sigs τ sg hit hf
    refine ⟨afterMatch charSigned st T B τ sg, ?_, afterMatch_it _ _ _ _ _ _,
      afterMatch_last_it _ _ _ _ _ _, ?_, ?_⟩
    · rw [stateAt_succ charSigned st T B sigs k τ hk, hstep]
    · rw [afterMatch_end]
      split
      · rw [Nat.mod_eq_of_lt (by unfold U32; omega), Nat.min_comm]
      · omega
    · intro hne'
      rw [afterMatch_it] at hne'
      simp only [ScanState.window, afterMatch_hashvalue, afterMatch_it, afterMatch_end,
        if_pos hne']

set_option maxRecDepth 100000 in
theorem docB3_ascii : ∀ c ∈ docB3, c.val < 128 := by
  decide

set_option maxRecDepth 100000 in
theorem docs3_separated (charSigned : Bool) : strongSeparates charSigned docA2 docB3 16 = true := by
  cases charSigned <;> decide

set_option maxRecDepth 100000 in
/-- The plan of the third scenario of `main` under the zero weight table. -/
theorem docs3_plan_zeroTable (charSigned : Bool) :
    GenerateDelta charSigned zeroTable16 docB3 16
      ((List.range (blockCount docA2.length 16)).map (sigAt charSigned zeroTable16 docA2 16))
      = some
        [(0, ⟨0, 0, 16, true, ⟨0, []⟩⟩),
         (1, ⟨1, 16, 32, false, ⟨0, bytesOf "When summertim   e "⟩⟩),
         (2, ⟨2, 32, 48, false, ⟨35, []⟩⟩),
         (3, ⟨3, 48, 64, true, ⟨0, []⟩⟩),
         (4, ⟨4, 64, 80, false, ⟨51, bytesOf "ough        that you ne"⟩⟩),
         (5, ⟨5, 80, 96, false, ⟨90, []⟩⟩),
         (6, ⟨6, 96, 112, false, ⟨106, []⟩⟩)] := by
  cases charSigned <;> decide

/-- The third scenario of `main`: for every weight table (and either
signedness of `char`), `calculateDiff(16, a, b)` returns a plan of 7 entries
in which the entries 1 and 4 are matched with the literals
"When summertim   e " and "ough        that you ne". -/
theorem calculateDiff_third_scenario (charSigned : Bool) (rand : Nat → Nat)
    (outside : Int → Nat) :
    ∃ r, calculateDiff charSigned rand outside 16 docA2 docB3 = some r ∧
      r.delta =
        [(0, ⟨0, 0, 16, true, ⟨0, []⟩⟩),
         (1, ⟨1, 16, 32, false, ⟨0, bytesOf "When summertim   e "⟩⟩),
         (2, ⟨2, 32, 48, false, ⟨35, []⟩⟩),
         (3, ⟨3, 48, 64, true, ⟨0, []⟩⟩),
         (4, ⟨4, 64, 80, false, ⟨51, bytesOf "ough        that you ne"⟩⟩),
         (5, ⟨5, 80, 96, false, ⟨90, []⟩⟩),
         (6, ⟨6, 96, 112, false, ⟨106, []⟩⟩)] := by
  have hR : docA2.length < U32 := by decide
  have hT : docB3.length < U32 := by decide
  have h := calculateDiff_eq_zeroTable charSigned rand outside docA2 docB3 hR hT docB3_ascii
    (docs3_separated charSigned)
  rw [docs3_plan_zeroTable charSigned] at h
  cases hc : calculateDiff charSigned rand outside 16 docA2 docB3 with
  | none =>
    rw [hc] at h
    exact absurd h (by simp)
  | some r =>
    rw [hc] at h
    exact ⟨r, rfl, Option.some.inj h⟩

/-- The plan of the third scenario of `main` under the weight table drawn from
`rand i = 7919 * i + 13`. -/
theorem docs3_plan :
    GenerateDelta true (KarpRabinHash.init (fun i => 7919 * i + 13) (fun _ => 0) 16) docB3 16
      ((List.range 7).map
        (sigAt true (KarpRabinHash.init (fun i => 7919 * i + 13) (fun _ => 0) 16) docA2 16))
      = some
        [(0, ⟨0, 0, 16, true, ⟨0, []⟩⟩),
         (1, ⟨1, 16, 32, false, ⟨0, bytesOf "When summertim   e "⟩⟩),
         (2, ⟨2, 32, 48, false, ⟨35, []⟩⟩),
         (3, ⟨3, 48, 64, true, ⟨0, []⟩⟩),
         (4, ⟨4, 64, 80, false, ⟨51, bytesOf "ough        that you ne"⟩⟩),
         (5, ⟨5, 80, 96, false, ⟨90, []⟩⟩),
         (6, ⟨6, 96, 112, false, ⟨106, []⟩⟩)] := by
  have h7 : blockCount docA2.length 16 = 7 := by decide
  have h := GenerateDelta_independent true
    (KarpRabinHash.init (fun i => 7919 * i + 13) (fun _ => 0) 16) zeroTable16 docA2 docB3 16
    (by decide) (by decide) (KarpRabinHash.init_BtoN _ _ _) (KarpRabinHash.init_BtoN _ _ _)
    (fun c hc => weight_of_ascii _ _ c (docB3_ascii c hc))
    (fun c hc => weight_of_ascii _ _ c (docB3_ascii c hc)) (docs3_separated true)
  rw [docs3_plan_zeroTable true, h7] at h
  exact h

/-- Witness of `GenerateDelta_literals`: the third scenario of `main`, block
size 16, with the weight table drawn from `rand i = 7919 * i + 13`. The
entries 1 and 4 get the literals "When summertim   e " and
"ough        that you ne". -/
theorem GenerateDelta_literals_witness :
    ∃ σ, GenerateDelta.run true (KarpRabinHash.init (fun i => 7919 * i + 13) (fun _ => 0) 16)
        docB3 16
        ((List.range 7).map
          (sigAt true (KarpRabinHash.init (fun i => 7919 * i + 13) (fun _ => 0) 16) docA2 16))
        = some σ ∧
      σ.deltas =
        [(0, ⟨0, 0, 16, true, ⟨0, []⟩⟩),
         (1, ⟨1, 16, 32, false, ⟨0, bytesOf "When summertim   e "⟩⟩),
         (2, ⟨2, 32, 48, false, ⟨35, []⟩⟩),
         (3, ⟨3, 48, 64, true, ⟨0, []⟩⟩),
         (4, ⟨4, 64, 80, false, ⟨51, bytesOf "ough        that you ne"⟩⟩),
         (5, ⟨5, 80, 96, false, ⟨90, []⟩⟩),
         (6, ⟨6, 96, 112, false, ⟨106, []⟩⟩)] := by
  obtain ⟨σ, h1, h2, -⟩ := GenerateDelta_literals true
    (KarpRabinHash.init (fun i => 7919 * i + 13) (fun _ => 0) 16) docB3 16
    ((List.range 7).map
      (sigAt true (KarpRabinHash.init (fun i => 7919 * i + 13) (fun _ => 0) 16) docA2 16))
    (by decide) (by decide)
  rw [docs3_plan] at h2
  exact ⟨σ, h1, (Option.some.inj h2).symm⟩

/-- With block size 1 and a target of `2 ^ 32 + 1` bytes that starts with the
byte `c`, the first pass accepts the signature of the block `c` for the window
`[0, 1)`, and the next window is `[1, 1)`. -/
theorem step_next_window_empty (st : KarpRabinHash) (T : List Byte) (c : Byte)
    (hlen : T.length = 4294967297) (hc : T.take 1 = [c]) :
    ∃ τ', GenerateDelta.stateAt true st T 1 [sigAt true st [c] 1 0] 1 = some τ' ∧
      τ'.it = 1 ∧ τ'.end_ = 1 := by
  have hmin : 0 + min (4294967297 % U32) 1 = 1 := by decide
  have hmin2 : 1 + min ((4294967297 - 1) % U32) 1 = 1 := by decide
  have hit : (GenerateDelta.start true st T 1 [sigAt true st [c] 1 0]).it = 0 := rfl
  have hend : (GenerateDelta.start true st T 1 [sigAt true st [c] 1 0]).end_ = 1 := by
    simp only [GenerateDelta.start, hlen, hmin]
  have hv : (GenerateDelta.start true st T 1 [sigAt true st [c] 1 0]).hashvalue
      = KarpRabinHash.hash true st [c] := by
    simp only [GenerateDelta.start, hlen, hmin, to_string_view, List.drop_zero, Nat.sub_zero, hc]
  have hw : (GenerateDelta.start true st T 1 [sigAt true st [c] 1 0]).window T = [c] := by
    simp only [ScanState.window, to_string_view, hit, hend, List.drop_zero, Nat.sub_zero, hc]
  have hacc : accepts true T (GenerateDelta.start true st T 1 [sigAt true st [c] 1 0])
      (sigAt true st [c] 1 0) = true := by
    rw [accepts_iff, hv, hw]
    exact ⟨rfl, rfl⟩
  have hf : List.find? (accepts true T (GenerateDelta.start true st T 1 [sigAt true st [c] 1 0]))
      [sigAt true st [c] 1 0] = some (sigAt true st [c] 1 0) := by
    rw [List.find?_cons, hacc]
  have hne : (GenerateDelta.start true st T 1 [sigAt true st [c] 1 0]).it ≠ T.length := by
    rw [hit, hlen]
    decide
  refine ⟨afterMatch true st T 1 (GenerateDelta.start true st T 1 [sigAt true st [c] 1 0])
    (sigAt true st [c] 1 0), ?_, ?_, ?_⟩
  · rw [stateAt_succ true st T 1 _ 0 _ rfl]
    exact step_match true st T 1 _ _ _ hne hf
  · rw [afterMatch_it, hend]
  · rw [afterMatch_end, hlen, hend, hmin2]
    simp

/-- C13, counterexample: block size 1, a target of `2 ^ 32 + 1` zero bytes and
the signature of the reference `0`. The first pass accepts the window
`[0, 1)`; `2 ^ 32` bytes remain, and the next window is `[1, 1)`, of width 0,
where the claim asks for the width `min 1 (2 ^ 32) = 1`. -/
theorem GenerateDelta_next_window_empty :
    (List.replicate 4294967297 (0 : Byte)).length = 4294967297 ∧
    ∃ τ', GenerateDelta.stateAt true (KarpRabinHash.init (fun i => i) (fun _ => 0) 1)
        (List.replicate 4294967297 0) 1
        [sigAt true (KarpRabinHash.init (fun i => i) (fun _ => 0) 1) [0] 1 0] 1 = some τ' ∧
      τ'.it = 1 ∧ τ'.end_ - τ'.it = 0 ∧
      min 1 ((List.replicate 4294967297 (0 : Byte)).length - τ'.it) = 1 := by
  have hlen : (List.replicate 4294967297 (0 : Byte)).length = 4294967297 :=
    List.length_replicate _ _
  have hc : (List.replicate 4294967297 (0 : Byte)).take 1 = [0] := by
    rw [List.take_replicate]
    rfl
  obtain ⟨τ', h1, h2, h3⟩ := step_next_window_empty
    (KarpRabinHash.init (fun i => i) (fun _ => 0) 1) _ 0 hlen hc
  refine ⟨hlen, τ', h1, h2, by omega, ?_⟩
  rw [hlen, h2]
  decide

/-! ## The target after the last match is in no entry -/

/-- While no window has been accepted the map is the pre-populated one. -/
theorem run_untouched (charSigned : Bool) (st : KarpRabinHash) (s : List Byte) (B : Nat)
    (sigs : List BlockSignature) (σ : ScanState)
    (h : GenerateDelta.run charSigned st s B sigs = some σ) :
    σ.accepted = [] → σ.deltas = prepopulated B sigs := by
  refine (loop_induction charSigned st s B (GenerateDelta.tables B sigs).1
    (fun σ => σ.accepted = [] → σ.deltas = prepopulated B sigs) ?_ _ _ σ ?_ h).1
  · intro τ τ' hP hstep
    obtain ⟨-, hc⟩ := step_cases charSigned st s B sigs τ τ' hstep
    rcases hc with ⟨sg, -, rfl⟩ | ⟨-, -, rfl⟩
    · intro hacc
      rw [afterMatch_accepted] at hacc
      exact absurd hacc (by simp)
    · exact hP
  · intro _
    simp only [GenerateDelta.start, tables_snd]

/-- C14: for every target, block size and signature table, in the plan that
`GenerateDelta` returns every entry either is as pre-populated, missing with
an empty literal, or is matched and holds as literal a range `[q, p)` of the
target that ends at the start `p` of an accepted window; every literal lies
before the end of the last accepted window (before 0 when none was accepted),
so no byte of the target at or after that offset is in any entry; and when no
window was accepted the plan is the pre-populated one, all entries missing
with empty literals. The plan is returned whenever the block size is at least
1 and the target shorter than `2 ^ 32` bytes. -/
theorem GenerateDelta_tail_dropped (charSigned : Bool) (st : KarpRabinHash) (T : List Byte)
    (B : Nat) (sigs : List BlockSignature) :
    (∀ σ, GenerateDelta.run charSigned st T B sigs = some σ →
      GenerateDelta charSigned st T B sigs = some σ.deltas ∧
      σ.last_it = lastEnd σ.accepted ∧ lastEnd σ.accepted ≤ T.length ∧
      (∀ p ∈ σ.deltas,
        (p.2.missing = true ∧ p.2.data = ⟨0, []⟩) ∨
        (p.2.missing = false ∧ ∃ a ∈ σ.accepted, a.sig.idx = p.1 ∧
          p.2.data = to_string_view T a.last_it a.it ∧
          a.last_it ≤ a.it ∧ a.it ≤ a.end_ ∧ a.end_ ≤ lastEnd σ.accepted)) ∧
      (∀ p ∈ σ.deltas,
        p.2.data.bytes = (T.drop p.2.data.offset).take p.2.data.bytes.length ∧
        p.2.data.offset + p.2.data.bytes.length ≤ lastEnd σ.accepted) ∧
      (σ.accepted = [] →
        σ.deltas = (GenerateDelta.start charSigned st T B sigs).deltas ∧
        ∀ p ∈ σ.deltas, p.2.missing = true ∧ p.2.data.bytes = [])) ∧
    (1 ≤ B → T.length < 4294967296 →
      ∃ σ, GenerateDelta.run charSigned st T B sigs = some σ) := by
  constructor
  · intro σ hrun
    have hS := (run_sound charSigned st T B sigs σ hrun).1
    have hch := hS.chain
    have hle := chained_end_le _ _ hch
    have hlast : σ.last_it = lastEnd σ.accepted := by
      cases hacc : σ.accepted with
      | nil =>
        rw [hacc] at hch
        exact hch
      | cons a l =>
        rw [hacc] at hch
        exact hch.1
    have hlen : σ.last_it ≤ T.length := by
      have := hS.last_le
      have := hS.it_le
      have := hS.end_le
      omega
    have hentry : ∀ p ∈ σ.deltas,
        (p.2.missing = true ∧ p.2.data = ⟨0, []⟩) ∨
        (p.2.missing = false ∧ ∃ a ∈ σ.accepted, a.sig.idx = p.1 ∧
          p.2.data = to_string_view T a.last_it a.it ∧
          a.last_it ≤ a.it ∧ a.it ≤ a.end_ ∧ a.end_ ≤ lastEnd σ.accepted) := by
      intro p hp
      cases hm : p.2.missing with
      | true =>
        left
        have hl := hS.link p hp
        unfold linked at hl
        cases hf : σ.accepted.find? (fun a => decide (a.sig.idx = p.1)) with
        | none =>
          rw [hf] at hl
          exact ⟨rfl, hl.2⟩
        | some a =>
          rw [hf, hm] at hl
          exact absurd hl.1 (by simp)
      | false =>
        right
        obtain ⟨newer, a, older, h1, h2, -, -, h5, h6, -, h8⟩ :=
          sound_literal charSigned T B sigs σ hS p hp hm
        have ha : a ∈ σ.accepted := by
          rw [h1]
          simp
        refine ⟨rfl, a, ha, h2, h8, h5, h6, ?_⟩
        rw [← hlast]
        exact (hle a ha).2.2
    refine ⟨(GenerateDelta_eq_some _ _ _ _ _ _).mpr ⟨σ, hrun, rfl⟩, hlast, by omega, hentry,
      ?_, ?_⟩
    · intro p hp
      rcases hentry p hp with ⟨-, hd⟩ | ⟨-, a, ha, -, hd, h5, h6, h7⟩
      · rw [hd]
        exact ⟨by simp, Nat.zero_le _⟩
      · rw [hd, length_to_string_view T _ _ h5 (by omega)]
        simp only [to_string_view]
        exact ⟨trivial, by omega⟩
    · intro hacc
      have hpre := run_untouched charSigned st T B sigs σ hrun hacc
      refine ⟨by rw [hpre]; simp only [GenerateDelta.start, tables_snd], ?_⟩
      intro p hp
      rw [hpre] at hp
      rw [mem_prepopulated B sigs p hp]
      exact ⟨rfl, rfl⟩
  · intro hB hT
    exact run_exits charSigned st T B sigs hB hT

/-! ## The modulus of the weak hash -/

/-- C15 (amended): the mask `2 ^ 19 - 1` is applied with `&`, so the modulus
of the weak hash is `2 ^ 19`. After `init(n)` the constant `BtoN` is
`37 ^ n mod 2 ^ 19`, and for every byte string `s` and every weight table
`hash(s)` is the sum over `k` of
`((37 ^ (len s - 1 - k) mod 2 ^ 19) * hashvalues[s[k]]) mod 2 ^ 19`, reduced
modulo `2 ^ 19`, where `hashvalues[s[k]]` is the value that the subscript with
the plain `char` reads; it is the table entry of the byte value when `char` is
unsigned or the byte is below `0x80`. -/
theorem weak_hash_modulus (charSigned : Bool) (rand : Nat → Nat) (outside : Int → Nat)
    (n : Nat) (st : KarpRabinHash) (s : List Byte) :
    (∀ x, x &&& KarpRabinHash.mask = x % 2 ^ 19) ∧
    (KarpRabinHash.init rand outside n).BtoN = 37 ^ n % 2 ^ 19 ∧
    KarpRabinHash.hash charSigned st s
      = ((List.range s.length).map (fun k =>
          (37 ^ (s.length - 1 - k) % 2 ^ 19
            * st.hashvalues (charToInt charSigned (s.getD k 0))) % 2 ^ 19)).sum % 2 ^ 19 ∧
    ((charSigned = false ∨ ∀ c ∈ s, c.val < 128) →
      KarpRabinHash.hash charSigned st s
        = ((List.range s.length).map (fun k =>
            (37 ^ (s.length - 1 - k) % 2 ^ 19
              * st.hashvalues ((s.getD k 0).val : Int)) % 2 ^ 19)).sum % 2 ^ 19) := by
  have h1 : KarpRabinHash.hash charSigned st s
      = ((List.range s.length).map (fun k =>
          (37 ^ (s.length - 1 - k) % 2 ^ 19
            * st.hashvalues (charToInt charSigned (s.getD k 0))) % 2 ^ 19)).sum % 2 ^ 19 :=
    KarpRabinHash.hash_eq_sum charSigned st s
  refine ⟨KarpRabinHash.and_mask, KarpRabinHash.init_BtoN rand outside n, h1, ?_⟩
  intro hb
  rw [h1]
  congr 2
  apply List.map_congr_left
  intro k hk
  have hk' : k < s.length := List.mem_range.mp hk
  have hmem : s.getD k 0 ∈ s := by
    rw [List.getD_eq_getElem s 0 hk']
    exact List.getElem_mem _
  have hw : KarpRabinHash.weight charSigned st (s.getD k 0)
      = st.hashvalues ((s.getD k 0).val : Int) := by
    rcases hb with h | h
    · subst h
      exact weight_of_unsigned st _
    · exact weight_of_ascii charSigned st _ (h _ hmem)
  simp only [KarpRabinHash.weight] at hw
  rw [hw]

/-- C15, counterexample: after `init(4)` the constant `BtoN` is
`37 ^ 4 mod 2 ^ 19 = 301297`, not `37 ^ 4 mod (2 ^ 19 - 1) = 301300`; and with
the table of weight `i` for the byte `i`, the hash of the string `1 0 0 0 0`
is 301297, where the sum reduced modulo `2 ^ 19 - 1` is 301300. -/
theorem weak_hash_not_mod_M :
    (KarpRabinHash.init (fun i => i) (fun _ => 0) 4).BtoN = 301297 ∧
    37 ^ 4 % (2 ^ 19 - 1) = 301300 ∧
    KarpRabinHash.hash false (KarpRabinHash.init (fun i => i) (fun _ => 0) 4) [1, 0, 0, 0, 0]
      = 301297 ∧
    KarpRabinHash.specHash
      (fun c => (KarpRabinHash.init (fun i => i) (fun _ => 0) 4).hashvalues (c : Int))
      [1, 0, 0, 0, 0] = 301300 := by
  decide

/-! ## The tail word of the strong hash -/

theorem mul_add_lt_is_xor {b i : Nat} (b_lt : b < 2 ^ i) (a : Nat) :
    2 ^ i * a + b = (2 ^ i * a) ^^^ b := by
  apply Nat.eq_of_testBit_eq
  intro j
  simp only [Nat.testBit_mul_pow_two_add _ b_lt, Nat.testBit_xor, Nat.testBit_mul_pow_two]
  by_cases j_lt : j < i
  · simp [Nat.not_le_of_lt, j_lt]
  · have i_le : i ≤ j := Nat.le_of_not_lt j_lt
    have b_lt_j : b < 2 ^ j :=
      Nat.lt_of_lt_of_le b_lt (Nat.pow_le_pow_of_le_right Nat.zero_lt_two i_le)
    simp [i_le, j_lt, Nat.testBit_lt_two_pow, b_lt_j]

theorem charToUInt32_unsigned (c : Byte) : charToUInt32 false c = c.val := by
  have h : c.val < 256 := c.isLt
  simp only [charToUInt32, charToInt, Bool.false_and, Bool.false_eq_true, if_false]
  have e : ((c.val : Int) % (U32 : Int)) = (c.val : Int) :=
    Int.emod_eq_of_lt (by omega) (by unfold U32; omega)
  rw [e]
  rfl

/-- When the conversion `uint32_t(tail[k])` gives the byte value, as it does
for an unsigned `char`, the tail word is the little-endian value of the tail
bytes, with the bits above them zero. -/
theorem tailK1_little_endian (charSigned : Bool) (tail : List Byte) (n : Nat)
    (hn : n = 1 ∨ n = 2 ∨ n = 3)
    (h : ∀ i, charToUInt32 charSigned (tail.getD i 0) = (tail.getD i 0).val) :
    MurmurHash3.tailK1 charSigned tail n
        = (tail.getD 0 0).val + (if 2 ≤ n then (tail.getD 1 0).val * 256 else 0)
          + (if n = 3 then (tail.getD 2 0).val * 65536 else 0) ∧
      MurmurHash3.tailK1 charSigned tail n < 2 ^ (8 * n) := by
  have key : ∀ c0 c1 c2 : Nat, c0 < 256 → c1 < 256 → c2 < 256 →
      ((2 ^ 8 * c1) ^^^ c0 = 2 ^ 8 * c1 + c0) ∧
      ((2 ^ 16 * c2) ^^^ (2 ^ 8 * c1) = 2 ^ 16 * c2 + 2 ^ 8 * c1) ∧
      ((2 ^ 8 * (2 ^ 8 * c2 + c1)) ^^^ c0 = 2 ^ 8 * (2 ^ 8 * c2 + c1) + c0) := by
    intro c0 c1 c2 h0 h1 h2
    exact ⟨(mul_add_lt_is_xor (by omega) c1).symm, (mul_add_lt_is_xor (by omega) c2).symm,
      (mul_add_lt_is_xor (by omega) _).symm⟩
  obtain ⟨x1, x2, x3⟩ := key _ _ _ (tail.getD 0 0).isLt (tail.getD 1 0).isLt (tail.getD 2 0).isLt
  have h0 : (tail.getD 0 0).val < 256 := (tail.getD 0 0).isLt
  have h1 : (tail.getD 1 0).val < 256 := (tail.getD 1 0).isLt
  have h2 : (tail.getD 2 0).val < 256 := (tail.getD 2 0).isLt
  have m1 : (tail.getD 1 0).val * 2 ^ 8 % U32 = 2 ^ 8 * (tail.getD 1 0).val := by
    rw [Nat.mod_eq_of_lt (by unfold U32; omega), Nat.mul_comm]
  have m2 : (tail.getD 2 0).val * 2 ^ 16 % U32 = 2 ^ 16 * (tail.getD 2 0).val := by
    rw [Nat.mod_eq_of_lt (by unfold U32; omega), Nat.mul_comm]
  have d13 : ¬ (1 = 3) := by decide
  have d12 : ¬ (1 = 2) := by decide
  have d23 : ¬ (2 = 3) := by decide
  have l21 : ¬ (2 ≤ 1) := by decide
  have l22 : 2 ≤ 2 := by decide
  have l23 : 2 ≤ 3 := by decide
  rcases hn with rfl | rfl | rfl
  · simp only [MurmurHash3.tailK1, d13, d12, l21, false_or, or_true, if_true, if_false,
      Nat.zero_xor]
    omega
  · simp only [MurmurHash3.tailK1, d23, false_or, true_or, if_true, if_false, Nat.zero_xor,
      h 1, Nat.shiftLeft_eq, m1, x1]
    rw [if_pos l22]
    omega
  · simp only [MurmurHash3.tailK1, true_or, if_true, Nat.zero_xor, h 1, h 2, Nat.shiftLeft_eq,
      m1, m2, x2]
    have e' : 2 ^ 16 * (tail.getD 2 0).val + 2 ^ 8 * (tail.getD 1 0).val
        = 2 ^ 8 * (2 ^ 8 * (tail.getD 2 0).val + (tail.getD 1 0).val) := by omega
    rw [e', x3, if_pos l23]
    omega

/-- C16, failing input: `char` signed and the string of the two bytes
`0x00 0x80`. The conversion `uint32_t(tail[1])` of the `char` `0x80` gives
`0xFFFFFF80`, so the tail word is `0xFFFF8000 = 4294934528`, not the
little-endian value `0x8000 = 32768` of the two bytes, which an unsigned
`char` gives; the bits 16 to 31 are set, and the hash of the string differs
from the hash computed with the bytes read as unsigned. -/
theorem MurmurHash3_tail_sign_extends :
    MurmurHash3.tailK1 true [0, 128] 2 = 4294934528 ∧
    MurmurHash3.tailK1 false [0, 128] 2 = 32768 ∧
    ¬ MurmurHash3.tailK1 true [0, 128] 2 < 2 ^ (8 * 2) ∧
    MurmurHash3 true 0x1234 [0, 128] = 3812109104 ∧
    MurmurHash3 false 0x1234 [0, 128] = 1130180372 := by
  decide

/-- With an unsigned `char` the tail word is the little-endian value of the
tail bytes. -/
theorem tailK1_unsigned (tail : List Byte) (n : Nat) (hn : n = 1 ∨ n = 2 ∨ n = 3) :
    MurmurHash3.tailK1 false tail n
        = (tail.getD 0 0).val + (if 2 ≤ n then (tail.getD 1 0).val * 256 else 0)
          + (if n = 3 then (tail.getD 2 0).val * 65536 else 0) ∧
      MurmurHash3.tailK1 false tail n < 2 ^ (8 * n) :=
  tailK1_little_endian false tail n hn (fun _ => charToUInt32_unsigned _)

/-! ## The running hash at the top of a pass -/

/-- At the top of every pass that runs the loop body the running hash is the
hash of the window, the window is not empty, a window shorter than the block
size ends at the end of the target and is not slid, and `update` is called
for a window of exactly the block size only; this for a block size of at
least 1, a target shorter than `2 ^ 32` bytes, `BtoN` initialised for the
block size, and when `hash` reads for every byte of the target the table
entry that `update` reads (`char` unsigned, or bytes below `0x80`). -/
theorem scan_invariant (charSigned : Bool) (st : KarpRabinHash) (T : List Byte) (B : Nat)
    (sigs : List BlockSignature) (hB : 1 ≤ B) (hT : T.length < U32)
    (hBtoN : st.BtoN = KarpRabinHash.B ^ B % 524288)
    (hw : ∀ c ∈ T, KarpRabinHash.weight charSigned st c = st.hashvalues (c.val : Int))
    (k : Nat) (σ : ScanState)
    (hk : GenerateDelta.stateAt charSigned st T B sigs k = some σ) (hit : σ.it ≠ T.length) :
    σ.hashvalue = KarpRabinHash.hash charSigned st (σ.window T) ∧
    σ.it < σ.end_ ∧ (σ.window T).length = σ.end_ - σ.it ∧
    (σ.end_ - σ.it < B → σ.end_ = T.length ∧
      (GenerateDelta.findSig charSigned T (GenerateDelta.tables B sigs).1 σ = none →
        GenerateDelta.step charSigned st T B (GenerateDelta.tables B sigs).1 σ = none)) ∧
    (∀ σ', GenerateDelta.step charSigned st T B (GenerateDelta.tables B sigs).1 σ = some σ' →
      GenerateDelta.findSig charSigned T (GenerateDelta.tables B sigs).1 σ = none →
      σ.end_ - σ.it = B ∧
      σ'.hashvalue = KarpRabinHash.update st σ.hashvalue (T.getD σ.it 0) (T.getD σ.end_ 0)) := by
  obtain ⟨hS, hsh⟩ := stateAt_shape charSigned st T B sigs hT k σ hk
  have hR := stateAt_rolling charSigned st T B sigs hB hT hBtoN hw k σ hk
  have h2 := hS.it_le
  have h3 := hS.end_le
  refine ⟨hR hit, by omega, length_to_string_view T _ _ h2 h3, ?_, ?_⟩
  · intro hlt
    have hend : σ.end_ = T.length := by omega
    refine ⟨hend, ?_⟩
    intro hf
    rw [findSig_eq] at hf
    exact step_break charSigned st T B sigs σ hf hend
  · intro σ' hstep hf
    rw [findSig_eq] at hf
    obtain ⟨-, hc⟩ := step_cases charSigned st T B sigs σ σ' hstep
    rcases hc with ⟨sg, hf', -⟩ | ⟨-, he, rfl⟩
    · rw [hf] at hf'
      exact absurd hf' (by simp)
    · exact ⟨by omega, rfl⟩

/-- C17, failing input: `char` signed, block size 1, the target `0x00 0xFF`,
the signatures of the reference `0x07`, the weight `i` for the byte `i`, and
zero in the storage around the table. The first window, the byte `0x00`, has
hash 0 and is not accepted; the slide calls `update(0x00, 0xFF)`, which reads
`hashvalues[255] = 255` and leaves the running hash 255. At the top of the
second pass the window is `[1, 2)`, the byte `0xFF`, whose hash from scratch
reads `hashvalues[-1]` and is 0. -/
theorem GenerateDelta_running_hash_differs :
    (GenerateDelta.stateAt true (KarpRabinHash.init (fun i => i) (fun _ => 0) 1) [0, 255] 1
        [sigAt true (KarpRabinHash.init (fun i => i) (fun _ => 0) 1) [7] 1 0] 1).map
      (fun σ => (σ.it, σ.end_, σ.window [0, 255], σ.hashvalue,
        KarpRabinHash.hash true (KarpRabinHash.init (fun i => i) (fun _ => 0) 1)
          (σ.window [0, 255])))
      = some (1, 2, [255], 255, 0) := by
  decide

/-! ## The identity plan when the signatures are pairwise different -/

/-- Every window accepted by the scan of a target shorter than `2 ^ 32` bytes
has the block size, or ends at the end of the target. -/
theorem run_accepted_shape (charSigned : Bool) (st : KarpRabinHash) (s : List Byte) (B : Nat)
    (sigs : List BlockSignature) (hs : s.length < U32) (r : ScanState)
    (h : GenerateDelta.run charSigned st s B sigs = some r) :
    ∀ a ∈ r.accepted, a.end_ = min (a.it + B) s.length := by
  refine (run_induction charSigned st s B sigs hs
    (fun σ => ∀ a ∈ σ.accepted, a.end_ = min (a.it + B) s.length) ?_ ?_ r h).1
  · intro a ha
    simp [GenerateDelta.start] at ha
  · intro σ σ' hS hsh hP hstep
    obtain ⟨hit, hc⟩ := step_cases charSigned st s B sigs σ σ' hstep
    rcases hc with ⟨sg, hf, rfl⟩ | ⟨hf, he, rfl⟩
    · intro a ha
      rw [afterMatch_accepted] at ha
      rcases List.mem_cons.mp ha with rfl | ha
      · exact hsh
      · exact hP a ha
    · exact hP

/-- C18 (amended): for every string `R` shorter than `2 ^ 32` bytes, every
block size `B ≥ 1` and every weight table such that no two records of
`GenerateSignatures(R, B)` have both the same weak and the same strong hash,
`GenerateDelta(R, B, GenerateSignatures(R, B))` returns a plan with one entry
for each block, every entry has `missing = false` and an empty literal, and
each block `i` was accepted for the window of the target that starts at
`i * B` and ends at `min (i * B + B) (len R)`, with its own signature. -/
theorem GenerateDelta_distinct_identity (charSigned : Bool) (st : KarpRabinHash)
    (R : List Byte) (B : Nat) (hB : 1 ≤ B) (hR : R.length < 4294967296)
    (hdist : ∀ sigs, GenerateSignatures charSigned st R B = some sigs →
      ∀ j, j < sigs.length → ∀ i, i < j →
        ¬ ((sigs.getD i default).weak = (sigs.getD j default).weak ∧
           (sigs.getD i default).strong = (sigs.getD j default).strong)) :
    ∃ sigs σ, GenerateSignatures charSigned st R B = some sigs ∧
      GenerateDelta.run charSigned st R B sigs = some σ ∧
      GenerateDelta charSigned st R B sigs = some σ.deltas ∧
      keys σ.deltas = List.range sigs.length ∧
      (∀ p ∈ σ.deltas, p.2.missing = false ∧ p.2.data.bytes = []) ∧
      (∀ i, i < sigs.length → ∃ a ∈ σ.accepted, a.sig = sigs.getD i default ∧
        a.sig.idx = i ∧ a.it = i * B ∧ a.end_ = min (i * B + B) R.length ∧
        (to_string_view R a.it a.end_).bytes = (sigs.getD i default).data.bytes) := by
  have hsig := GenerateSignatures_eq charSigned st R B hB hR
  have hd := hdist _ hsig
  obtain ⟨σ, hrun⟩ := run_exits charSigned st R B
    ((List.range (blockCount R.length B)).map (sigAt charSigned st R B)) hB hR
  obtain ⟨hkeys, hall⟩ := run_identity charSigned st R B hB hR σ hrun
  obtain ⟨hA, hend⟩ := run_aligned charSigned st R B hB hR σ hrun
  have hshape := run_accepted_shape charSigned st R B _ hR σ hrun
  have hlen : ((List.range (blockCount R.length B)).map (sigAt charSigned st R B)).length
      = blockCount R.length B := by simp
  have hd' : ∀ i j, i < j → j < blockCount R.length B →
      ¬ ((sigAt charSigned st R B i).weak = (sigAt charSigned st R B j).weak ∧
         (sigAt charSigned st R B i).strong = (sigAt charSigned st R B j).strong) := by
    intro i j hij hj
    have := hd j (by rw [hlen]; exact hj) i hij
    rw [getD_sigAt charSigned st R B _ i (by omega), getD_sigAt charSigned st R B _ j hj] at this
    exact this
  refine ⟨_, σ, hsig, hrun, (GenerateDelta_eq_some _ _ _ _ _ _).mpr ⟨σ, hrun, rfl⟩,
    by simpa using hkeys, ?_, ?_⟩
  · intro p hp
    obtain ⟨hpn, hbytes, hiff⟩ := hall p hp
    exact ⟨hiff.mpr (fun j hj => hd' j p.1 hj hpn), hbytes⟩
  · intro i hi
    rw [hlen] at hi
    have hlt := blockCount_tight R.length B hB i hi
    obtain ⟨a, ha, hai⟩ := hA.done i hi (by rw [hend]; exact hlt)
    obtain ⟨-, i', hi', hiB, hfind⟩ := hA.events a ha
    have hii : i' = i := by
      rw [hai] at hiB
      exact (Nat.eq_of_mul_eq_mul_right (by omega) hiB).symm
    subst hii
    obtain ⟨m, hm1, hm2, hm3, hm4⟩ := find?_sigAt_min charSigned st R B _ _ _ hfind
    have hmi : m = i' := by
      by_contra hne
      rcases Nat.lt_or_gt_of_ne hne with h | h
      · rw [sameAs_iff] at hm3
        exact hd' m i' h hi' ⟨hm3.1.symm, hm3.2⟩
      · have := hm4 i' h
        rw [sameAs_self] at this
        exact absurd this (by simp)
    subst hmi
    have he := hshape a ha
    rw [hai] at he
    refine ⟨a, ha, ?_, ?_, hai, he, ?_⟩
    · rw [getD_sigAt charSigned st R B _ m hi, hm2]
    · rw [hm2]
      rfl
    · rw [getD_sigAt charSigned st R B _ m hi, hai, he]
      rfl

/-- Witness of `GenerateDelta_distinct_identity`: the reference `1 2 3 4 5` in
blocks of two. -/
theorem GenerateDelta_distinct_identity_witness :
    ∃ sigs σ, GenerateSignatures true (KarpRabinHash.init (fun i => i) (fun _ => 0) 2)
        [1, 2, 3, 4, 5] 2 = some sigs ∧
      GenerateDelta.run true (KarpRabinHash.init (fun i => i) (fun _ => 0) 2)
        [1, 2, 3, 4, 5] 2 sigs = some σ ∧
      keys σ.deltas = List.range sigs.length ∧
      (∀ p ∈ σ.deltas, p.2.missing = false ∧ p.2.data.bytes = []) := by
  obtain ⟨sigs, σ, h1, h2, -, h4, h5, -⟩ := GenerateDelta_distinct_identity true
    (KarpRabinHash.init (fun i => i) (fun _ => 0) 2) [1, 2, 3, 4, 5] 2 (by decide) (by decide)
    (by
      intro sigs hs
      have e : GenerateSignatures true (KarpRabinHash.init (fun i => i) (fun _ => 0) 2)
          [1, 2, 3, 4, 5] 2
          = some ((List.range 3).map
              (sigAt true (KarpRabinHash.init (fun i => i) (fun _ => 0) 2) [1, 2, 3, 4, 5] 2)) := by
        decide
      rw [e] at hs
      rw [← Option.some.inj hs]
      decide)
  exact ⟨sigs, σ, h1, h2, h4, h5⟩

/-- The signature table of a document of `2 ^ 32 + 4` bytes with block size 4:
the conversion to `uint32_t` leaves 4 bytes, and the table has the one record
of the first block. -/
theorem GenerateSignatures_first_block (charSigned : Bool) (st : KarpRabinHash)
    (R X : List Byte) (hlen : R.length = 4294967300) (hX : R.take 4 = X) :
    GenerateSignatures charSigned st R 4
      = some [⟨0, MurmurHash3 charSigned seed X, KarpRabinHash.hash charSigned st X, ⟨0, X⟩⟩] := by
  have hmin : 0 + min (4294967300 % U32) 4 = 4 := by decide
  have hmin2 : 4 + min ((4294967300 - 4) % U32) 4 = 4 := by decide
  have hfuel : 4294967300 + 1 = 4294967299 + 1 + 1 := by decide
  have h04 : ¬ (0 = 4) := by decide
  have hne : (4 : Nat) ≠ 4294967300 := by decide
  have hview : to_string_view R 0 4 = ⟨0, X⟩ := by
    simp only [to_string_view, List.drop_zero, Nat.sub_zero, hX]
  unfold GenerateSignatures
  rw [hlen, hmin, hfuel, GenerateSignatures.loop, if_neg h04]
  simp only [hview, hlen, if_pos hne, hmin2, List.nil_append]
  rw [GenerateSignatures.loop, if_pos rfl]

/-- With block size 4 and a target of `2 ^ 32 + 4` bytes, when the one
signature of the table has the weak and the strong hash of the empty string,
a pass that starts with the window `[4, 4)` and running hash 0 accepts the
signature and leaves the window `[4, 4)` and the running hash 0. -/
theorem step_stuck_after_block (charSigned : Bool) (st : KarpRabinHash) (R : List Byte)
    (sg : BlockSignature) (hlen : R.length = 4294967300) (hwk : sg.weak = 0)
    (hst : sg.strong = MurmurHash3 charSigned seed [])
    (σ : ScanState) (hI : σ.it = 4 ∧ σ.end_ = 4 ∧ σ.hashvalue = 0) :
    ∃ σ', GenerateDelta.step charSigned st R 4 (GenerateDelta.tables 4 [sg]).1 σ = some σ' ∧
      σ'.it = 4 ∧ σ'.end_ = 4 ∧ σ'.hashvalue = 0 := by
  obtain ⟨h1, h2, h3⟩ := hI
  have hne : σ.it ≠ R.length := by
    rw [hlen, h1]
    decide
  have hw : σ.window R = [] := by
    simp only [ScanState.window, to_string_view, h1, h2, Nat.sub_self, List.take_zero]
  have hacc : accepts charSigned R σ sg = true := by
    rw [accepts_iff, hw, h3]
    exact ⟨hwk, hst⟩
  have hf : List.find? (accepts charSigned R σ) [sg] = some sg := by
    rw [List.find?_cons, hacc]
  have hmin : 4 + min ((4294967300 - 4) % U32) 4 = 4 := by decide
  refine ⟨_, step_match charSigned st R 4 _ σ _ hne hf, ?_, ?_, ?_⟩
  · rw [afterMatch_it, h2]
  · rw [afterMatch_end, hlen, h2, hmin]
    simp
  · rw [afterMatch_hashvalue, hlen, h2, hmin]
    simp only [to_string_view, Nat.sub_self, List.take_zero]
    rfl

/-- The scan of a reference of `2 ^ 32 + 4` bytes against its own signature
table, with block size 4, does not exit when the first block has the weak
hash 0 and the strong hash of the empty string. -/
theorem loop_stuck_after_block (charSigned : Bool) (st : KarpRabinHash) (R X : List Byte)
    (hlen : R.length = 4294967300) (hX : R.take 4 = X)
    (hwk : KarpRabinHash.hash charSigned st X = 0)
    (hst : MurmurHash3 charSigned seed X = MurmurHash3 charSigned seed []) (fuel : Nat) :
    GenerateDelta.loop charSigned st R 4
        (GenerateDelta.tables 4
          [⟨0, MurmurHash3 charSigned seed X, KarpRabinHash.hash charSigned st X, ⟨0, X⟩⟩]).1 fuel
        (GenerateDelta.start charSigned st R 4
          [⟨0, MurmurHash3 charSigned seed X, KarpRabinHash.hash charSigned st X, ⟨0, X⟩⟩])
      = none := by
  have hstuck : ∀ (fuel : Nat) (σ : ScanState), σ.it = 4 ∧ σ.end_ = 4 ∧ σ.hashvalue = 0 →
      GenerateDelta.loop charSigned st R 4
        (GenerateDelta.tables 4
          [⟨0, MurmurHash3 charSigned seed X, KarpRabinHash.hash charSigned st X, ⟨0, X⟩⟩]).1
        fuel σ = none := by
    intro fuel
    induction fuel with
    | zero =>
      intro σ _
      rfl
    | succ fuel ih =>
      intro σ hI
      obtain ⟨σ', hs, hI'⟩ := step_stuck_after_block charSigned st R
        ⟨0, MurmurHash3 charSigned seed X, KarpRabinHash.hash charSigned st X, ⟨0, X⟩⟩
        hlen hwk hst σ hI
      rw [GenerateDelta.loop, hs]
      exact ih σ' hI'
  cases fuel with
  | zero => rfl
  | succ fuel =>
    have hmin : 0 + min (4294967300 % U32) 4 = 4 := by decide
    have hmin2 : 4 + min ((4294967300 - 4) % U32) 4 = 4 := by decide
    have hview : (to_string_view R 0 4).bytes = X := by
      simp only [to_string_view, List.drop_zero, Nat.sub_zero, hX]
    have hit : (GenerateDelta.start charSigned st R 4
        [⟨0, MurmurHash3 charSigned seed X, KarpRabinHash.hash charSigned st X, ⟨0, X⟩⟩]).it
        = 0 := rfl
    have hend : (GenerateDelta.start charSigned st R 4
        [⟨0, MurmurHash3 charSigned seed X, KarpRabinHash.hash charSigned st X, ⟨0, X⟩⟩]).end_
        = 4 := by
      simp only [GenerateDelta.start, hlen, hmin]
    have hv : (GenerateDelta.start charSigned st R 4
        [⟨0, MurmurHash3 charSigned seed X, KarpRabinHash.hash charSigned st X, ⟨0, X⟩⟩]).hashvalue
        = KarpRabinHash.hash charSigned st X := by
      simp only [GenerateDelta.start, hlen, hmin, hview]
    have hw : (GenerateDelta.start charSigned st R 4
        [⟨0, MurmurHash3 charSigned seed X, KarpRabinHash.hash charSigned st X, ⟨0, X⟩⟩]).window R
        = X := by
      simp only [ScanState.window, hit, hend, hview]
    have hacc : accepts charSigned R (GenerateDelta.start charSigned st R 4
        [⟨0, MurmurHash3 charSigned seed X, KarpRabinHash.hash charSigned st X, ⟨0, X⟩⟩])
        ⟨0, MurmurHash3 charSigned seed X, KarpRabinHash.hash charSigned st X, ⟨0, X⟩⟩
        = true := by
      rw [accepts_iff, hv, hw]
      exact ⟨rfl, rfl⟩
    have hne : (GenerateDelta.start charSigned st R 4
        [⟨0, MurmurHash3 charSigned seed X, KarpRabinHash.hash charSigned st X, ⟨0, X⟩⟩]).it
        ≠ R.length := by
      rw [hit, hlen]
      decide
    rw [GenerateDelta.loop, step_match charSigned st R 4 _ _ _ hne
      (by rw [List.find?_cons, hacc])]
    apply hstuck
    refine ⟨?_, ?_, ?_⟩
    · rw [afterMatch_it, hend]
    · rw [afterMatch_end, hlen, hend, hmin2]
      simp
    · rw [afterMatch_hashvalue, hlen, hend, hmin2]
      simp only [to_string_view, Nat.sub_self, List.take_zero]
      rfl

/-- C18, counterexample: `char` unsigned, block size 4, the weight 472229 for
the byte 231 and 1 for every other byte, and the reference of `2 ^ 32 + 4`
bytes made of the block `129 69 99 231`, whose strong hash is that of the
empty string and whose weak hash is `37 ^ 3 + 37 ^ 2 + 37 + 472229 = 2 ^ 19`
reduced to 0, followed by `2 ^ 32` zero bytes. The
signature table has the one record of the first block, so no two records
share their hashes. In the scan of the reference the first block is accepted;
then `2 ^ 32` bytes remain, the conversion to `uint32_t` makes the next window
`[4, 4)`, the empty window is accepted for the same record, and again for
ever: the loop does not exit whatever the number of passes allowed, and
`GenerateDelta` returns no plan. -/
theorem GenerateDelta_distinct_never_returns :
    ([129, 69, 99, 231] ++ List.replicate 4294967296 (0 : Byte)).length = 4294967300 ∧
    MurmurHash3 false 0x1234 [129, 69, 99, 231] = MurmurHash3 false 0x1234 [] ∧
    GenerateSignatures false
        (KarpRabinHash.init (fun i => if i = 231 then 472229 else 1) (fun _ => 0) 4)
        ([129, 69, 99, 231] ++ List.replicate 4294967296 0) 4
      = some [⟨0, 3033012869, 0, ⟨0, [129, 69, 99, 231]⟩⟩] ∧
    (∀ fuel, GenerateDelta.loop false
        (KarpRabinHash.init (fun i => if i = 231 then 472229 else 1) (fun _ => 0) 4)
        ([129, 69, 99, 231] ++ List.replicate 4294967296 0) 4
        (GenerateDelta.tables 4 [⟨0, 3033012869, 0, ⟨0, [129, 69, 99, 231]⟩⟩]).1 fuel
        (GenerateDelta.start false
          (KarpRabinHash.init (fun i => if i = 231 then 472229 else 1) (fun _ => 0) 4)
          ([129, 69, 99, 231] ++ List.replicate 4294967296 0) 4
          [⟨0, 3033012869, 0, ⟨0, [129, 69, 99, 231]⟩⟩]) = none) ∧
    GenerateDelta false
        (KarpRabinHash.init (fun i => if i = 231 then 472229 else 1) (fun _ => 0) 4)
        ([129, 69, 99, 231] ++ List.replicate 4294967296 0) 4
        [⟨0, 3033012869, 0, ⟨0, [129, 69, 99, 231]⟩⟩] = none := by
  have hlen : ([129, 69, 99, 231] ++ List.replicate 4294967296 (0 : Byte)).length
      = 4294967300 := by
    rw [List.length_append, List.length_replicate]
    rfl
  have hX : ([129, 69, 99, 231] ++ List.replicate 4294967296 (0 : Byte)).take 4
      = [129, 69, 99, 231] := List.take_left' rfl
  have hst : MurmurHash3 false seed [129, 69, 99, 231] = 3033012869 := by decide
  have hst0 : MurmurHash3 false seed [] = 3033012869 := by decide
  have hwk : KarpRabinHash.hash false
      (KarpRabinHash.init (fun i => if i = 231 then 472229 else 1) (fun _ => 0) 4)
      [129, 69, 99, 231] = 0 := by decide
  generalize [129, 69, 99, 231] ++ List.replicate 4294967296 (0 : Byte) = R at hlen hX ⊢
  generalize KarpRabinHash.init (fun i => if i = 231 then 472229 else 1) (fun _ => 0) 4 = st
    at hwk ⊢
  have hsig := GenerateSignatures_first_block false st R _ hlen hX
  have hloop := loop_stuck_after_block false st R _ hlen hX hwk (hst.trans hst0.symm)
  rw [hst, hwk] at hsig hloop
  exact ⟨hlen, hst.trans hst0.symm, hsig, hloop, by
    rw [GenerateDelta, GenerateDelta.run, hloop]
    rfl⟩

/-! ## Two weight tables, two plans -/

/-- C19, failing input: `char` signed, block size 1, the reference `0x80` and
the target `0x01 0x80`, zero in the storage around the table, and two weight
tables that differ in the weight of the byte `0x80` only: 0 in the first, 128
in the second; the weight of every other byte `i` is `i`. The strong hash
separates the three strings `0x80`, `0x01` and the empty string. In both runs
the signature of the block has the weak hash 0, for `hash` reads
`hashvalues[-128]`. The slide to the window `0x80` calls `update`, which reads
`hashvalues[128]`: with the first table the running hash is 0 and the block
is matched, with the literal `0x01`; with the second it is 128, the bucket is
empty and the block stays missing. -/
theorem calculateDiff_depends_on_weights :
    MurmurHash3 true 0x1234 [128] ≠ MurmurHash3 true 0x1234 [1] ∧
    MurmurHash3 true 0x1234 [128] ≠ MurmurHash3 true 0x1234 [] ∧
    MurmurHash3 true 0x1234 [1] ≠ MurmurHash3 true 0x1234 [] ∧
    (calculateDiff true (fun i => if i = 128 then 0 else i) (fun _ => 0) 1 [128] [1, 128]).map
        (fun r => (r.sig.map (fun sg => (sg.idx, sg.weak)), r.delta))
      = some ([(0, 0)], [(0, ⟨0, 0, 1, false, ⟨0, [1]⟩⟩)]) ∧
    (calculateDiff true (fun i => i) (fun _ => 0) 1 [128] [1, 128]).map
        (fun r => (r.sig.map (fun sg => (sg.idx, sg.weak)), r.delta))
      = some ([(0, 0)], [(0, ⟨0, 0, 1, true, ⟨0, []⟩⟩)]) := by
  decide

/-! ## The index of the weight table -/

/-- For an unsigned `char`, or a byte below `0x80`, the subscript of
`hashvalues` in `hash` is the byte value, in `[0, 256)`, the subscript that
`update` uses. -/
theorem charToInt_in_table (charSigned : Bool) (c : Byte)
    (h : charSigned = false ∨ c.val < 128) :
    charToInt charSigned c = (c.val : Int) ∧ 0 ≤ charToInt charSigned c ∧
      charToInt charSigned c < 256 := by
  have hc : c.val < 256 := c.isLt
  have e : charToInt charSigned c = (c.val : Int) := by
    rcases h with h | h
    · subst h
      simp [charToInt]
    · have : ¬ 128 ≤ c.val := by omega
      simp [charToInt, this]
  rw [e]
  omega

/-- The function `update` reads entries of the table only: two records with
the same `BtoN` and the same 256 entries give the same result. -/
theorem update_reads_table (st₁ st₂ : KarpRabinHash) (hB : st₁.BtoN = st₂.BtoN)
    (ht : ∀ i : Int, 0 ≤ i → i < 256 → st₁.hashvalues i = st₂.hashvalues i)
    (hashvalue : Nat) (out in_ : Byte) :
    KarpRabinHash.update st₁ hashvalue out in_ = KarpRabinHash.update st₂ hashvalue out in_ := by
  have ho : out.val < 256 := out.isLt
  have hi : in_.val < 256 := in_.isLt
  unfold KarpRabinHash.update
  rw [hB, ht (out.val : Int) (by omega) (by omega), ht (in_.val : Int) (by omega) (by omega)]

/-- C20, failing input: `char` signed and the string of the one byte `0xFF`.
`hash` subscripts the table with the `char` promoted to `int`, which is `-1`,
while `update` subscripts it with the `uint8_t` 255. Two runs with the same
256 table entries, `i` for the byte `i`, and different values in the storage
just before the table, 0 and 1, give the hashes 0 and 1 of the string, so the
lookup of `hash` is outside `[0, 256)`; neither is the weight 255 that
`update` gives the byte. -/
theorem hash_reads_outside_table :
    charToInt true 255 = -1 ∧ (((255 : Byte).val : Nat) : Int) = 255 ∧
    (∀ i : Int, 0 ≤ i → i < 256 →
      (KarpRabinHash.init (fun i => i) (fun _ => 0) 1).hashvalues i
        = (KarpRabinHash.init (fun i => i) (fun i => if i = -1 then 1 else 0) 1).hashvalues i) ∧
    KarpRabinHash.hash true (KarpRabinHash.init (fun i => i) (fun _ => 0) 1) [255] = 0 ∧
    KarpRabinHash.hash true
      (KarpRabinHash.init (fun i => i) (fun i => if i = -1 then 1 else 0) 1) [255] = 1 ∧
    (KarpRabinHash.init (fun i => i) (fun _ => 0) 1).hashvalues (((255 : Byte).val : Nat) : Int)
      = 255 ∧
    KarpRabinHash.update (KarpRabinHash.init (fun i => i) (fun _ => 0) 1) 0 0 255 = 255 := by
  refine ⟨by decide, by decide, ?_, by decide, by decide, by decide, by decide⟩
  intro i h0 h1
  have h : 0 ≤ i ∧ i < ((KarpRabinHash.nbrofchars : Nat) : Int) := ⟨h0, h1⟩
  simp only [KarpRabinHash.init, if_pos h]

end RollingHash
